import Mathlib

/-! The backup data processor of `pkg/ccl/backupccl/backup_processor.go`, with
the heartbeat messages of `pkg/rpc/heartbeat.pb.go` and the precondition of
the first upgrade of `pkg/upgrade/upgrades/first_upgrade.go` after it.

A shallow embedding of `runBackupProcessor`: the splitting of the assigned
spans into request spans, the initial fill of the `todo` channel, and the
export workers that drain it.  Loops whose iterations depend on the KV store,
the clock, the cluster settings or the context are embedded as step functions
that take those readings as explicit inputs.

In the workers and the queue, Go `int`, `time.Time` and `time.Duration`
values are embedded as unbounded integers: `attempts` starts at zero and grows
by one per retry, and instants and durations are nanosecond counts, all far
from the 64-bit range.  The `int32` count of completed spans, the `int` and
`int64` values of the worker pool sizer, the `int` total of the repair loop of
the first upgrade and the 64-bit indices and lengths of the heartbeat messages
are brought back into the range of their type after each operation.  Logging,
tracing, the testing knobs, the export statistics and the admission header do
not influence control flow and are left out.  For the workers, only the calls
of `write` and `writeWithNoData` on the sink are recorded, with the outcome of
`write` and of the final `flush` given from outside; the file sink itself is
not part of the sources at hand and is embedded from its description.
-/

namespace Backup

/-! ## Keys, spans and timestamps -/

/-- A `roachpb.Key`: a byte string, bytes as natural numbers. -/
abbrev Key := List Nat

/-- The order of `bytes.Compare(a, b) < 0`: lexicographic on bytes. -/
def bytesLess : List Nat → List Nat → Bool
  | [], [] => false
  | [], _ :: _ => true
  | _ :: _, [] => false
  | a :: as, b :: bs => if a < b then true else if b < a then false else bytesLess as bs

/-- An `hlc.Timestamp`; the zero value is the empty timestamp. -/
structure Timestamp where
  wallTime : Int := 0
  logical : Int := 0
deriving DecidableEq, Repr

/-- `hlc.Timestamp.IsEmpty`: the timestamp is the zero value. -/
def Timestamp.IsEmpty (t : Timestamp) : Bool :=
  t.wallTime == 0 && t.logical == 0

/-- A `roachpb.Span`: the keys `[key, endKey)`, or the single `key` when
`endKey` is empty. -/
structure Span where
  key : Key := []
  endKey : Key := []
deriving DecidableEq, Repr

/-- Modelled from the spec: the method `Valid` of `roachpb.Span`, which
package `roachpb` declares.  A span is a half-open interval of keys
`[start, end)`; it is valid when start and end are not both empty and either
the end key is empty (a single key) or the start key sorts before the end
key. -/
def Span.Valid (s : Span) : Bool :=
  if s.key.length == 0 && s.endKey.length == 0 then false
  else if s.endKey.length == 0 then true
  else bytesLess s.key s.endKey

/-! ## Data model of the processor -/

/-- The struct `spanAndTime`: one unit of work of a worker. -/
structure spanAndTime where
  span : Span := {}
  firstKeyTS : Timestamp := {}
  start : Timestamp := {}
  end_ : Timestamp := {}
  attempts : Int := 0
  lastTried : Int := 0
  finishesSpec : Bool := false
deriving DecidableEq, Repr

/-- A `roachpb.RowCount`. -/
structure RowCount where
  dataSize : Int := 0
  rows : Int := 0
  indexEntries : Int := 0
deriving DecidableEq, Repr

/-- A `kvpb.BulkOpSummary`: the per-index entry counts of an exported file. -/
structure BulkOpSummary where
  dataSize : Int := 0
  entryCounts : List (Nat × Int) := []
deriving DecidableEq, Repr

/-- A `backuppb.BackupManifest_File`, the fields the processor fills in. -/
structure BackupManifest_File where
  span : Span := {}
  path : String := ""
  entryCounts : RowCount := {}
  localityKV : String := ""
  startTime : Timestamp := {}
  endTime : Timestamp := {}
deriving DecidableEq, Repr

/-- The struct `exportedSpan`: what a worker hands to its sink. -/
structure exportedSpan where
  metadata : BackupManifest_File := {}
  dataSST : List Nat := []
  revStart : Timestamp := {}
  completedSpans : Int := 0
  atKeyBoundary : Bool := false
deriving DecidableEq, Repr

/-- A `kvpb.ExportRequest`. -/
structure ExportRequest where
  key : Key
  endKey : Key
  resumeKeyTS : Timestamp
  startTime : Timestamp
  mvccFilter : Nat
  targetFileSize : Int
  splitMidKey : Bool
deriving DecidableEq, Repr

/-- The `lock.WaitPolicy` of a batch header; `Block` is the zero value. -/
inductive WaitPolicy where
  | Block
  | Error
  | SkipLocked
deriving DecidableEq, Repr

/-- The zero value of `roachpb.UserPriority`, left in a header that does not
set it. -/
def UnspecifiedUserPriority : Nat := 0

/-- The constant `roachpb.MaxUserPriority`. -/
def MaxUserPriority : Nat := 1000

/-- A `kvpb.Header`, the fields the worker sets. -/
structure Header where
  targetBytes : Int
  timestamp : Timestamp
  returnElasticCPUResumeSpans : Bool
  userPriority : Nat
  waitPolicy : WaitPolicy
deriving DecidableEq, Repr

/-- One entry of `ExportResponse.Files`. -/
structure ExportResponse_File where
  span : Span := {}
  path : String := ""
  sst : List Nat := []
  exported : BulkOpSummary := {}
  endKeyTS : Timestamp := {}
deriving DecidableEq, Repr

/-- A `kvpb.ExportResponse`; `resumeSpan = none` is the nil pointer. -/
structure ExportResponse where
  files : List ExportResponse_File := []
  resumeSpan : Option Span := none
  startTime : Timestamp := {}
deriving DecidableEq, Repr

/-- What `pErr.GetDetail()` is, as far as the worker tells the cases apart. -/
inductive ErrorDetail where
  | writeIntentError
  | batchTimestampBeforeGCError (dataExcludedFromBackup : Bool)
  | other
deriving DecidableEq, Repr

/-- A non-nil `exportRequestErr` together with the `pErr` it comes from:
the detail of `pErr`, and whether the error has type `timeutil.TimeoutError`
(the attempt ran into its deadline). -/
structure ExportError where
  detail : ErrorDetail
  isTimeout : Bool
  text : String := ""
deriving DecidableEq, Repr

/-- The outcome of one `RunWithTimeout` round trip. -/
inductive ExportResult where
  | failed (err : ExportError)
  | succeeded (resp : ExportResponse)
deriving DecidableEq, Repr

/-- The errors a worker returns. -/
inductive WorkerError where
  | ctxErr
  | exportRequestTimeout (cause : ExportError)
  | exporting (span : Span) (cause : ExportError)
  | invalidResumeSpan (resume : Span)
  | sinkWrite (index : Nat)
  | sinkFlush
deriving DecidableEq, Repr

/-- The export error an error of the worker wraps, if any. -/
def WorkerError.cause : WorkerError → Option ExportError
  | .exportRequestTimeout c => some c
  | .exporting _ c => some c
  | _ => none

/-- A call on the worker's sink. -/
inductive SinkCall where
  | write (e : exportedSpan)
  | writeWithNoData (e : exportedSpan)
deriving DecidableEq, Repr

/-- The `exportedSpan` a sink call carries. -/
def SinkCall.arg : SinkCall → exportedSpan
  | .write e => e
  | .writeWithNoData e => e

/-- Whether a sink call is `sink.write`. -/
def SinkCall.isWrite : SinkCall → Bool
  | .write _ => true
  | .writeWithNoData _ => false

/-- The sum of `completedSpans` over a list of sink calls. -/
def completedSum (calls : List SinkCall) : Int :=
  (calls.map fun c => c.arg.completedSpans).sum

/-- What the worker closure captures from the processor: fields of the spec,
the locality tag chosen for the destination, and the function `countRows`,
which another file of the package declares. -/
structure ProcessorCtx where
  backupStartTime : Timestamp
  backupEndTime : Timestamp
  mvccFilter : Nat
  pkIDs : List Nat
  destLocalityKV : String
  countRows : BulkOpSummary → List Nat → RowCount

/-- The value `readTime := spec.BackupEndTime.GoTime()`. -/
def ProcessorCtx.readTime (c : ProcessorCtx) : Int := c.backupEndTime.wallTime

/-- What one pass through the body of the loop `for len(span.span.Key) != 0`
reads from outside the worker, in program order. -/
structure IterationInput where
  /-- The setting `splitKeysOnTimestamps`. -/
  splitKeysOnTimestamps : Bool
  /-- The setting `batcheval.ExportRequestTargetFileSize`. -/
  targetFileSize : Int
  /-- The setting `delayPerAttempt`. -/
  delayPerAttempt : Int
  /-- The clock read by `timeutil.Since(span.lastTried)`. -/
  nowAtDelay : Int
  /-- The `select` of the retry delay takes `<-ctxDone`. -/
  cancelledInDelay : Bool
  /-- The clock read by `timeutil.Since(readTime)`. -/
  nowAtPriority : Int
  /-- The setting `priorityAfter`. -/
  priorityAfter : Int
  /-- The outcome of the export round trip. -/
  result : ExportResult
  /-- The clock read by `timeutil.Now()` when a retry is queued. -/
  nowAtRetry : Int
  /-- The index of the first `sink.write` of this pass that returns an
  error, if one does. -/
  sinkFailsAt : Option Nat
deriving Repr

/-! ## One pass through the loop body of a worker -/

/-- The value of `splitMidKey`: the setting, forced to true when the span
already started splitting (its `firstKeyTS` is not empty). -/
def splitMidKeyFor (inp : IterationInput) (span : spanAndTime) : Bool :=
  if !span.firstKeyTS.IsEmpty then true else inp.splitKeysOnTimestamps

/-- The `kvpb.ExportRequest` built for the working span. -/
def exportRequestFor (c : ProcessorCtx) (inp : IterationInput) (span : spanAndTime) :
    ExportRequest :=
  { key := span.span.key
    endKey := span.span.endKey
    resumeKeyTS := span.firstKeyTS
    startTime := span.start
    mvccFilter := c.mvccFilter
    targetFileSize := inp.targetFileSize
    splitMidKey := splitMidKeyFor inp span }

/-- The outcome of the block `if !priority && span.attempts > 0`. -/
inductive RetryGate where
  | cancelled (delay : Int)
  | proceed (waited : Option Int) (priority : Bool)
deriving DecidableEq, Repr

/-- The block `if !priority && span.attempts > 0`: wait out the rest of
`delayPerAttempt` since `lastTried`, unless the context is cancelled first,
then decide whether to switch to priority. -/
def retryGate (c : ProcessorCtx) (inp : IterationInput) (priority : Bool)
    (span : spanAndTime) : RetryGate :=
  if !priority && decide (span.attempts > 0) then
    let delay := inp.delayPerAttempt - (inp.nowAtDelay - span.lastTried)
    if decide (delay > 0) && inp.cancelledInDelay then .cancelled delay
    else
      .proceed (if delay > 0 then some delay else none)
        (decide (inp.nowAtPriority - c.readTime > inp.priorityAfter))
  else .proceed none priority

/-- The `kvpb.Header` of the batch. -/
def headerFor (span : spanAndTime) (priority : Bool) : Header :=
  let header : Header :=
    { targetBytes := 1
      timestamp := span.end_
      returnElasticCPUResumeSpans := true
      userPriority := UnspecifiedUserPriority
      waitPolicy := .Block }
  if priority then { header with userPriority := MaxUserPriority }
  else { header with waitPolicy := .Error }

/-- The working span built from a response that has a resume span. -/
def resumeSpanFor (span : spanAndTime) (resp : ExportResponse) (resume : Span) : spanAndTime :=
  let resumeTS : Timestamp :=
    match resp.files.getLast? with
    | some file => file.endKeyTS
    | none => {}
  { span := resume
    firstKeyTS := resumeTS
    start := span.start
    end_ := span.end_
    attempts := span.attempts
    lastTried := span.lastTried }

/-- The value of the local `completedSpans`. -/
def completedSpansFor (span : spanAndTime) (resp : ExportResponse) : Int :=
  if span.finishesSpec && resp.resumeSpan.isNone then 1 else 0

/-- The `exportedSpan` built from the file at index `i` of the response. -/
def exportedSpanFor (c : ProcessorCtx) (span : spanAndTime) (resp : ExportResponse)
    (completedSpans : Int) (i : Nat) (file : ExportResponse_File) : exportedSpan :=
  let ret : exportedSpan :=
    { metadata :=
        { span := file.span
          path := file.path
          entryCounts := c.countRows file.exported c.pkIDs
          localityKV := c.destLocalityKV }
      dataSST := file.sst
      revStart := resp.startTime
      atKeyBoundary := file.endKeyTS.IsEmpty }
  let ret : exportedSpan :=
    if span.start ≠ c.backupStartTime then
      { ret with metadata := { ret.metadata with startTime := span.start, endTime := span.end_ } }
    else ret
  if i = resp.files.length - 1 then { ret with completedSpans := completedSpans } else ret

/-- The loop `for i, file := range resp.Files`, from index `i` on: the calls
of `sink.write` it makes and the error it returns with, if any. -/
def writeFiles (c : ProcessorCtx) (span : spanAndTime) (resp : ExportResponse)
    (completedSpans : Int) (sinkFailsAt : Option Nat) :
    Nat → List ExportResponse_File → List SinkCall × Option WorkerError
  | _, [] => ([], none)
  | i, file :: files =>
    let call := SinkCall.write (exportedSpanFor c span resp completedSpans i file)
    if sinkFailsAt = some i then ([call], some (.sinkWrite i))
    else
      let rest := writeFiles c span resp completedSpans sinkFailsAt (i + 1) files
      (call :: rest.1, rest.2)

/-- How a pass through the loop body ends: at the next test of the loop
condition with a new value of `span`, or with the worker returning an error. -/
inductive Flow where
  | next (span : spanAndTime)
  | ret (err : WorkerError)
deriving DecidableEq, Repr

/-- What the worker does with the outcome of an export. -/
structure Handled where
  /-- The chunks sent to `todo`. -/
  requeued : List (List spanAndTime)
  /-- The calls made on the sink. -/
  sinkCalls : List SinkCall
  /-- How the pass ends. -/
  flow : Flow
deriving DecidableEq, Repr

/-- Whether the detail is a `BatchTimestampBeforeGCError` whose
`DataExcludedFromBackup` is set. -/
def ErrorDetail.isExcludedGC : ErrorDetail → Bool
  | .batchTimestampBeforeGCError excluded => excluded
  | _ => false

/-- The branch `if exportRequestErr != nil`. -/
def handleError (inp : IterationInput) (span : spanAndTime) (err : ExportError) : Handled :=
  if err.detail = .writeIntentError then
    let span := { span with lastTried := inp.nowAtRetry }
    let span := { span with attempts := span.attempts + 1 }
    { requeued := [[span]], sinkCalls := [], flow := .next {} }
  else if err.isTimeout then
    { requeued := [], sinkCalls := [], flow := .ret (.exportRequestTimeout err) }
  else if err.detail.isExcludedGC then
    { requeued := [], sinkCalls := [], flow := .next {} }
  else
    { requeued := [], sinkCalls := [], flow := .ret (.exporting span.span err) }

/-- The code after a successful export: resume span, completion count, the
sink calls, and `span = resumeSpan`. -/
def handleResponse (c : ProcessorCtx) (inp : IterationInput) (span : spanAndTime)
    (resp : ExportResponse) : Handled :=
  let resumeSpan : Flow :=
    match resp.resumeSpan with
    | some resume =>
      if !resume.Valid then .ret (.invalidResumeSpan resume)
      else .next (resumeSpanFor span resp resume)
    | none => .next {}
  match resumeSpan with
  | .ret e => { requeued := [], sinkCalls := [], flow := .ret e }
  | .next resumeSpan =>
    let completedSpans := completedSpansFor span resp
    let noData : List SinkCall :=
      if resp.files.length = 0 then [.writeWithNoData { completedSpans := completedSpans }]
      else []
    let written := writeFiles c span resp completedSpans inp.sinkFailsAt 0 resp.files
    match written.2 with
    | some e => { requeued := [], sinkCalls := noData ++ written.1, flow := .ret e }
    | none => { requeued := [], sinkCalls := noData ++ written.1, flow := .next resumeSpan }

/-- What the worker does with the outcome of `RunWithTimeout`. -/
def handleResult (c : ProcessorCtx) (inp : IterationInput) (span : spanAndTime) : Handled :=
  match inp.result with
  | .failed err => handleError inp span err
  | .succeeded resp => handleResponse c inp span resp

/-- The effects of one pass through the loop body. -/
structure StepResult where
  /-- The retry delay the worker sat out. -/
  waited : Option Int
  /-- The request sent, with its batch header. -/
  sent : Option (ExportRequest × Header)
  /-- The chunks sent to `todo`. -/
  requeued : List (List spanAndTime)
  /-- The calls made on the sink. -/
  sinkCalls : List SinkCall
  /-- The value of `priority` after the pass. -/
  priority : Bool
  /-- How the pass ends. -/
  flow : Flow
deriving DecidableEq, Repr

/-- One pass through the body of `for len(span.span.Key) != 0`. -/
def exportStep (c : ProcessorCtx) (inp : IterationInput) (priority : Bool)
    (span : spanAndTime) : StepResult :=
  let req := exportRequestFor c inp span
  match retryGate c inp priority span with
  | .cancelled _ =>
    { waited := none, sent := none, requeued := [], sinkCalls := [],
      priority := priority, flow := .ret .ctxErr }
  | .proceed waited priority =>
    let header := headerFor span priority
    let handled := handleResult c inp span
    { waited := waited, sent := some (req, header), requeued := handled.requeued,
      sinkCalls := handled.sinkCalls, priority := priority, flow := handled.flow }

/-! ## Splitting the assigned spans -/

/-- Modelled from the spec: the method `Overlaps` of `roachpb.Span`, which
package `roachpb` declares.  Two valid spans overlap when they share a key; a
span with an empty end key is the single key at its start. -/
def Span.Overlaps (s o : Span) : Bool :=
  if !s.Valid || !o.Valid then false
  else if s.endKey.length == 0 && o.endKey.length == 0 then decide (s.key = o.key)
  else if s.endKey.length == 0 then !bytesLess s.key o.key && bytesLess s.key o.endKey
  else if o.endKey.length == 0 then !bytesLess o.key s.key && bytesLess o.key s.endKey
  else bytesLess o.key s.endKey && bytesLess s.key o.endKey

/-- Modelled from the spec: the method `Intersect` of `roachpb.Span`, which
package `roachpb` declares.  The range-intersected subspan: the keys the two
spans share, the zero span (which is not valid) when they share none. -/
def Span.Intersect (s o : Span) : Span :=
  if !s.Overlaps o then {}
  else if s.endKey.length == 0 then s
  else if o.endKey.length == 0 then o
  else
    { key := if bytesLess s.key o.key then o.key else s.key
      endKey := if bytesLess o.endKey s.endKey then o.endKey else s.endKey }

/-- The ways `splitSpans` fails: the range iterator cannot be created, a range
does not intersect the remaining span, or `requestSpans[len(requestSpans)-1]`
is evaluated on an empty slice. -/
inductive SplitError where
  | iterator (text : String)
  | notInSpan (rangeSpan remainingSpan fullSpan : Span)
  | indexOutOfRange
deriving DecidableEq, Repr

deriving instance DecidableEq for Except

/-- The loop `for ; rdi.Valid(); rdi.Next()` over the spans of the ranges the
iterator yields: the remaining span and the request spans after it. -/
def splitRanges (fullSpan : Span) (start end_ : Timestamp) :
    List Span → Span → List spanAndTime → Except SplitError (Span × List spanAndTime)
  | [], remainingSpan, requestSpans => .ok (remainingSpan, requestSpans)
  | rangeSpan :: ranges, remainingSpan, requestSpans =>
    let subspan := remainingSpan.Intersect rangeSpan
    if !subspan.Valid then .error (.notInSpan rangeSpan remainingSpan fullSpan)
    else
      splitRanges fullSpan start end_ ranges { remainingSpan with key := subspan.endKey }
        (requestSpans ++ [{ span := subspan, start := start, end_ := end_ }])

/-- The assignment `requestSpans[len(requestSpans)-1].finishesSpec = true`
on a slice that is not empty. -/
def markLastFinishes : List spanAndTime → List spanAndTime
  | [] => []
  | [r] => [{ r with finishesSpec := true }]
  | r :: r' :: rs => r :: markLastFinishes (r' :: rs)

/-- The body of the loop of `splitSpans` for one assigned span.  The range
iterator is given by the spans of the ranges it yields for the span, or the
error of `NewIterator`. -/
def splitSpan (rangeSizedSpans : Bool) (newIterator : Span → Except String (List Span))
    (start end_ : Timestamp) (requestSpans : List spanAndTime) (fullSpan : Span) :
    Except SplitError (List spanAndTime) :=
  let afterRanges : Except SplitError (Span × List spanAndTime) :=
    if rangeSizedSpans then
      match newIterator fullSpan with
      | .error text => .error (.iterator text)
      | .ok ranges => splitRanges fullSpan start end_ ranges fullSpan requestSpans
    else .ok (fullSpan, requestSpans)
  match afterRanges with
  | .error e => .error e
  | .ok (remainingSpan, requestSpans) =>
    let requestSpans :=
      if remainingSpan.Valid then
        requestSpans ++ [{ span := remainingSpan, start := start, end_ := end_ }]
      else requestSpans
    if requestSpans.length = 0 then .error .indexOutOfRange
    else .ok (markLastFinishes requestSpans)

/-- The closure `splitSpans`: the request spans after splitting `spans`. -/
def splitSpans (rangeSizedSpans : Bool) (newIterator : Span → Except String (List Span))
    (start end_ : Timestamp) : List Span → List spanAndTime → Except SplitError (List spanAndTime)
  | [], requestSpans => .ok requestSpans
  | fullSpan :: spans, requestSpans =>
    match splitSpan rangeSizedSpans newIterator start end_ requestSpans fullSpan with
    | .error e => .error e
    | .ok requestSpans => splitSpans rangeSizedSpans newIterator start end_ spans requestSpans

/-- The fields of `execinfrapb.BackupDataSpec` that decide the request spans. -/
structure BackupDataSpec where
  spans : List Span
  introducedSpans : List Span
  backupStartTime : Timestamp
  backupEndTime : Timestamp
deriving DecidableEq, Repr

/-- The value `totalSpans`. -/
def BackupDataSpec.totalSpans (spec : BackupDataSpec) : Nat :=
  spec.spans.length + spec.introducedSpans.length

/-- The two calls of `splitSpans` in `runBackupProcessor`: the introduced
spans from the zero timestamp to `BackupStartTime`, then the spans from
`BackupStartTime` to `BackupEndTime`. -/
def requestSpansOf (rangeSizedSpans : Bool) (newIterator : Span → Except String (List Span))
    (spec : BackupDataSpec) : Except SplitError (List spanAndTime) :=
  match splitSpans rangeSizedSpans newIterator {} spec.backupStartTime spec.introducedSpans [] with
  | .error e => .error e
  | .ok requestSpans =>
    splitSpans rangeSizedSpans newIterator spec.backupStartTime spec.backupEndTime spec.spans
      requestSpans

/-! ## The work queue and its initial fill -/

/-- The constant `maxChunkSize`. -/
def maxChunkSize : Nat := 100

/-- The value `chunkSize`: at least four chunks per worker, between one and
`maxChunkSize`. -/
def chunkSizeFor (requestSpans : List spanAndTime) (numSenders : Nat) : Nat :=
  let chunkSize := requestSpans.length / (numSenders * 4) + 1
  if chunkSize > maxChunkSize then maxChunkSize else chunkSize

/-- The loop `for i := range requestSpans` that fills `todo`: the queue and
the pending `chunk` after it. -/
def fillTodo (rangeSizedSpans : Bool) (chunkSize : Nat) :
    List spanAndTime → List spanAndTime → List (List spanAndTime) →
      List (List spanAndTime) × List spanAndTime
  | [], chunk, todo => (todo, chunk)
  | r :: rs, chunk, todo =>
    if !rangeSizedSpans then fillTodo rangeSizedSpans chunkSize rs chunk (todo ++ [[r]])
    else
      let chunk := chunk ++ [r]
      if chunk.length > chunkSize then fillTodo rangeSizedSpans chunkSize rs [] (todo ++ [chunk])
      else fillTodo rangeSizedSpans chunkSize rs chunk todo

/-- The content of `todo` when the workers start. -/
def initialTodo (rangeSizedSpans : Bool) (numSenders : Nat) (requestSpans : List spanAndTime) :
    List (List spanAndTime) :=
  let filled := fillTodo rangeSizedSpans (chunkSizeFor requestSpans numSenders) requestSpans [] []
  if filled.2.length > 0 then filled.1 ++ [filled.2] else filled.1

/-! ## The workers -/

/-- Where a worker stands: at the `select` of its outer loop, at the test of
the loop `for len(span.span.Key) != 0` with the working `span` and the spans
of the chunk still to come, or returned. -/
inductive Control where
  | atSelect
  | inChunk (span : spanAndTime) (rest : List spanAndTime)
  | returned (err : Option WorkerError)
deriving DecidableEq, Repr

/-- A worker: its `priority` flag, where it stands, and what it has sent to
the KV store and called on its sink so far. -/
structure Worker where
  priority : Bool := false
  control : Control := .atSelect
  requests : List (ExportRequest × Header) := []
  sink : List SinkCall := []
deriving DecidableEq, Repr

/-- What a worker does next.  Which action happens, and with which input, is
up to the scheduler, the context, the KV store and the sink. -/
inductive Action where
  /-- The `select` takes `<-ctxDone`. -/
  | ctxDone
  /-- The `select` takes `spans := <-todo`. -/
  | receive
  /-- The `select` takes `default`: `return sink.flush(ctx)`. -/
  | noWork (flushFails : Bool)
  /-- The loop condition holds: one pass through the loop body. -/
  | exportPass (inp : IterationInput)
  /-- The loop condition fails: on to the next span of the chunk. -/
  | nextSpan
deriving Repr

/-- The start of the loop `for _, span := range spans` on what is left of the
chunk. -/
def rangeSpans : List spanAndTime → Control
  | [] => .atSelect
  | span :: rest => .inChunk span rest

/-- One action of a worker on the queue `todo`; `none` when the worker is not
at a point where the action can happen. -/
def Worker.step (c : ProcessorCtx) (w : Worker) (todo : List (List spanAndTime)) :
    Action → Option (Worker × List (List spanAndTime))
  | .ctxDone =>
    match w.control with
    | .atSelect => some ({ w with control := .returned (some .ctxErr) }, todo)
    | _ => none
  | .receive =>
    match w.control, todo with
    | .atSelect, spans :: todo => some ({ w with control := rangeSpans spans }, todo)
    | _, _ => none
  | .noWork flushFails =>
    match w.control, todo with
    | .atSelect, [] =>
      some ({ w with control := .returned (if flushFails then some .sinkFlush else none) }, [])
    | _, _ => none
  | .exportPass inp =>
    match w.control with
    | .inChunk span rest =>
      if span.span.key.length ≠ 0 then
        let r := exportStep c inp w.priority span
        let control :=
          match r.flow with
          | .next span => Control.inChunk span rest
          | .ret err => Control.returned (some err)
        some ({ priority := r.priority, control := control,
                requests := w.requests ++ r.sent.toList, sink := w.sink ++ r.sinkCalls },
              todo ++ r.requeued)
      else none
    | _ => none
  | .nextSpan =>
    match w.control with
    | .inChunk span rest =>
      if span.span.key.length ≠ 0 then none
      else some ({ w with control := rangeSpans rest }, todo)
    | _ => none

/-- The queue and the workers of a processor. -/
structure State where
  todo : List (List spanAndTime)
  workers : List Worker
deriving DecidableEq, Repr

/-- The state in which `ctxgroup.GroupWorkers` starts the workers. -/
def State.init (rangeSizedSpans : Bool) (numSenders : Nat) (requestSpans : List spanAndTime) :
    State :=
  { todo := initialTodo rangeSizedSpans numSenders requestSpans
    workers := List.replicate numSenders {} }

/-- Worker `i` does action `a`. -/
def State.step (c : ProcessorCtx) (s : State) (i : Nat) (a : Action) : Option State :=
  match s.workers[i]? with
  | none => none
  | some w =>
    match w.step c s.todo a with
    | none => none
    | some (w, todo) => some { todo := todo, workers := s.workers.set i w }

/-- A schedule: which worker acts, and how, step by step. -/
abbrev Schedule := List (Nat × Action)

/-- The state after a schedule; `none` when a step of it cannot happen. -/
def State.run (c : ProcessorCtx) : State → Schedule → Option State
  | s, [] => some s
  | s, (i, a) :: rest =>
    match s.step c i a with
    | none => none
    | some s => State.run c s rest

/-- The sink calls of all workers. -/
def State.sinkCalls (s : State) : List SinkCall :=
  (s.workers.map fun w => w.sink).flatten

/-- Every worker has returned without an error. -/
def State.allReturnedNil (s : State) : Bool :=
  s.workers.all fun w => decide (w.control = .returned none)

/-- The number of span requests a worker holds: the working span, if its key
is not empty, and the spans of its chunk still to come. -/
def Control.held : Control → Nat
  | .inChunk span rest => (if span.span.key.length ≠ 0 then 1 else 0) + rest.length
  | _ => 0

/-- The number of span requests held by all workers. -/
def State.held (s : State) : Nat :=
  (s.workers.map fun w => w.control.held).sum

/-- The number of span requests in the chunks of the queue. -/
def queuedSpans (todo : List (List spanAndTime)) : Nat :=
  (todo.map List.length).sum

/-- What a span request still owes to the completion count: one when it
finishes its assigned span and has a key left to export. -/
def pendingOf (span : spanAndTime) : Int :=
  if span.finishesSpec && decide (span.span.key.length ≠ 0) then 1 else 0

/-- What the span requests of a chunk still owe to the completion count. -/
def pendingList (spans : List spanAndTime) : Int :=
  (spans.map pendingOf).sum

/-- What the span requests on the queue still owe to the completion count. -/
def pendingTodo (todo : List (List spanAndTime)) : Int :=
  (todo.map pendingList).sum

/-- What the span requests a worker holds still owe to the completion
count. -/
def Control.pending : Control → Int
  | .inChunk span rest => pendingOf span + pendingList rest
  | _ => 0

/-- The completions a worker has reported and those it still owes. -/
def Worker.account (w : Worker) : Int :=
  w.control.pending + completedSum w.sink

/-- One for a worker that has returned an error, zero otherwise. -/
def Worker.failed (w : Worker) : Nat :=
  match w.control with
  | .returned (some _) => 1
  | _ => 0

/-- The number of workers that have returned an error. -/
def State.failures (s : State) : Nat :=
  (s.workers.map Worker.failed).sum

/-- The completions all workers have reported and those they still owe. -/
def State.accounts (s : State) : Int :=
  (s.workers.map Worker.account).sum

/-- Whether a pass on the working span leaves the completion count as it
should be.  It does when the span does not finish its assigned span; when it
does finish it, the pass must not drop it after a BatchTimestampBeforeGCError
marked `DataExcludedFromBackup`, and its response must not carry a resume
span. -/
def passKeepsCount (span : spanAndTime) (inp : IterationInput) : Bool :=
  !span.finishesSpec ||
    match inp.result with
    | .failed err => !err.detail.isExcludedGC
    | .succeeded resp => resp.resumeSpan.isNone

/-- Whether an action of a worker leaves the completion count as it should
be: only a pass on a working span can fail to. -/
def Worker.keepsCount (w : Worker) : Action → Bool
  | .exportPass inp =>
    match w.control with
    | .inChunk span _ => passKeepsCount span inp
    | _ => true
  | _ => true

/-- Whether every step of a schedule leaves the completion count as it should
be, from the given state on. -/
def State.runKeepsCount (c : ProcessorCtx) : State → Schedule → Bool
  | _, [] => true
  | s, (i, a) :: rest =>
    (match s.workers[i]? with
      | some w => w.keepsCount a
      | none => true) &&
    (match s.step c i a with
      | some s => State.runKeepsCount c s rest
      | none => true)

/-- The number of request spans with `finishesSpec` set. -/
def finishCount (spans : List spanAndTime) : Nat :=
  (spans.filter fun r => r.finishesSpec).length

/-! ## The worker pool sizer

The values of the types `int` and `int64` are integers, brought back into the
range of the type after every operation that can leave it. -/

/-- The conversion to `int64`, and to `int` on a 64-bit platform: the low 64
bits, read as a signed number. -/
def toInt64 (x : Int) : Int :=
  (x + 9223372036854775808) % 18446744073709551616 - 9223372036854775808

/-- The constant `minimumWorkerCount`. -/
def minimumWorkerCount : Int := 2

/-- Modelled from the spec: the bound memory account `mon.BoundAccount`,
which package `mon` declares.  The account holds what has been reserved from
it, an `int64`. -/
structure BoundAccount where
  used : Int
deriving DecidableEq, Repr

/-- Modelled from the spec: the method `Grow` of the bound memory account.
When the monitor grants the request the account grows by the amount; when it
does not, `Grow` returns an error (`none`) and reserves nothing.  Whether the
monitor grants a request is given from outside. -/
def BoundAccount.Grow (b : BoundAccount) (granted : Bool) (x : Int) : Option BoundAccount :=
  if granted then some { used := toInt64 (b.used + x) } else none

/-- Modelled from the spec: the method `Shrink` of the bound memory account,
which gives the amount back. -/
def BoundAccount.Shrink (b : BoundAccount) (x : Int) : BoundAccount :=
  { used := toInt64 (b.used - x) }

/-- What a successful `reserveWorkerMemory` returns: the worker count and the
release closure, which acts on the account; and the account after the
reservations. -/
structure Reserved where
  /-- The number of workers. -/
  workerCount : Int
  /-- The closure `func() { memAcc.Shrink(...) }`. -/
  release : BoundAccount → BoundAccount
  /-- The account when `reserveWorkerMemory` returns. -/
  account : BoundAccount

/-- The loop `for i := 0; i < (maxWorkerCount - minimumWorkerCount); i++` with
`remaining` passes to go before pass `i`: the worker count and the account
after it.  Call `k` of `Grow` is granted when `grants k` holds; call 0 is the
reservation for the minimum.  The counter `i` stays below the bound of the
loop, which is an `int`, and so does not wrap; `workerCount++` does. -/
def growWorkers (perWorkerMemory : Int) (grants : Nat → Bool) :
    Nat → Nat → Int → BoundAccount → Int × BoundAccount
  | 0, _, workerCount, memAcc => (workerCount, memAcc)
  | remaining + 1, i, workerCount, memAcc =>
    match memAcc.Grow (grants (i + 1)) perWorkerMemory with
    | none => (workerCount, memAcc)
    | some memAcc =>
      growWorkers perWorkerMemory grants remaining (i + 1) (toInt64 (workerCount + 1)) memAcc

/-- The function `reserveWorkerMemory`.  The values of the settings
`kvserver.ExportRequestsLimit` and `cloud.WriteChunkSize`, which are of type
`int64`, are parameters.  The product `int(...) * 2` and the bound
`maxWorkerCount - minimumWorkerCount` of the loop are of type `int`, the
products with `perWorkerMemory` of type `int64`. -/
def reserveWorkerMemory (exportRequestsLimit perWorkerMemory : Int) (grants : Nat → Bool)
    (memAcc : BoundAccount) : Except String Reserved :=
  let maxWorkerCount := toInt64 (toInt64 exportRequestsLimit * 2)
  match memAcc.Grow (grants 0) (toInt64 (minimumWorkerCount * perWorkerMemory)) with
  | none => .error "could not reserve memory for minimum number of backup workers"
  | some memAcc =>
    let grown := growWorkers perWorkerMemory grants
      (toInt64 (maxWorkerCount - minimumWorkerCount)).toNat 0 minimumWorkerCount memAcc
    .ok { workerCount := grown.1
          release := fun memAcc => memAcc.Shrink (toInt64 (toInt64 grown.1 * perWorkerMemory))
          account := grown.2 }

/-- A span request with its `finishesSpec` flag cleared: what is left of it
when the flag is disregarded. -/
def spanAndTime.unflag (r : spanAndTime) : spanAndTime := { r with finishesSpec := false }

/-! ## The destination of the files -/

/-- The loop `for i := len(Tiers) - 1; i >= 0; i--` over the strings of the
locality tiers of the node, given last tier first: the values of
`localitySinkURI` and `destLocalityKV` after it.  The map `URIsByLocalityKV`
is a list of entries, looked up by key. -/
def matchLocality (urisByLocalityKV : List (String × String)) : List String → String × String
  | [] => ("", "")
  | tier :: tiers =>
    match List.lookup tier urisByLocalityKV with
    | some dest => (dest, tier)
    | none => matchLocality urisByLocalityKV tiers

/-- The values of `destURI` and `destLocalityKV` when the external storage is
opened.  The strings of the locality tiers of the node and the value of
`testingDiscardBackupData`, which is read from the environment, are
parameters. -/
def destinationFor (defaultURI : String) (urisByLocalityKV : List (String × String))
    (tiers : List String) (testingDiscardBackupData : Bool) : String × String :=
  let chosen : String × String :=
    if urisByLocalityKV.length > 0 then
      let found := matchLocality urisByLocalityKV tiers.reverse
      if found.1 ≠ "" then (found.1, found.2) else (defaultURI, found.2)
    else (defaultURI, "")
  (if testingDiscardBackupData then "null:///discard" else chosen.1, chosen.2)

/-! ## The progress reporter -/

/-- The conversion to `int32`: the low 32 bits, read as a signed number. -/
def toInt32 (x : Int) : Int := (x + 2147483648) % 4294967296 - 2147483648

/-- The `float32` value `float32(completed) / float32(total)`, kept as its two
operands: the arithmetic of `float32` is not modelled. -/
structure Fraction where
  completed : Int
  total : Int
deriving DecidableEq, Repr

/-- The field of `backuppb.BackupManifest_Progress` that the processor
reads. -/
structure BackupManifest_Progress where
  completedSpans : Int
deriving DecidableEq, Repr

/-- An `execinfrapb.RemoteProducerMetadata_BulkProcessorProgress`.  The
`ProgressDetails` are the bytes of the `Any` message; `CompletedFraction` is
a map from processor ids to fractions, `none` when it is nil. -/
structure BulkProcessorProgress where
  nodeID : Int := 0
  flowID : Int := 0
  progressDetails : List Nat := []
  completedFraction : Option (List (Int × Fraction)) := none
deriving DecidableEq, Repr

/-- The assignment `m[k] = v` on a map given by its entries. -/
def mapSet (m : List (Int × Fraction)) (k : Int) (v : Fraction) : List (Int × Fraction) :=
  (k, v) :: m.filter fun e => e.1 != k

/-- The read `m[k]` of a map that may be nil. -/
def BulkProcessorProgress.fractionOf (p : BulkProcessorProgress) (k : Int) : Option Fraction :=
  match p.completedFraction with
  | none => none
  | some m => List.lookup k m

/-- The fields of `backupDataProcessor` that `constructProgressProducerMeta`
reads and writes; `nodeID` and `flowID` are what the flow context gives. -/
structure backupDataProcessor where
  nodeID : Int
  flowID : Int
  processorID : Int
  spec : BackupDataSpec
  completedSpans : Int := 0
deriving DecidableEq, Repr

/-- The method `constructProgressProducerMeta`: the processor after the call
and the progress of the metadata message it returns.  The function
`gogotypes.UnmarshalAny` is a parameter: `none` when it returns an error. -/
def constructProgressProducerMeta (unmarshalAny : List Nat → Option BackupManifest_Progress)
    (bp : backupDataProcessor) (prog : BulkProcessorProgress) :
    backupDataProcessor × BulkProcessorProgress :=
  let p : BulkProcessorProgress := { prog with nodeID := bp.nodeID, flowID := bp.flowID }
  match unmarshalAny prog.progressDetails with
  | none => (bp, p)
  | some progDetails =>
    let totalSpans := toInt32 (bp.spec.spans.length + bp.spec.introducedSpans.length)
    let bp : backupDataProcessor :=
      { bp with completedSpans := toInt32 (bp.completedSpans + progDetails.completedSpans) }
    if totalSpans ≠ 0 then
      let fractions : List (Int × Fraction) :=
        match p.completedFraction with
        | none => []
        | some m => m
      (bp, { p with
              completedFraction :=
                some (mapSet fractions bp.processorID
                  { completed := bp.completedSpans, total := totalSpans }) })
    else (bp, p)

/-- The calls of `Next` that take the progress messages from `progCh`, one
after the other: the processor after them and the metadata messages they
return. -/
def forwardProgress (unmarshalAny : List Nat → Option BackupManifest_Progress) :
    backupDataProcessor → List BulkProcessorProgress →
      backupDataProcessor × List BulkProcessorProgress
  | bp, [] => (bp, [])
  | bp, prog :: progs =>
    let first := constructProgressProducerMeta unmarshalAny bp prog
    let rest := forwardProgress unmarshalAny first.1 progs
    (rest.1, first.2 :: rest.2)

/-- The sum of `CompletedSpans` over the messages whose details unmarshal. -/
def completedOf (unmarshalAny : List Nat → Option BackupManifest_Progress)
    (progs : List BulkProcessorProgress) : Int :=
  (progs.map fun prog =>
    match unmarshalAny prog.progressDetails with
    | none => 0
    | some progDetails => progDetails.completedSpans).sum

/-! ## The precondition of the first upgrade

The function `FirstUpgradeFromReleasePrecondition` of
`pkg/upgrade/upgrades/first_upgrade.go`. -/

/-- What `InternalExecutor.QueryRow` returns for a `count(*)` query: an error,
or a row whose first column is the count.  The column is an integer datum, a
`tree.DInt` of 64 bits, whose `String()` is `"0"` exactly when the count is
zero. -/
inductive QueryResult where
  | failed (err : String)
  | row (count : Int)
deriving DecidableEq, Repr

/-- A query handed to the executor, with what came back. -/
structure Issued where
  query : String
  result : QueryResult
deriving DecidableEq, Repr

/-- The errors `FirstUpgradeFromReleasePrecondition` returns: the error of a
query, or the assertion failure that `invalid_objects` is not empty. -/
inductive PreconditionError where
  | query (err : String)
  | invalidObjects
deriving DecidableEq, Repr

/-- How far a call got on the answers the executor gave: it returned, or it
waits for the answer to its last query. -/
inductive Outcome where
  | returned (err : Option PreconditionError)
  | waiting
deriving DecidableEq, Repr

/-- A call of `FirstUpgradeFromReleasePrecondition`: its outcome and the
queries it issued, in order, with their answers. -/
structure Run where
  outcome : Outcome
  issued : List Issued
deriving DecidableEq, Repr

/-- The text `q` of the query of the closure `diagnose`. -/
def diagnoseQuery (tbl : String) (withAOST : Bool) : String :=
  let q := "SELECT count(*) FROM \x22\x22.crdb_internal." ++ tbl
  if withAOST then q ++ " AS OF SYSTEM TIME \x27-10s\x27" else q

/-- The constant `repairQuery`. -/
def repairQuery : String :=
  "\nSELECT\n\tcount(*)\nFROM\n\t(\n\t\tSELECT\n\t\t\tcrdb_internal.repair_catalog_corruption(id, corruption) AS was_repaired\n\t\tFROM\n\t\t\t\x22\x22.crdb_internal.kv_repairable_catalog_corruptions\n\t\tLIMIT\n\t\t\t1000\n\t)\nWHERE\n\twas_repaired"

/-- What the closure `diagnose` returns on the answer to its query:
`hasRows` and `err`. -/
def diagnose (result : QueryResult) : Bool × Option String :=
  match result with
  | .failed err => (false, some err)
  | .row count => (decide (count ≠ 0), none)

/-- The loop `for` that repairs catalog corruptions in batches, on the answers
the executor gives from here on: the run when the function returns or waits
inside the loop, or the value of `n`, the answers left and the queries issued
when the loop is left by `break`.  The sum `n += int(c)` is of type `int`. -/
def repairLoop : List QueryResult → Int → List Issued →
    Except Run (Int × List QueryResult × List Issued)
  | [], _, issued => .error { outcome := .waiting, issued := issued }
  | result :: script, n, issued =>
    let issued := issued ++ [{ query := repairQuery, result := result }]
    match result with
    | .failed err => .error { outcome := .returned (some (.query err)), issued := issued }
    | .row c =>
      if c = 0 then .ok (n, script, issued) else repairLoop script (toInt64 (n + toInt64 c)) issued

/-- The check for all known catalog corruptions that ends the function, on
the answers the executor gives from here on. -/
def checkInvalidObjects (withAOST : Bool) (script : List QueryResult) (issued : List Issued) :
    Run :=
  match script with
  | [] => { outcome := .waiting, issued := issued }
  | result :: script =>
    let issued := issued ++ [{ query := diagnoseQuery "invalid_objects" withAOST,
                               result := result }]
    match diagnose result with
    | (_, some err) => { outcome := .returned (some (.query err)), issued := issued }
    | (false, none) => { outcome := .returned none, issued := issued }
    | (true, none) =>
      if !withAOST then { outcome := .returned (some .invalidObjects), issued := issued }
      else
        let withAOST := false
        match script with
        | [] => { outcome := .waiting, issued := issued }
        | result :: _ =>
          let issued := issued ++ [{ query := diagnoseQuery "invalid_objects" withAOST,
                                     result := result }]
          match diagnose result with
          | (_, some err) => { outcome := .returned (some (.query err)), issued := issued }
          | (false, none) => { outcome := .returned none, issued := issued }
          | (true, none) => { outcome := .returned (some .invalidObjects), issued := issued }

/-- The function `FirstUpgradeFromReleasePrecondition`.  The value of
`RunFirstUpgradePrecondition`, which is read from the environment, is a
parameter, and the executor is given by its answers, in the order of the
queries. -/
def FirstUpgradeFromReleasePrecondition (runFirstUpgradePrecondition : Bool)
    (script : List QueryResult) : Run :=
  if !runFirstUpgradePrecondition then { outcome := .returned none, issued := [] }
  else
    let withAOST := true
    match script with
    | [] => { outcome := .waiting, issued := [] }
    | result :: script =>
      let issued : List Issued := [{ query := diagnoseQuery "databases" withAOST,
                                     result := result }]
      match diagnose result with
      | (_, some err) => { outcome := .returned (some (.query err)), issued := issued }
      | (hasRows, none) =>
        let withAOST := if !hasRows then false else withAOST
        match script with
        | [] => { outcome := .waiting, issued := issued }
        | result :: script =>
          let issued := issued ++
            [{ query := diagnoseQuery "kv_repairable_catalog_corruptions" withAOST,
               result := result }]
          match diagnose result with
          | (_, some err) => { outcome := .returned (some (.query err)), issued := issued }
          | (false, none) => checkInvalidObjects withAOST script issued
          | (true, none) =>
            match repairLoop script 0 issued with
            | .error run => run
            | .ok (n, script, issued) =>
              let withAOST := if n = 0 then withAOST else false
              checkInvalidObjects withAOST script issued

/-- Whether a query is a count of `invalid_objects`, with or without the
clause `AS OF SYSTEM TIME`. -/
def Issued.isInvalidObjects (e : Issued) : Bool :=
  e.query == diagnoseQuery "invalid_objects" true ||
    e.query == diagnoseQuery "invalid_objects" false

/-- What the function returns on the answer to its last count of
`invalid_objects`, the one without the clause `AS OF SYSTEM TIME`. -/
def Outcome.ofLastCheck : QueryResult → Outcome
  | .failed err => .returned (some (.query err))
  | .row count => if count = 0 then .returned none else .returned (some .invalidObjects)

/-! ## The file sink -/

/-- Modelled from the spec: an output file of the file sink, which
`file_sst_sink.go` declares.  The fragments appended to it so far, its
accumulated bytes, its key span, and the flag `atKeyBoundary` of the last
appended fragment. -/
structure SinkFile where
  fragments : List exportedSpan := []
  size : Int := 0
  span : Span := {}
  atKeyBoundary : Bool := false
deriving DecidableEq, Repr

/-- Modelled from the spec: the state of the file sink of a worker, which
`file_sst_sink.go` declares.  The open file, if there is one, the files closed
so far, oldest first, each with the progress record emitted for it, and the
completed spans to include in the next progress record. -/
structure fileSSTSink where
  out : Option SinkFile := none
  closed : List SinkFile := []
  completedSpans : Int := 0
deriving DecidableEq, Repr

/-- Modelled from the spec: whether the keys of a file stay monotonic when a
fragment is appended to it: the span of the fragment overlaps the span of no
fragment of the file, and its start key sorts after the start key of each of
them. -/
def SinkFile.staysMonotonic (file : SinkFile) (fragment : exportedSpan) : Bool :=
  file.fragments.all fun f =>
    !f.metadata.span.Overlaps fragment.metadata.span &&
      bytesLess f.metadata.span.key fragment.metadata.span.key

/-- Modelled from the spec: the operation `flush()` of the file sink.  If any
output is open, it closes it, emits progress for it and resets the state. -/
def fileSSTSink.flush (s : fileSSTSink) : fileSSTSink :=
  match s.out with
  | none => s
  | some file => { out := none, closed := s.closed ++ [file], completedSpans := 0 }

/-- Modelled from the spec: the operation `write(fragment)` of the file sink.
The spans of the fragments appended to a file are non-overlapping and strictly
increasing by start key, or the sink flushes first: when the keys of the open
file would not stay monotonic with the new fragment, the sink flushes.  Then
it opens a file if none is open; it cuts, closing the file and opening a new
one, if the accumulated size of the pending file is at least the target file
size and the last fragment was at a key boundary and the new fragment does not
overlap the prior range; then it appends the fragment, extends the key span of
the file and records `atKeyBoundary` from the new fragment. -/
def fileSSTSink.write (targetFileSize : Int) (s : fileSSTSink) (fragment : exportedSpan) :
    fileSSTSink :=
  let s : fileSSTSink :=
    match s.out with
    | none => s
    | some file => if file.staysMonotonic fragment then s else s.flush
  let file : SinkFile :=
    match s.out with
    | none => {}
    | some file => file
  let cut : Bool :=
    decide (file.size ≥ targetFileSize) && file.atKeyBoundary &&
      !file.span.Overlaps fragment.metadata.span
  let closed := if cut then s.closed ++ [file] else s.closed
  let pending := if cut then 0 else s.completedSpans
  let file : SinkFile := if cut then {} else file
  { out := some
      { fragments := file.fragments ++ [fragment]
        size := file.size + fragment.dataSST.length
        span :=
          if file.fragments.length = 0 then fragment.metadata.span
          else { file.span with endKey := fragment.metadata.span.endKey }
        atKeyBoundary := fragment.atKeyBoundary }
    closed := closed
    completedSpans := pending + fragment.completedSpans }

/-- The fragments of the files of a sink, closed files first, file by file. -/
def fileSSTSink.layout (s : fileSSTSink) : List (List exportedSpan) :=
  (s.closed ++ s.out.toList).map SinkFile.fragments

/-! ## The heartbeat messages

The functions of `pkg/rpc/heartbeat.pb.go` that marshal and unmarshal a
`RemoteOffset`, unmarshal a `PingResponse` and skip an unknown field.  A byte
slice is a list of bytes; values of the 64-bit types `int`, `int64` and
`uint64` are integers, brought back into the range of their type after every
operation that can leave it.  A call returns a value, returns an error, or
panics. -/

/-- The conversion of an `int64` to `uint64`: the low 64 bits. -/
def toUint64 (x : Int) : Nat := (x % 18446744073709551616).toNat

/-- The errors the functions of `heartbeat.pb.go` return. -/
inductive UnmarshalError where
  | ErrInvalidLengthHeartbeat
  | ErrIntOverflowHeartbeat
  | ErrUnexpectedEOF
  /-- The message `proto: wrong wireType = %d for field %s`. -/
  | wrongWireType (wireType : Nat) (field : String)
  /-- The message `proto: %s: wiretype end group for non-group`. -/
  | endGroup (message : String)
  /-- The message `proto: %s: illegal tag %d (wire type %d)`. -/
  | illegalTag (message : String) (fieldNum : Int) (wire : Nat)
  /-- The message `proto: illegal wireType %d`. -/
  | illegalWireType (wireType : Nat)
  /-- An error of the `Unmarshal` of an embedded message. -/
  | embedded (text : String)
deriving DecidableEq, Repr

/-- How a call ends when it does not return a value: with an error, with a
run-time panic for an index or a slice bound out of range, with
`panic("unreachable")`, or not within the passes the embedding allows a
loop. -/
inductive Failure where
  | error (err : UnmarshalError)
  | indexOutOfRange (index : Int) (length : Nat)
  | sliceOutOfRange (low high : Int) (length : Nat)
  | unreachable
  | notFinished
deriving DecidableEq, Repr

/-- The read `dAtA[iNdEx]`. -/
def byteAt (dAtA : List Nat) (iNdEx : Int) : Except Failure Nat :=
  if 0 ≤ iNdEx ∧ iNdEx < dAtA.length then .ok (dAtA.getD iNdEx.toNat 0)
  else .error (.indexOutOfRange iNdEx dAtA.length)

/-- The slice `dAtA[low:high]`. -/
def sliceOf (dAtA : List Nat) (low high : Int) : Except Failure (List Nat) :=
  if 0 ≤ low ∧ low ≤ high ∧ high ≤ dAtA.length then
    .ok ((dAtA.take high.toNat).drop low.toNat)
  else .error (.sliceOutOfRange low high dAtA.length)

/-- The loop `for shift := uint(0); ; shift += 7` that reads a varint, which
the source repeats wherever it reads one: the 64 bits read and the index
after them.  The first argument counts the passes left: the tenth pass is at
shift 63, and an eleventh would be at shift 70 and returns
`ErrIntOverflowHeartbeat`. -/
def readVarint (dAtA : List Nat) : Nat → Nat → Int → Nat → Except Failure (Nat × Int)
  | 0, _, _, _ => .error (.error .ErrIntOverflowHeartbeat)
  | passes + 1, shift, iNdEx, value =>
    if shift ≥ 64 then .error (.error .ErrIntOverflowHeartbeat)
    else if iNdEx ≥ dAtA.length then .error (.error .ErrUnexpectedEOF)
    else
      match byteAt dAtA iNdEx with
      | .error e => .error e
      | .ok b =>
        let iNdEx := iNdEx + 1
        let value := value ||| ((b &&& 0x7F) <<< shift) % 18446744073709551616
        if b < 0x80 then .ok (value, iNdEx)
        else readVarint dAtA passes (shift + 7) iNdEx value

/-- The loop `for` of `skipHeartbeat` that skips the fields of a group up to
its end marker, from index `iNdEx` on: the index after the group.  The
function `skip` is `skipHeartbeat` itself; the first argument counts the
passes left, and a pass that does not end the call reads a byte at least. -/
def skipGroup (skip : List Nat → Except Failure Int) (dAtA : List Nat) :
    Nat → Int → Except Failure Int
  | 0, _ => .error .notFinished
  | passes + 1, iNdEx =>
    let start := iNdEx
    match readVarint dAtA 10 0 iNdEx 0 with
    | .error e => .error e
    | .ok (innerWire, iNdEx) =>
      let innerWireType := innerWire &&& 0x7
      if innerWireType = 4 then .ok iNdEx
      else
        match sliceOf dAtA start dAtA.length with
        | .error e => .error e
        | .ok rest =>
          match skip rest with
          | .error e => .error e
          | .ok next => skipGroup skip dAtA passes (toInt64 (start + next))

/-- The body of `skipHeartbeat`: the number of bytes of the field at the start
of `dAtA`.  Every branch of the body of the loop `for iNdEx < l` returns, so
the body runs at most once.  The first argument bounds the depth of the calls
for nested groups. -/
def skipHeartbeatAt : Nat → List Nat → Except Failure Int
  | 0, _ => .error .notFinished
  | depth + 1, dAtA =>
    let l : Int := dAtA.length
    let iNdEx : Int := 0
    if iNdEx < l then
      match readVarint dAtA 10 0 iNdEx 0 with
      | .error e => .error e
      | .ok (wire, iNdEx) =>
        let wireType := wire &&& 0x7
        if wireType = 0 then
          match readVarint dAtA 10 0 iNdEx 0 with
          | .error e => .error e
          | .ok (_, iNdEx) => .ok iNdEx
        else if wireType = 1 then .ok (toInt64 (iNdEx + 8))
        else if wireType = 2 then
          match readVarint dAtA 10 0 iNdEx 0 with
          | .error e => .error e
          | .ok (length, iNdEx) =>
            let length := toInt64 length
            let iNdEx := toInt64 (iNdEx + length)
            if length < 0 then .error (.error .ErrInvalidLengthHeartbeat)
            else .ok iNdEx
        else if wireType = 3 then
          skipGroup (skipHeartbeatAt depth) dAtA (dAtA.length + 1) iNdEx
        else if wireType = 4 then .ok iNdEx
        else if wireType = 5 then .ok (toInt64 (iNdEx + 4))
        else .error (.error (.illegalWireType wireType))
    else .error .unreachable

/-- The function `skipHeartbeat`.  A nested call is on a slice that is
shorter by the tag of its group at least, so the calls nest at most
`len(dAtA)` deep. -/
def skipHeartbeat (dAtA : List Nat) : Except Failure Int :=
  skipHeartbeatAt (dAtA.length + 1) dAtA

/-- The default branch of the `switch fieldNum` of an `Unmarshal`: the index
after the unknown field that starts at `preIndex`. -/
def skipUnknown (dAtA : List Nat) (preIndex : Int) : Except Failure Int :=
  let l : Int := dAtA.length
  let iNdEx := preIndex
  match sliceOf dAtA iNdEx dAtA.length with
  | .error e => .error e
  | .ok rest =>
    match skipHeartbeat rest with
    | .error e => .error e
    | .ok skippy =>
      if skippy < 0 then .error (.error .ErrInvalidLengthHeartbeat)
      else if toInt64 (iNdEx + skippy) > l then .error (.error .ErrUnexpectedEOF)
      else .ok (toInt64 (iNdEx + skippy))

/-- The message `RemoteOffset`. -/
structure RemoteOffset where
  Offset : Int := 0
  Uncertainty : Int := 0
  MeasuredAt : Int := 0
deriving DecidableEq, Repr

/-- The loop `for iNdEx < l` of `RemoteOffset.Unmarshal` and the code after
it.  The first argument counts the passes left; a pass that does not end the
call moves `iNdEx` forward, so there are at most `len(dAtA)` passes. -/
def RemoteOffset.unmarshalFrom (dAtA : List Nat) :
    Nat → Int → RemoteOffset → Except Failure RemoteOffset
  | 0, _, _ => .error .notFinished
  | passes + 1, iNdEx, m =>
    let l : Int := dAtA.length
    if iNdEx < l then
      let preIndex := iNdEx
      match readVarint dAtA 10 0 iNdEx 0 with
      | .error e => .error e
      | .ok (wire, iNdEx) =>
        let fieldNum := toInt32 (wire >>> 3)
        let wireType := wire &&& 0x7
        if wireType = 4 then .error (.error (.endGroup "RemoteOffset"))
        else if fieldNum ≤ 0 then .error (.error (.illegalTag "RemoteOffset" fieldNum wire))
        else if fieldNum = 1 then
          if wireType ≠ 0 then .error (.error (.wrongWireType wireType "Offset"))
          else
            match readVarint dAtA 10 0 iNdEx 0 with
            | .error e => .error e
            | .ok (v, iNdEx) =>
              RemoteOffset.unmarshalFrom dAtA passes iNdEx { m with Offset := toInt64 v }
        else if fieldNum = 2 then
          if wireType ≠ 0 then .error (.error (.wrongWireType wireType "Uncertainty"))
          else
            match readVarint dAtA 10 0 iNdEx 0 with
            | .error e => .error e
            | .ok (v, iNdEx) =>
              RemoteOffset.unmarshalFrom dAtA passes iNdEx { m with Uncertainty := toInt64 v }
        else if fieldNum = 3 then
          if wireType ≠ 0 then .error (.error (.wrongWireType wireType "MeasuredAt"))
          else
            match readVarint dAtA 10 0 iNdEx 0 with
            | .error e => .error e
            | .ok (v, iNdEx) =>
              RemoteOffset.unmarshalFrom dAtA passes iNdEx { m with MeasuredAt := toInt64 v }
        else
          match skipUnknown dAtA preIndex with
          | .error e => .error e
          | .ok iNdEx => RemoteOffset.unmarshalFrom dAtA passes iNdEx m
    else if iNdEx > l then .error (.error .ErrUnexpectedEOF)
    else .ok m

/-- The method `RemoteOffset.Unmarshal`. -/
def RemoteOffset.Unmarshal (m : RemoteOffset) (dAtA : List Nat) : Except Failure RemoteOffset :=
  RemoteOffset.unmarshalFrom dAtA (dAtA.length + 1) 0 m

/-- Modelled from the spec: the message `roachpb.Version`, which package
`roachpb` declares. -/
structure Version where
  Major : Int := 0
  Minor : Int := 0
  Patch : Int := 0
  Internal : Int := 0
deriving DecidableEq, Repr

/-- The message `PingResponse`; strings are kept as their bytes. -/
structure PingResponse where
  Pong : List Nat := []
  ServerTime : Int := 0
  ServerVersion : Version := {}
  ClusterName : List Nat := []
  DisableClusterNameVerification : Bool := false
deriving DecidableEq, Repr

/-- The code that reads a string field of `PingResponse`: the bytes of the
string and the index after them. -/
def readString (dAtA : List Nat) (iNdEx : Int) : Except Failure (List Nat × Int) :=
  let l : Int := dAtA.length
  match readVarint dAtA 10 0 iNdEx 0 with
  | .error e => .error e
  | .ok (stringLen, iNdEx) =>
    let intStringLen := toInt64 stringLen
    if intStringLen < 0 then .error (.error .ErrInvalidLengthHeartbeat)
    else
      let postIndex := toInt64 (iNdEx + intStringLen)
      if postIndex > l then .error (.error .ErrUnexpectedEOF)
      else
        match sliceOf dAtA iNdEx postIndex with
        | .error e => .error e
        | .ok bytes => .ok (bytes, postIndex)

/-- The loop `for iNdEx < l` of `PingResponse.Unmarshal` and the code after
it.  The method `Unmarshal` of `roachpb.Version`, which another package
declares, is a parameter; the first argument counts the passes left. -/
def PingResponse.unmarshalFrom (versionUnmarshal : Version → List Nat → Except Failure Version)
    (dAtA : List Nat) : Nat → Int → PingResponse → Except Failure PingResponse
  | 0, _, _ => .error .notFinished
  | passes + 1, iNdEx, m =>
    let l : Int := dAtA.length
    if iNdEx < l then
      let preIndex := iNdEx
      match readVarint dAtA 10 0 iNdEx 0 with
      | .error e => .error e
      | .ok (wire, iNdEx) =>
        let fieldNum := toInt32 (wire >>> 3)
        let wireType := wire &&& 0x7
        if wireType = 4 then .error (.error (.endGroup "PingResponse"))
        else if fieldNum ≤ 0 then .error (.error (.illegalTag "PingResponse" fieldNum wire))
        else if fieldNum = 1 then
          if wireType ≠ 2 then .error (.error (.wrongWireType wireType "Pong"))
          else
            match readString dAtA iNdEx with
            | .error e => .error e
            | .ok (bytes, iNdEx) =>
              PingResponse.unmarshalFrom versionUnmarshal dAtA passes iNdEx { m with Pong := bytes }
        else if fieldNum = 2 then
          if wireType ≠ 0 then .error (.error (.wrongWireType wireType "ServerTime"))
          else
            match readVarint dAtA 10 0 iNdEx 0 with
            | .error e => .error e
            | .ok (v, iNdEx) =>
              PingResponse.unmarshalFrom versionUnmarshal dAtA passes iNdEx
                { m with ServerTime := toInt64 v }
        else if fieldNum = 3 then
          if wireType ≠ 2 then .error (.error (.wrongWireType wireType "ServerVersion"))
          else
            match readVarint dAtA 10 0 iNdEx 0 with
            | .error e => .error e
            | .ok (msglen, iNdEx) =>
              let msglen := toInt64 msglen
              if msglen < 0 then .error (.error .ErrInvalidLengthHeartbeat)
              else
                let postIndex := toInt64 (iNdEx + msglen)
                if postIndex > l then .error (.error .ErrUnexpectedEOF)
                else
                  match sliceOf dAtA iNdEx postIndex with
                  | .error e => .error e
                  | .ok bytes =>
                    match versionUnmarshal m.ServerVersion bytes with
                    | .error e => .error e
                    | .ok version =>
                      PingResponse.unmarshalFrom versionUnmarshal dAtA passes postIndex
                        { m with ServerVersion := version }
        else if fieldNum = 4 then
          if wireType ≠ 2 then .error (.error (.wrongWireType wireType "ClusterName"))
          else
            match readString dAtA iNdEx with
            | .error e => .error e
            | .ok (bytes, iNdEx) =>
              PingResponse.unmarshalFrom versionUnmarshal dAtA passes iNdEx
                { m with ClusterName := bytes }
        else if fieldNum = 5 then
          if wireType ≠ 0 then
            .error (.error (.wrongWireType wireType "DisableClusterNameVerification"))
          else
            match readVarint dAtA 10 0 iNdEx 0 with
            | .error e => .error e
            | .ok (v, iNdEx) =>
              PingResponse.unmarshalFrom versionUnmarshal dAtA passes iNdEx
                { m with DisableClusterNameVerification := decide (toInt64 v ≠ 0) }
        else
          match skipUnknown dAtA preIndex with
          | .error e => .error e
          | .ok iNdEx => PingResponse.unmarshalFrom versionUnmarshal dAtA passes iNdEx m
    else if iNdEx > l then .error (.error .ErrUnexpectedEOF)
    else .ok m

/-- The method `PingResponse.Unmarshal`. -/
def PingResponse.Unmarshal (versionUnmarshal : Version → List Nat → Except Failure Version)
    (m : PingResponse) (dAtA : List Nat) : Except Failure PingResponse :=
  PingResponse.unmarshalFrom versionUnmarshal dAtA (dAtA.length + 1) 0 m

/-- The write `dAtA[i] = b`. -/
def setByte (dAtA : List Nat) (i : Int) (b : Nat) : Except Failure (List Nat) :=
  if 0 ≤ i ∧ i < dAtA.length then .ok (dAtA.set i.toNat b)
  else .error (.indexOutOfRange i dAtA.length)

/-- The loop `for v >= 1<<7` of `encodeVarintHeartbeat` and the code after
it: the buffer and the offset after the varint.  The first argument counts
the passes left: a `uint64` is below `1<<7` after nine shifts by 7. -/
def encodeVarintFrom : Nat → List Nat → Int → Nat → Except Failure (List Nat × Int)
  | 0, _, _, _ => .error .notFinished
  | passes + 1, dAtA, offset, v =>
    if v ≥ 1 <<< 7 then
      match setByte dAtA offset ((v &&& 0x7f ||| 0x80) % 256) with
      | .error e => .error e
      | .ok dAtA => encodeVarintFrom passes dAtA (offset + 1) (v >>> 7)
    else
      match setByte dAtA offset (v % 256) with
      | .error e => .error e
      | .ok dAtA => .ok (dAtA, offset + 1)

/-- The function `encodeVarintHeartbeat`. -/
def encodeVarintHeartbeat (dAtA : List Nat) (offset : Int) (v : Nat) :
    Except Failure (List Nat × Int) :=
  encodeVarintFrom 10 dAtA offset v

/-- The loop of `sovHeartbeat`, with `n` passes made.  The first argument
counts the passes left: a `uint64` is zero after ten shifts by 7. -/
def sovFrom : Nat → Nat → Int → Int
  | 0, _, n => n
  | passes + 1, x, n =>
    let n := n + 1
    let x := x >>> 7
    if x = 0 then n else sovFrom passes x n

/-- The function `sovHeartbeat`: the size of a varint. -/
def sovHeartbeat (x : Nat) : Int := sovFrom 10 x 0

/-- The method `RemoteOffset.Size`. -/
def RemoteOffset.Size (m : RemoteOffset) : Int :=
  let n : Int := 0
  let n := n + (1 + sovHeartbeat (toUint64 m.Offset))
  let n := n + (1 + sovHeartbeat (toUint64 m.Uncertainty))
  let n := n + (1 + sovHeartbeat (toUint64 m.MeasuredAt))
  n

/-- The method `RemoteOffset.MarshalTo`: the buffer and the number of bytes
written. -/
def RemoteOffset.MarshalTo (m : RemoteOffset) (dAtA : List Nat) :
    Except Failure (List Nat × Int) :=
  let i : Int := 0
  match setByte dAtA i 0x8 with
  | .error e => .error e
  | .ok dAtA =>
    match encodeVarintHeartbeat dAtA (i + 1) (toUint64 m.Offset) with
    | .error e => .error e
    | .ok (dAtA, i) =>
      match setByte dAtA i 0x10 with
      | .error e => .error e
      | .ok dAtA =>
        match encodeVarintHeartbeat dAtA (i + 1) (toUint64 m.Uncertainty) with
        | .error e => .error e
        | .ok (dAtA, i) =>
          match setByte dAtA i 0x18 with
          | .error e => .error e
          | .ok dAtA =>
            match encodeVarintHeartbeat dAtA (i + 1) (toUint64 m.MeasuredAt) with
            | .error e => .error e
            | .ok (dAtA, i) => .ok (dAtA, i)

/-- The method `RemoteOffset.Marshal`. -/
def RemoteOffset.Marshal (m : RemoteOffset) : Except Failure (List Nat) :=
  let size := m.Size
  let dAtA := List.replicate size.toNat 0
  match m.MarshalTo dAtA with
  | .error e => .error e
  | .ok (dAtA, n) => sliceOf dAtA 0 n

/-- The bytes `encodeVarintHeartbeat` writes for `v`, within the given number
of passes of its loop. -/
def varintBytes : Nat → Nat → List Nat
  | 0, _ => []
  | passes + 1, v =>
    if v ≥ 1 <<< 7 then (v &&& 0x7f ||| 0x80) % 256 :: varintBytes passes (v >>> 7)
    else [v % 256]

/-- The bytes of a marshalled `RemoteOffset`: the three fields, each a tag
and a varint. -/
def RemoteOffset.bytes (m : RemoteOffset) : List Nat :=
  [0x8] ++ varintBytes 10 (toUint64 m.Offset) ++ [0x10] ++
    varintBytes 10 (toUint64 m.Uncertainty) ++ [0x18] ++ varintBytes 10 (toUint64 m.MeasuredAt)

/-- The values of the type `int64`. -/
def isInt64 (x : Int) : Prop := -9223372036854775808 ≤ x ∧ x < 9223372036854775808

/-! ## Concrete inputs -/

namespace Example

/-- A processor context: a backup from time 0 to time 100, rows counted by
data size only. -/
def ctx : ProcessorCtx :=
  { backupStartTime := {}
    backupEndTime := { wallTime := 100 }
    mvccFilter := 0
    pkIDs := []
    destLocalityKV := ""
    countRows := fun summary _ => { dataSize := summary.dataSize } }

/-- The inputs of a pass whose export has the given outcome, with the
settings at their defaults but for `splitKeysOnTimestamps`, and no retry delay
left, no cancellation and no sink failure. -/
def input (splitKeysOnTimestamps : Bool) (result : ExportResult) : IterationInput :=
  { splitKeysOnTimestamps := splitKeysOnTimestamps
    targetFileSize := 16
    delayPerAttempt := 5
    nowAtDelay := 200
    cancelledInDelay := false
    nowAtPriority := 200
    priorityAfter := 60
    result := result
    nowAtRetry := 207
    sinkFailsAt := none }

/-- The span `[a, z)`. -/
def spanAZ : Span := { key := [97], endKey := [122] }

/-- The span `[a, m)`. -/
def spanAM : Span := { key := [97], endKey := [109] }

/-- The span `[m, z)`. -/
def spanMZ : Span := { key := [109], endKey := [122] }

/-- The span `[m, q)`. -/
def spanMQ : Span := { key := [109], endKey := [113] }

/-- The span `[q, z)`. -/
def spanQZ : Span := { key := [113], endKey := [122] }

/-- The timestamp `t5`. -/
def t5 : Timestamp := { wallTime := 5 }

/-- The request span of the assigned span `[a, z)`, the only one derived
from it. -/
def requestAZ : spanAndTime :=
  { span := spanAZ, end_ := { wallTime := 100 }, finishesSpec := true }

/-- A worker about to test the loop condition on `requestAZ`, the only span
of its chunk. -/
def workerAZ : Worker := { control := .inChunk requestAZ [] }

/-- A request span `[200, 210)` that follows `requestAZ` in a chunk. -/
def requestB : spanAndTime :=
  { span := { key := [200], endKey := [210] }, end_ := { wallTime := 100 }, finishesSpec := true }

/-- A response with no file and no resume span. -/
def emptyResponse : ExportResponse := {}

/-- The first response of the resume scenario: one file for `[a, m)` that
ends mid-key at `t5`, and the resume span `[m, z)`. -/
def responseAM : ExportResponse :=
  { files := [{ span := spanAM, path := "1.sst", sst := [1], endKeyTS := t5 }]
    resumeSpan := some spanMZ }

/-- The last response of the resume scenario: one file for `[m, z)` that ends
at a key boundary, and no resume span. -/
def responseMZ : ExportResponse :=
  { files := [{ span := spanMZ, path := "2.sst", sst := [2] }] }

/-- A response with one file for `[m, q)` that ends at a key boundary, and
the resume span `[q, z)`. -/
def responseMQ : ExportResponse :=
  { files := [{ span := spanMQ, path := "2.sst", sst := [2] }]
    resumeSpan := some spanQZ }

/-- A response with one file for `[q, z)` that ends at a key boundary, and no
resume span. -/
def responseQZ : ExportResponse :=
  { files := [{ span := spanQZ, path := "3.sst", sst := [3] }] }

/-- A resume span that is valid although its start key is empty. -/
def spanMinZ : Span := { key := [], endKey := [122] }

/-- A span that is not valid: its start key sorts after its end key. -/
def spanZA : Span := { key := [122], endKey := [97] }

/-- The state after worker 0 took the chunk of `requestAZ` and its export ran
into a WriteIntentError: the retry is on the queue behind `requestB`. -/
def retryState : State :=
  { todo := [[requestB], [{ requestAZ with attempts := 1, lastTried := 207 }]]
    workers :=
      [{ control := .inChunk {} []
         requests := [({ key := [97], endKey := [122], resumeKeyTS := {}, startTime := {},
                         mvccFilter := 0, targetFileSize := 16, splitMidKey := true },
                       { targetBytes := 1, timestamp := { wallTime := 100 },
                         returnElasticCPUResumeSpans := true,
                         userPriority := UnspecifiedUserPriority, waitPolicy := .Error })] },
       {}] }

/-- The spec of a backup of the single span `[a, z)` from time 0 to time
100. -/
def spec : BackupDataSpec :=
  { spans := [spanAZ]
    introducedSpans := []
    backupStartTime := {}
    backupEndTime := { wallTime := 100 } }

/-- A range iterator that yields no range. -/
def noRanges : Span → Except String (List Span) := fun _ => .ok []

/-- A response with one file for `[a, z)` that ends at a key boundary, and no
resume span. -/
def responseAZ : ExportResponse :=
  { files := [{ span := spanAZ, path := "1.sst", sst := [1] }] }

/-- The state after worker 0 exported `[a, z)` in one response and both
workers found the queue empty. -/
def doneState : State :=
  { todo := []
    workers :=
      [{ control := .returned none
         requests := [({ key := [97], endKey := [122], resumeKeyTS := {}, startTime := {},
                         mvccFilter := 0, targetFileSize := 16, splitMidKey := true },
                       { targetBytes := 1, timestamp := { wallTime := 100 },
                         returnElasticCPUResumeSpans := true,
                         userPriority := UnspecifiedUserPriority, waitPolicy := .Error })]
         sink := [.write { metadata := { span := spanAZ, path := "1.sst" }, dataSST := [1],
                           completedSpans := 1, atKeyBoundary := true }] },
       { control := .returned none }] }

/-- A retry of the request for `[a, z)`: one attempt made, last tried at
time 199. -/
def retryAZ : spanAndTime :=
  { span := spanAZ, end_ := { wallTime := 100 }, attempts := 1, lastTried := 199,
    finishesSpec := true }

/-- The ranges `["", m)`, `[m, q)` and `[q, 0xff)`, which cover `[a, z)`. -/
def ranges3 : List Span :=
  [{ key := [], endKey := [109] }, { key := [109], endKey := [113] },
   { key := [113], endKey := [255] }]

/-- A range iterator that yields `ranges3` for every span. -/
def iterator3 : Span → Except String (List Span) := fun _ => .ok ranges3

/-- The spec of a backup from time 50 to time 100 with the introduced span
`[a, m)` and the span `[m, z)`. -/
def specIntroduced : BackupDataSpec :=
  { spans := [spanMZ]
    introducedSpans := [spanAM]
    backupStartTime := { wallTime := 50 }
    backupEndTime := { wallTime := 100 } }

/-- A monitor that grants the first three requests only. -/
def grantsThree : Nat → Bool := fun k => decide (k < 3)

/-- What `reserveWorkerMemory` returns for a limit of 3 export requests and 8
bytes per worker when the monitor is `grantsThree` and the account is empty:
four workers and 32 bytes reserved. -/
def reservedFour : Reserved :=
  { workerCount := 4
    release := fun memAcc => memAcc.Shrink (4 * 8)
    account := { used := 32 } }

/-- A state with one worker, whose priority flag is set, and the chunk of
`requestAZ` on the queue. -/
def priorityStart : State :=
  { todo := [[requestAZ]], workers := [{ priority := true }] }

/-- The state after the worker of `priorityStart` exported `[a, z)` in one
response and found the queue empty. -/
def priorityDone : State :=
  { todo := []
    workers :=
      [{ priority := true
         control := .returned none
         requests := [({ key := [97], endKey := [122], resumeKeyTS := {}, startTime := {},
                         mvccFilter := 0, targetFileSize := 16, splitMidKey := true },
                       { targetBytes := 1, timestamp := { wallTime := 100 },
                         returnElasticCPUResumeSpans := true,
                         userPriority := MaxUserPriority, waitPolicy := .Block })]
         sink := [.write { metadata := { span := spanAZ, path := "1.sst" }, dataSST := [1],
                           completedSpans := 1, atKeyBoundary := true }] }] }

/-- An export error with the given detail that is not a timeout. -/
def exportError (detail : ErrorDetail) : ExportError :=
  { detail := detail, isTimeout := false, text := "export failed" }

/-- An `UnmarshalAny` that reads the details of one byte as the count of
completed spans and fails on all others. -/
def unmarshalOne : List Nat → Option BackupManifest_Progress
  | [n] => some { completedSpans := n }
  | _ => none

/-- The processor 7 of flow 9 on node 1, for the backup `specIntroduced` of
two spans. -/
def processor : backupDataProcessor :=
  { nodeID := 1, flowID := 9, processorID := 7, spec := specIntroduced }

/-- The file `[a, m)` as a fragment of two bytes that ends in the middle of a
key. -/
def fragmentAM : exportedSpan :=
  { metadata := { span := spanAM, path := "1.sst" }, dataSST := [1, 2] }

/-- The file `[m, q)` as a fragment of one byte that ends at a key boundary. -/
def fragmentMQ : exportedSpan :=
  { metadata := { span := spanMQ, path := "2.sst" }, dataSST := [3],
    atKeyBoundary := true }

/-- The file `[q, z)` as a fragment of one byte that ends at a key boundary
and completes a span. -/
def fragmentQZ : exportedSpan :=
  { metadata := { span := spanQZ, path := "3.sst" }, dataSST := [4],
    completedSpans := 1, atKeyBoundary := true }

/-- The file `[m, z)` as a fragment of one byte that ends in the middle of a
key. -/
def fragmentMZ : exportedSpan :=
  { metadata := { span := spanMZ, path := "4.sst" }, dataSST := [5] }

end Example

/-! ## What a worker does with the outcome of an export -/

/-- A worker at the loop test with a key left to export can do a pass, and
the pass is `exportStep`. -/
theorem Worker.step_export (c : ProcessorCtx) (w : Worker) (todo : List (List spanAndTime))
    (inp : IterationInput) (span : spanAndTime) (rest : List spanAndTime)
    (hctl : w.control = .inChunk span rest) (hkey : span.span.key.length ≠ 0) :
    w.step c todo (.exportPass inp) =
      some ({ priority := (exportStep c inp w.priority span).priority
              control :=
                match (exportStep c inp w.priority span).flow with
                | .next span => Control.inChunk span rest
                | .ret err => Control.returned (some err)
              requests := w.requests ++ (exportStep c inp w.priority span).sent.toList
              sink := w.sink ++ (exportStep c inp w.priority span).sinkCalls },
            todo ++ (exportStep c inp w.priority span).requeued) := by
  simp [Worker.step, hctl, hkey]

/-- When the retry gate lets the pass proceed, the request is sent and the
outcome of the export is handled. -/
theorem exportStep_proceed (c : ProcessorCtx) (inp : IterationInput) (priority : Bool)
    (span : spanAndTime) (waited : Option Int) (priority' : Bool)
    (hgate : retryGate c inp priority span = .proceed waited priority') :
    exportStep c inp priority span =
      { waited := waited
        sent := some (exportRequestFor c inp span, headerFor span priority')
        requeued := (handleResult c inp span).requeued
        sinkCalls := (handleResult c inp span).sinkCalls
        priority := priority'
        flow := (handleResult c inp span).flow } := by
  simp [exportStep, hgate]

/-- C4: when an export fails with a WriteIntentError, the worker sends to
`todo` exactly one chunk, of one element: the failed request with `attempts`
increased by one and `lastTried` set to the current time, and otherwise
unchanged.  It calls nothing on its sink, does not return, and its next step
is the next span of its chunk. -/
theorem writeIntentError_requeues (c : ProcessorCtx) (w : Worker)
    (todo : List (List spanAndTime)) (inp : IterationInput) (span : spanAndTime)
    (rest : List spanAndTime) (err : ExportError) (waited : Option Int) (priority : Bool)
    (hctl : w.control = .inChunk span rest) (hkey : span.span.key.length ≠ 0)
    (hgate : retryGate c inp w.priority span = .proceed waited priority)
    (hres : inp.result = .failed err) (hdetail : err.detail = .writeIntentError) :
    w.step c todo (.exportPass inp) =
        some ({ priority := priority
                control := .inChunk {} rest
                requests := w.requests ++ [(exportRequestFor c inp span, headerFor span priority)]
                sink := w.sink },
              todo ++ [[{ span := span.span, firstKeyTS := span.firstKeyTS, start := span.start,
                          end_ := span.end_, attempts := span.attempts + 1,
                          lastTried := inp.nowAtRetry, finishesSpec := span.finishesSpec }]]) ∧
      ∀ (w' : Worker) (todo' : List (List spanAndTime)), w'.control = .inChunk {} rest →
        w'.step c todo' .nextSpan = some ({ w' with control := rangeSpans rest }, todo') := by
  constructor
  · rw [Worker.step_export c w todo inp span rest hctl hkey, exportStep_proceed c inp _ span _ _ hgate]
    simp [handleResult, hres, handleError, hdetail]
  · intro w' todo' h
    simp [Worker.step, h]

/-- C4, at a concrete input: the request for `[a, z)` runs into a
WriteIntentError on its first attempt. -/
theorem writeIntentError_requeues_witness :
    Example.workerAZ.step Example.ctx []
        (.exportPass (Example.input true (.failed (Example.exportError .writeIntentError)))) =
        some ({ priority := false
                control := .inChunk {} []
                requests := [(exportRequestFor Example.ctx
                  (Example.input true (.failed (Example.exportError .writeIntentError)))
                  Example.requestAZ, headerFor Example.requestAZ false)]
                sink := [] },
              [[{ span := Example.spanAZ, end_ := { wallTime := 100 }, attempts := 1,
                  lastTried := 207, finishesSpec := true }]]) ∧
      ∀ (w' : Worker) (todo' : List (List spanAndTime)), w'.control = .inChunk {} [] →
        w'.step Example.ctx todo' .nextSpan = some ({ w' with control := rangeSpans [] }, todo') :=
  writeIntentError_requeues Example.ctx Example.workerAZ []
    (Example.input true (.failed (Example.exportError .writeIntentError)))
    Example.requestAZ [] (Example.exportError .writeIntentError) none false
    rfl (by decide) (by decide) rfl rfl

/-- C3: the code at the failing input.  The request for `[a, z)` has
`finishesSpec` set and its export fails with a BatchTimestampBeforeGCError
whose `DataExcludedFromBackup` is set; the worker goes on without an error,
and without any call on its sink, where a completion with
`completedSpans = 1` and no data is to be reported to the sink.  On the
sibling path, an export that succeeds with no file, the worker does report
that completion, by `sink.writeWithNoData`. -/
theorem excludedGC_reports_nothing :
    Example.requestAZ.finishesSpec = true ∧
      (Example.workerAZ.step Example.ctx []
        (.exportPass (Example.input true
          (.failed (Example.exportError (.batchTimestampBeforeGCError true)))))).map
        (fun r => (r.1.control, r.1.sink, r.2)) = some (.inChunk {} [], [], []) ∧
      (Example.workerAZ.step Example.ctx []
        (.exportPass (Example.input true (.succeeded Example.emptyResponse)))).map
        (fun r => (r.1.control, r.1.sink, r.2)) =
          some (.inChunk {} [], [.writeWithNoData { completedSpans := 1 }], []) := by
  decide

/-- The branch for a BatchTimestampBeforeGCError whose
`DataExcludedFromBackup` is set, on every input: when the error is not a
timeout, the worker does not return, sends nothing to `todo`, calls nothing on
its sink whatever `finishesSpec` is, and its next step is the next span of its
chunk. -/
theorem excludedGC_drops_span (c : ProcessorCtx) (w : Worker)
    (todo : List (List spanAndTime)) (inp : IterationInput) (span : spanAndTime)
    (rest : List spanAndTime) (err : ExportError) (waited : Option Int) (priority : Bool)
    (hctl : w.control = .inChunk span rest) (hkey : span.span.key.length ≠ 0)
    (hgate : retryGate c inp w.priority span = .proceed waited priority)
    (hres : inp.result = .failed err)
    (hdetail : err.detail = .batchTimestampBeforeGCError true)
    (htimeout : err.isTimeout = false) :
    w.step c todo (.exportPass inp) =
        some ({ priority := priority
                control := .inChunk {} rest
                requests := w.requests ++ [(exportRequestFor c inp span, headerFor span priority)]
                sink := w.sink },
              todo) ∧
      ∀ (w' : Worker) (todo' : List (List spanAndTime)), w'.control = .inChunk {} rest →
        w'.step c todo' .nextSpan = some ({ w' with control := rangeSpans rest }, todo') := by
  constructor
  · rw [Worker.step_export c w todo inp span rest hctl hkey, exportStep_proceed c inp _ span _ _ hgate]
    simp [handleResult, hres, handleError, hdetail, htimeout, ErrorDetail.isExcludedGC]
  · intro w' todo' h
    simp [Worker.step, h]

/-- The branch for the excluded GC error at a concrete input: the export of
`[a, z)`, followed by `requestB` in the chunk, fails with that error. -/
theorem excludedGC_drops_span_witness :
    ({ control := .inChunk Example.requestAZ [Example.requestB] } : Worker).step Example.ctx []
        (.exportPass (Example.input true
          (.failed (Example.exportError (.batchTimestampBeforeGCError true))))) =
        some ({ priority := false
                control := .inChunk {} [Example.requestB]
                requests := [] ++ [(exportRequestFor Example.ctx
                  (Example.input true
                    (.failed (Example.exportError (.batchTimestampBeforeGCError true))))
                  Example.requestAZ, headerFor Example.requestAZ false)]
                sink := [] },
              []) ∧
      ∀ (w' : Worker) (todo' : List (List spanAndTime)),
        w'.control = .inChunk {} [Example.requestB] →
        w'.step Example.ctx todo' .nextSpan =
          some ({ w' with control := rangeSpans [Example.requestB] }, todo') :=
  excludedGC_drops_span Example.ctx { control := .inChunk Example.requestAZ [Example.requestB] } []
    (Example.input true (.failed (Example.exportError (.batchTimestampBeforeGCError true))))
    Example.requestAZ [Example.requestB] (Example.exportError (.batchTimestampBeforeGCError true))
    none false rfl (by decide) (by decide) rfl rfl rfl

/-- C5: when an export fails with an error that is neither a WriteIntentError
nor a BatchTimestampBeforeGCError whose `DataExcludedFromBackup` is set, the
worker returns an error that wraps the export error, sends nothing to `todo`
and calls nothing on its sink. -/
theorem export_error_is_fatal (c : ProcessorCtx) (w : Worker)
    (todo : List (List spanAndTime)) (inp : IterationInput) (span : spanAndTime)
    (rest : List spanAndTime) (err : ExportError) (waited : Option Int) (priority : Bool)
    (hctl : w.control = .inChunk span rest) (hkey : span.span.key.length ≠ 0)
    (hgate : retryGate c inp w.priority span = .proceed waited priority)
    (hres : inp.result = .failed err)
    (hintent : err.detail ≠ .writeIntentError)
    (hexcluded : err.detail ≠ .batchTimestampBeforeGCError true) :
    ∃ e : WorkerError,
      e.cause = some err ∧
      w.step c todo (.exportPass inp) =
        some ({ priority := priority
                control := .returned (some e)
                requests := w.requests ++ [(exportRequestFor c inp span, headerFor span priority)]
                sink := w.sink },
              todo) := by
  rw [Worker.step_export c w todo inp span rest hctl hkey, exportStep_proceed c inp _ span _ _ hgate]
  have hgc : err.detail.isExcludedGC = false := by
    cases hd : err.detail with
    | writeIntentError => exact absurd hd hintent
    | batchTimestampBeforeGCError excluded =>
      cases excluded with
      | true => exact absurd hd hexcluded
      | false => rfl
    | other => rfl
  cases htimeout : err.isTimeout with
  | true =>
    exact ⟨.exportRequestTimeout err, rfl, by
      simp [handleResult, hres, handleError, hintent, htimeout]⟩
  | false =>
    exact ⟨.exporting span.span err, rfl, by
      simp [handleResult, hres, handleError, hintent, htimeout, hgc]⟩

/-- C5, at a concrete input: the export of `[a, z)` fails with a
BatchTimestampBeforeGCError whose `DataExcludedFromBackup` is not set. -/
theorem export_error_is_fatal_witness :
    ∃ e : WorkerError,
      e.cause = some (Example.exportError (.batchTimestampBeforeGCError false)) ∧
      Example.workerAZ.step Example.ctx []
          (.exportPass (Example.input true
            (.failed (Example.exportError (.batchTimestampBeforeGCError false))))) =
        some ({ priority := false
                control := .returned (some e)
                requests := Example.workerAZ.requests ++ [(exportRequestFor Example.ctx
                  (Example.input true
                    (.failed (Example.exportError (.batchTimestampBeforeGCError false))))
                  Example.requestAZ, headerFor Example.requestAZ false)]
                sink := Example.workerAZ.sink },
              []) :=
  export_error_is_fatal Example.ctx Example.workerAZ []
    (Example.input true (.failed (Example.exportError (.batchTimestampBeforeGCError false))))
    Example.requestAZ [] (Example.exportError (.batchTimestampBeforeGCError false)) none false
    rfl (by decide) (by decide) rfl (by decide) (by decide)

/-- C8: the request a pass sends resumes at the `firstKeyTS` of the working
span, and its `SplitMidKey` is true if and only if the setting
`splitKeysOnTimestamps` is on or that `firstKeyTS` is not empty. -/
theorem splitMidKey_iff (c : ProcessorCtx) (inp : IterationInput) (priority : Bool)
    (span : spanAndTime) (req : ExportRequest) (header : Header)
    (hsent : (exportStep c inp priority span).sent = some (req, header)) :
    req.resumeKeyTS = span.firstKeyTS ∧
      (req.splitMidKey = true ↔
        (inp.splitKeysOnTimestamps = true ∨ span.firstKeyTS.IsEmpty = false)) := by
  have hreq : req = exportRequestFor c inp span := by
    unfold exportStep at hsent
    cases hgate : retryGate c inp priority span with
    | cancelled delay => simp [hgate] at hsent
    | proceed waited priority' =>
      simp [hgate] at hsent
      exact hsent.1.symm
  subst hreq
  refine ⟨rfl, ?_⟩
  cases hts : span.firstKeyTS.IsEmpty <;> cases hset : inp.splitKeysOnTimestamps <;>
    simp [exportRequestFor, splitMidKeyFor, hts, hset]

/-- C8, at a concrete input: the setting is off and the working span resumes
mid-key at `t5`. -/
theorem splitMidKey_iff_witness :
    (exportRequestFor Example.ctx (Example.input false (.succeeded Example.responseMZ))
        { span := Example.spanMZ, firstKeyTS := Example.t5 }).resumeKeyTS = Example.t5 ∧
      ((exportRequestFor Example.ctx (Example.input false (.succeeded Example.responseMZ))
        { span := Example.spanMZ, firstKeyTS := Example.t5 }).splitMidKey = true ↔
        ((Example.input false (.succeeded Example.responseMZ)).splitKeysOnTimestamps = true ∨
          Example.t5.IsEmpty = false)) :=
  splitMidKey_iff Example.ctx (Example.input false (.succeeded Example.responseMZ)) false
    { span := Example.spanMZ, firstKeyTS := Example.t5 }
    (exportRequestFor Example.ctx (Example.input false (.succeeded Example.responseMZ))
      { span := Example.spanMZ, firstKeyTS := Example.t5 })
    (headerFor { span := Example.spanMZ, firstKeyTS := Example.t5 } false) rfl

/-! ## Successful responses -/

/-- The span of the metadata of an `exportedSpan` is the span of its file. -/
theorem exportedSpanFor_span (c : ProcessorCtx) (span : spanAndTime) (resp : ExportResponse)
    (completedSpans : Int) (i : Nat) (file : ExportResponse_File) :
    (exportedSpanFor c span resp completedSpans i file).metadata.span = file.span := by
  unfold exportedSpanFor
  by_cases h1 : span.start ≠ c.backupStartTime <;> by_cases h2 : i = resp.files.length - 1 <;>
    simp [h1, h2]

/-- Only the `exportedSpan` of the last file carries the completion count. -/
theorem exportedSpanFor_completedSpans (c : ProcessorCtx) (span : spanAndTime)
    (resp : ExportResponse) (completedSpans : Int) (i : Nat) (file : ExportResponse_File) :
    (exportedSpanFor c span resp completedSpans i file).completedSpans =
      if i = resp.files.length - 1 then completedSpans else 0 := by
  unfold exportedSpanFor
  by_cases h1 : span.start ≠ c.backupStartTime <;> by_cases h2 : i = resp.files.length - 1 <;>
    simp [h1, h2]

/-- When no `sink.write` before the last one fails, every file is written. -/
theorem writeFiles_calls (c : ProcessorCtx) (span : spanAndTime) (resp : ExportResponse)
    (completedSpans : Int) (sinkFailsAt : Option Nat) (files : List ExportResponse_File) :
    ∀ i : Nat, (∀ j, sinkFailsAt = some j → i + files.length ≤ j + 1) →
      (writeFiles c span resp completedSpans sinkFailsAt i files).1 =
        (files.enumFrom i).map
          (fun p => SinkCall.write (exportedSpanFor c span resp completedSpans p.1 p.2)) := by
  induction files with
  | nil => intro i _; rfl
  | cons file files ih =>
    intro i hsink
    by_cases hfail : sinkFailsAt = some i
    · have hlen := hsink i hfail
      simp only [List.length_cons] at hlen
      have hnil : files = [] := List.eq_nil_of_length_eq_zero (by omega)
      subst hnil
      simp [writeFiles, hfail]
    · have hrec := ih (i + 1) (fun j hj => by
        have := hsink j hj
        simp only [List.length_cons] at this
        omega)
      simp [writeFiles, hfail, hrec, List.enumFrom]

/-- When no `sink.write` fails, the loop over the files returns no error. -/
theorem writeFiles_ok (c : ProcessorCtx) (span : spanAndTime) (resp : ExportResponse)
    (completedSpans : Int) (sinkFailsAt : Option Nat) (files : List ExportResponse_File) :
    ∀ i : Nat, (∀ j, sinkFailsAt = some j → i + files.length ≤ j) →
      (writeFiles c span resp completedSpans sinkFailsAt i files).2 = none := by
  induction files with
  | nil => intro i _; rfl
  | cons file files ih =>
    intro i hsink
    have hfail : sinkFailsAt ≠ some i := by
      intro h
      have := hsink i h
      simp only [List.length_cons] at this
      omega
    have hrec := ih (i + 1) (fun j hj => by
      have := hsink j hj
      simp only [List.length_cons] at this
      omega)
    simp [writeFiles, hfail, hrec]

/-- Among consecutive indices that end at `last`, only `last` gets the
count. -/
theorem enumFrom_last_count {α : Type} (count : Int) (last : Nat) (xs : List α) :
    ∀ i : Nat, xs ≠ [] → i + xs.length = last + 1 →
      (xs.enumFrom i).map (fun p => if p.1 = last then count else 0) =
        List.replicate (xs.length - 1) 0 ++ [count] := by
  induction xs with
  | nil => intro i h; exact absurd rfl h
  | cons x xs ih =>
    intro i _ hlen
    simp only [List.length_cons] at hlen
    cases xs with
    | nil =>
      simp only [List.length_nil] at hlen
      have : i = last := by omega
      simp [List.enumFrom, this]
    | cons y ys =>
      have hne : i ≠ last := by
        simp only [List.length_cons] at hlen
        omega
      have hrec := ih (i + 1) (by simp) (by omega)
      simp only [List.enumFrom, List.map_cons, hne, if_false]
      simp only [List.enumFrom, List.map_cons] at hrec
      rw [hrec]
      simp [List.replicate_succ]

/-- C9, as stated, fails: a successful response with no file and a resume
span that is not valid makes the worker return an error without any call on
its sink, `writeWithNoData` included. -/
theorem invalid_resume_span_no_sink_call :
    Example.spanZA.Valid = false ∧
      (Example.workerAZ.step Example.ctx []
        (.exportPass (Example.input true
          (.succeeded { files := [], resumeSpan := some Example.spanZA })))).map
        (fun r => (r.1.control, r.1.sink)) =
        some (.returned (some (.invalidResumeSpan Example.spanZA)), []) := by
  decide

/-- C9, amended: for a successful response whose resume span is absent or
valid, the completion count is 0 or 1; with no file, the sink gets exactly one
call, `writeWithNoData` with the count; with files, and no `sink.write` before
the last one failing, the sink gets one `write` per file, in order, the last
one with the count and all others with `completedSpans = 0`. -/
theorem completion_count_handed_once (c : ProcessorCtx) (inp : IterationInput)
    (span : spanAndTime) (resp : ExportResponse)
    (hresume : ∀ resume, resp.resumeSpan = some resume → resume.Valid = true)
    (hsink : ∀ j, inp.sinkFailsAt = some j → resp.files.length ≤ j + 1) :
    (completedSpansFor span resp = 0 ∨ completedSpansFor span resp = 1) ∧
      (resp.files = [] →
        (handleResponse c inp span resp).sinkCalls =
          [.writeWithNoData { completedSpans := completedSpansFor span resp }]) ∧
      (resp.files ≠ [] →
        (handleResponse c inp span resp).sinkCalls.all SinkCall.isWrite = true ∧
        (handleResponse c inp span resp).sinkCalls.map (fun call => call.arg.metadata.span) =
          resp.files.map (fun file => file.span) ∧
        (handleResponse c inp span resp).sinkCalls.map (fun call => call.arg.completedSpans) =
          List.replicate (resp.files.length - 1) 0 ++ [completedSpansFor span resp]) := by
  have hcalls : (handleResponse c inp span resp).sinkCalls =
      (if resp.files.length = 0 then
          [SinkCall.writeWithNoData { completedSpans := completedSpansFor span resp }]
        else []) ++
        (resp.files.enumFrom 0).map
          (fun p => SinkCall.write
            (exportedSpanFor c span resp (completedSpansFor span resp) p.1 p.2)) := by
    have hw := writeFiles_calls c span resp (completedSpansFor span resp) inp.sinkFailsAt
      resp.files 0 (fun j hj => by have := hsink j hj; omega)
    unfold handleResponse
    cases hr : resp.resumeSpan with
    | none =>
      simp only []
      split <;> simp [hw]
    | some resume =>
      have hv := hresume resume hr
      simp only [hv, Bool.not_true, Bool.false_eq_true, if_false]
      split <;> simp [hw]
  refine ⟨?_, ?_, ?_⟩
  · unfold completedSpansFor
    split <;> simp
  · intro hfiles
    rw [hcalls, hfiles]
    simp
  · intro hfiles
    have hlen : resp.files.length ≠ 0 := fun h => hfiles (List.eq_nil_of_length_eq_zero h)
    rw [hcalls]
    simp only [hlen, if_false, List.nil_append, List.map_map]
    refine ⟨?_, ?_, ?_⟩
    · simp only [List.all_eq_true, List.mem_map]
      rintro call ⟨p, _, rfl⟩
      rfl
    · have : ((fun call : SinkCall => call.arg.metadata.span) ∘
          fun p : Nat × ExportResponse_File => SinkCall.write
            (exportedSpanFor c span resp (completedSpansFor span resp) p.1 p.2)) =
          (fun file : ExportResponse_File => file.span) ∘ Prod.snd := by
        funext p
        simp [SinkCall.arg, exportedSpanFor_span]
      rw [this, ← List.map_map]
      simp [List.enumFrom_map_snd]
    · have : ((fun call : SinkCall => call.arg.completedSpans) ∘
          fun p : Nat × ExportResponse_File => SinkCall.write
            (exportedSpanFor c span resp (completedSpansFor span resp) p.1 p.2)) =
          fun p : Nat × ExportResponse_File =>
            if p.1 = resp.files.length - 1 then completedSpansFor span resp else 0 := by
        funext p
        simp [SinkCall.arg, exportedSpanFor_completedSpans]
      rw [this]
      exact enumFrom_last_count (completedSpansFor span resp) (resp.files.length - 1)
        resp.files 0 hfiles (by omega)

/-- C9, amended, at a concrete input: the response with the single file for
`[m, z)` and no resume span, to a request that finishes its assigned span. -/
theorem completion_count_handed_once_witness :
    (completedSpansFor Example.requestAZ Example.responseMZ = 0 ∨
        completedSpansFor Example.requestAZ Example.responseMZ = 1) ∧
      (Example.responseMZ.files = [] →
        (handleResponse Example.ctx (Example.input true (.succeeded Example.responseMZ))
            Example.requestAZ Example.responseMZ).sinkCalls =
          [.writeWithNoData
            { completedSpans := completedSpansFor Example.requestAZ Example.responseMZ }]) ∧
      (Example.responseMZ.files ≠ [] →
        (handleResponse Example.ctx (Example.input true (.succeeded Example.responseMZ))
            Example.requestAZ Example.responseMZ).sinkCalls.all SinkCall.isWrite = true ∧
        (handleResponse Example.ctx (Example.input true (.succeeded Example.responseMZ))
            Example.requestAZ Example.responseMZ).sinkCalls.map
            (fun call => call.arg.metadata.span) =
          Example.responseMZ.files.map (fun file => file.span) ∧
        (handleResponse Example.ctx (Example.input true (.succeeded Example.responseMZ))
            Example.requestAZ Example.responseMZ).sinkCalls.map
            (fun call => call.arg.completedSpans) =
          List.replicate (Example.responseMZ.files.length - 1) 0 ++
            [completedSpansFor Example.requestAZ Example.responseMZ]) :=
  completion_count_handed_once Example.ctx (Example.input true (.succeeded Example.responseMZ))
    Example.requestAZ Example.responseMZ (by decide) (by decide)

/-- A response with a valid resume span, written to the sink without an
error, makes the loop go on with the resume span. -/
theorem handleResponse_resume (c : ProcessorCtx) (inp : IterationInput) (span : spanAndTime)
    (resp : ExportResponse) (resume : Span)
    (hresume : resp.resumeSpan = some resume) (hvalid : resume.Valid = true)
    (hsink : ∀ j, inp.sinkFailsAt = some j → resp.files.length ≤ j) :
    (handleResponse c inp span resp).flow = .next (resumeSpanFor span resp resume) ∧
      (handleResponse c inp span resp).requeued = [] := by
  have hw := writeFiles_ok c span resp (completedSpansFor span resp) inp.sinkFailsAt
    resp.files 0 (fun j hj => by have := hsink j hj; omega)
  unfold handleResponse
  simp [hresume, hvalid, hw]

/-- A request sent for a working span whose `firstKeyTS` is not empty has
`SplitMidKey` set, whatever the setting. -/
theorem sent_splitMidKey_of_firstKeyTS (c : ProcessorCtx) (inp : IterationInput)
    (priority : Bool) (span : spanAndTime) (req : ExportRequest) (header : Header)
    (hts : span.firstKeyTS.IsEmpty = false)
    (hsent : (exportStep c inp priority span).sent = some (req, header)) :
    req.splitMidKey = true := by
  unfold exportStep at hsent
  cases hgate : retryGate c inp priority span with
  | cancelled delay => simp [hgate] at hsent
  | proceed waited priority' =>
    simp [hgate] at hsent
    rw [← hsent.1]
    simp [exportRequestFor, splitMidKeyFor, hts]

/-- A request a pass sends back to `todo` is the working span of the pass but
for `attempts` and `lastTried`. -/
theorem exportStep_requeued (c : ProcessorCtx) (inp : IterationInput) (priority : Bool)
    (span retry : spanAndTime) (chunks : List (List spanAndTime))
    (hre : (exportStep c inp priority span).requeued = [retry] :: chunks) :
    retry.span = span.span ∧ retry.firstKeyTS = span.firstKeyTS ∧
      retry.finishesSpec = span.finishesSpec := by
  unfold exportStep at hre
  cases hgate : retryGate c inp priority span with
  | cancelled delay => simp [hgate] at hre
  | proceed waited priority' =>
    simp only [hgate] at hre
    unfold handleResult at hre
    cases hres : inp.result with
    | failed err =>
      simp only [hres] at hre
      unfold handleError at hre
      by_cases h1 : err.detail = .writeIntentError
      · simp only [h1, if_true] at hre
        simp only [List.cons.injEq, and_true] at hre
        rw [← hre.1]
        exact ⟨rfl, rfl, rfl⟩
      · by_cases h2 : err.isTimeout = true
        · simp [h1, h2] at hre
        · by_cases h3 : err.detail.isExcludedGC = true
          · simp [h1, h2, h3] at hre
          · simp [h1, h2, h3] at hre
    | succeeded resp =>
      simp only [hres] at hre
      unfold handleResponse at hre
      cases hr : resp.resumeSpan with
      | none =>
        simp only [hr] at hre
        split at hre <;> simp at hre
      | some resume =>
        simp only [hr] at hre
        by_cases hv : resume.Valid = true
        · simp only [hv, Bool.not_true, Bool.false_eq_true, if_false] at hre
          split at hre <;> simp at hre
        · simp [hv] at hre

/-- Why the resume span is taken to start at or after the start key of the
request: a resume span with an empty start key, here in the response to the
request for `[a, z)`, is valid but ends the loop over the span, and the next
request the worker sends is for the next span of its chunk, `[200, 210)`. -/
theorem resume_span_with_empty_key_is_dropped :
    Example.spanMinZ.Valid = true ∧
      (State.run Example.ctx (State.init true 2 [Example.requestAZ, Example.requestB])
        [(0, .receive),
         (0, .exportPass (Example.input true
            (.succeeded { files := [], resumeSpan := some Example.spanMinZ }))),
         (0, .nextSpan),
         (0, .exportPass (Example.input true (.succeeded Example.emptyResponse)))]).map
        (fun s => s.workers.map
          fun w => w.requests.map fun r => (({ key := r.1.key, endKey := r.1.endKey } : Span))) =
        some [[Example.spanAZ, { key := [200], endKey := [210] }], []] := by
  decide

/-- The empty key sorts before every other key. -/
theorem key_nonempty_of_not_less (a b : Key) (hb : b.length ≠ 0)
    (h : bytesLess a b = false) : a.length ≠ 0 := by
  intro ha
  have ha0 : a = [] := List.eq_nil_of_length_eq_zero ha
  subst ha0
  cases b with
  | nil => exact hb rfl
  | cons x xs => simp [bytesLess] at h

/-- When a `sink.write` of the loop over the files fails, the loop returns
the error of that write. -/
theorem writeFiles_fails (c : ProcessorCtx) (span : spanAndTime) (resp : ExportResponse)
    (completedSpans : Int) (j : Nat) (files : List ExportResponse_File) :
    ∀ i : Nat, i ≤ j → j < i + files.length →
      (writeFiles c span resp completedSpans (some j) i files).2 = some (.sinkWrite j) := by
  induction files with
  | nil =>
    intro i h1 h2
    simp at h2
    omega
  | cons file files ih =>
    intro i h1 h2
    by_cases hij : j = i
    · subst hij
      simp [writeFiles]
    · have hne : (some j : Option Nat) ≠ some i := fun h => hij (Option.some.inj h)
      have hrec := ih (i + 1) (by omega) (by simp only [List.length_cons] at h2; omega)
      simp [writeFiles, hne, hrec]

/-- A response with a valid resume span, one of whose files the sink fails to
write, makes the worker return the error of the sink. -/
theorem handleResponse_sink_fails (c : ProcessorCtx) (inp : IterationInput)
    (span : spanAndTime) (resp : ExportResponse) (resume : Span) (j : Nat)
    (hresume : resp.resumeSpan = some resume) (hvalid : resume.Valid = true)
    (hfail : inp.sinkFailsAt = some j) (hj : j < resp.files.length) :
    (handleResponse c inp span resp).flow = .ret (.sinkWrite j) ∧
      (handleResponse c inp span resp).requeued = [] := by
  have hw := writeFiles_fails c span resp (completedSpansFor span resp) j resp.files 0
    (Nat.zero_le _) (by omega)
  unfold handleResponse
  simp [hresume, hvalid, hfail, hw]

/-- A worker that has returned does nothing more. -/
theorem Worker.step_returned (c : ProcessorCtx) (w : Worker) (err : Option WorkerError)
    (hctl : w.control = .returned err) (todo : List (List spanAndTime)) (a : Action) :
    w.step c todo a = none := by
  cases a <;> simp [Worker.step, hctl]

/-- C6: for every successful response that carries a valid resume span, the
next request the worker issues has span = ResumeSpan, firstKeyTS = EndKeyTS of
the last file of that response (the empty timestamp if the response has no
files), and the same start, end, attempts and lastTried as the request just
answered.  The worker is in the loop over a span with a key that is not
empty, it has sent the request, and the resume span starts at or after the
start key of the request, as a resume span of the KV store does.  When the
sink takes the files, the working span is the resume span with these values,
the worker cannot go on to another span, and the request of its next pass is
built from that working span; when the sink fails on a file, the worker
returns that error and issues no request any more. -/
theorem resume_span_next_request (c : ProcessorCtx) (w : Worker)
    (todo : List (List spanAndTime)) (inp : IterationInput) (span : spanAndTime)
    (rest : List spanAndTime) (resp : ExportResponse) (resume : Span)
    (waited : Option Int) (priority : Bool)
    (hctl : w.control = .inChunk span rest) (hkey : span.span.key.length ≠ 0)
    (hgate : retryGate c inp w.priority span = .proceed waited priority)
    (hres : inp.result = .succeeded resp)
    (hresume : resp.resumeSpan = some resume) (hvalid : resume.Valid = true)
    (hinside : bytesLess resume.key span.span.key = false) :
    ∃ w1 : Worker,
      w.step c todo (.exportPass inp) = some (w1, todo) ∧
      ((∀ j, inp.sinkFailsAt = some j → resp.files.length ≤ j) →
        ∃ next : spanAndTime,
          w1.control = .inChunk next rest ∧
          next.span = resume ∧
          next.firstKeyTS =
            (match resp.files.getLast? with
              | some file => file.endKeyTS
              | none => {}) ∧
          next.start = span.start ∧ next.end_ = span.end_ ∧
          next.attempts = span.attempts ∧ next.lastTried = span.lastTried ∧
          (∀ todo' : List (List spanAndTime), w1.step c todo' .nextSpan = none) ∧
          (∀ (inp' : IterationInput) (todo' : List (List spanAndTime)) (waited' : Option Int)
              (priority' : Bool),
            retryGate c inp' w1.priority next = .proceed waited' priority' →
            ∃ (w2 : Worker) (todo2 : List (List spanAndTime)) (req : ExportRequest)
                (header : Header),
              w1.step c todo' (.exportPass inp') = some (w2, todo2) ∧
              w2.requests = w1.requests ++ [(req, header)] ∧
              req.key = resume.key ∧ req.endKey = resume.endKey ∧
              req.resumeKeyTS = next.firstKeyTS ∧
              req.startTime = span.start ∧ header.timestamp = span.end_)) ∧
      (∀ j, inp.sinkFailsAt = some j → j < resp.files.length →
        w1.control = .returned (some (.sinkWrite j)) ∧
          ∀ (a : Action) (todo' : List (List spanAndTime)), w1.step c todo' a = none) := by
  have hrkey : resume.key.length ≠ 0 :=
    key_nonempty_of_not_less resume.key span.span.key hkey hinside
  have hstep := Worker.step_export c w todo inp span rest hctl hkey
  rw [exportStep_proceed c inp _ span _ _ hgate] at hstep
  have hreq : (handleResult c inp span).requeued = [] := by
    simp only [handleResult, hres]
    by_cases hsink : ∀ j, inp.sinkFailsAt = some j → resp.files.length ≤ j
    · exact (handleResponse_resume c inp span resp resume hresume hvalid hsink).2
    · push_neg at hsink
      obtain ⟨j, hj1, hj2⟩ := hsink
      exact (handleResponse_sink_fails c inp span resp resume j hresume hvalid hj1 hj2).2
  simp only [hreq, List.append_nil] at hstep
  refine ⟨_, hstep, ?_, ?_⟩
  · intro hsink
    have hflow := handleResponse_resume c inp span resp resume hresume hvalid hsink
    refine ⟨resumeSpanFor span resp resume, ?_, rfl, rfl, rfl, rfl, rfl, rfl, ?_, ?_⟩
    · simp only [handleResult, hres, hflow.1]
    · intro todo'
      simp [Worker.step, handleResult, hres, hflow.1, resumeSpanFor, hrkey]
    · intro inp' todo' waited' priority' hgate'
      have hkey' : (resumeSpanFor span resp resume).span.key.length ≠ 0 := hrkey
      have hstep' := Worker.step_export c
        ({ priority := priority
           control := Control.inChunk (resumeSpanFor span resp resume) rest
           requests := w.requests ++ (some (exportRequestFor c inp span,
             headerFor span priority)).toList
           sink := w.sink ++ (handleResult c inp span).sinkCalls } : Worker)
        todo' inp' (resumeSpanFor span resp resume) rest rfl hkey'
      rw [exportStep_proceed c inp' _ _ _ _ hgate'] at hstep'
      simp only [handleResult, hres, hflow.1] at hstep' ⊢
      refine ⟨_, _, exportRequestFor c inp' (resumeSpanFor span resp resume),
        headerFor (resumeSpanFor span resp resume) priority', hstep', rfl, rfl, rfl, rfl, rfl, ?_⟩
      unfold headerFor
      cases priority' <;> rfl
  · intro j hj1 hj2
    have hflow := handleResponse_sink_fails c inp span resp resume j hresume hvalid hj1 hj2
    have hctl1 : ({ priority := priority
                    control :=
                      match (handleResult c inp span).flow with
                      | .next span => Control.inChunk span rest
                      | .ret err => Control.returned (some err)
                    requests := w.requests ++ (some (exportRequestFor c inp span,
                      headerFor span priority)).toList
                    sink := w.sink ++ (handleResult c inp span).sinkCalls } : Worker).control =
        .returned (some (.sinkWrite j)) := by
      simp only [handleResult, hres, hflow.1]
    exact ⟨hctl1, fun a todo' => Worker.step_returned c _ _ hctl1 todo' a⟩

/-- C6, at a concrete input: the response with the file for `[a, m)` that
ends at `t5` and the resume span `[m, z)`. -/
theorem resume_span_next_request_witness :
    ∃ (w1 : Worker) (next : spanAndTime),
      Example.workerAZ.step Example.ctx []
        (.exportPass (Example.input true (.succeeded Example.responseAM))) = some (w1, []) ∧
      w1.control = .inChunk next [] ∧ next.span = Example.spanMZ ∧
      next.firstKeyTS = Example.t5 := by
  obtain ⟨w1, h1, hok, _⟩ :=
    resume_span_next_request Example.ctx Example.workerAZ []
      (Example.input true (.succeeded Example.responseAM)) Example.requestAZ []
      Example.responseAM Example.spanMZ none false rfl (by decide) (by decide) rfl rfl
      (by decide) (by decide)
  obtain ⟨next, h2, h3, h4, _⟩ := hok (by decide)
  exact ⟨w1, next, h1, h2, h3, h4⟩

/-- C7, as stated, fails: the first response for `[a, z)` splits mid-key at
`t5` and carries the resume span `[m, z)`; the setting is then turned off; the
second response ends at a key boundary and carries the resume span `[q, z)`;
the third request, for `[q, z)`, a follow-up request of the span that is not
finished yet, is sent with `SplitMidKey = false`. -/
theorem follow_up_request_without_splitMidKey :
    (State.run Example.ctx (State.init false 2 [Example.requestAZ])
      [(0, .receive),
       (0, .exportPass (Example.input true (.succeeded Example.responseAM))),
       (0, .exportPass (Example.input false (.succeeded Example.responseMQ))),
       (0, .exportPass (Example.input false (.succeeded Example.responseQZ)))]).map
      (fun s => s.workers.map
        fun w => w.requests.map fun r => (r.1.key, r.1.resumeKeyTS, r.1.splitMidKey)) =
      some [[([97], {}, true), ([109], Example.t5, true), ([113], {}, false)], []] := by
  decide

/-- C7, amended: after a successful response that carries a valid resume span
and whose last file has an `EndKeyTS` that is not empty (its files taken by
the sink without an error), the loop goes on with the resume span, every
request sent for that working span has `SplitMidKey = true` whatever the
setting is at that time, and so has every request sent for a retry of it that
a pass puts back on `todo`. -/
theorem splitMidKey_latched (c : ProcessorCtx) (inp : IterationInput) (span : spanAndTime)
    (resp : ExportResponse) (resume : Span) (last : ExportResponse_File)
    (hresume : resp.resumeSpan = some resume) (hvalid : resume.Valid = true)
    (hsink : ∀ j, inp.sinkFailsAt = some j → resp.files.length ≤ j)
    (hlast : resp.files.getLast? = some last) (hmid : last.endKeyTS.IsEmpty = false) :
    ∃ next : spanAndTime,
      (handleResponse c inp span resp).flow = .next next ∧ next.span = resume ∧
      (∀ (inp' : IterationInput) (priority : Bool) (req : ExportRequest) (header : Header),
        (exportStep c inp' priority next).sent = some (req, header) → req.splitMidKey = true) ∧
      (∀ (inp' : IterationInput) (priority : Bool) (retry : spanAndTime)
          (chunks : List (List spanAndTime)),
        (exportStep c inp' priority next).requeued = [retry] :: chunks →
        retry.span = resume ∧
        ∀ (inp2 : IterationInput) (priority' : Bool) (req : ExportRequest) (header : Header),
          (exportStep c inp2 priority' retry).sent = some (req, header) →
          req.splitMidKey = true) := by
  have hflow := (handleResponse_resume c inp span resp resume hresume hvalid hsink).1
  have hts : (resumeSpanFor span resp resume).firstKeyTS.IsEmpty = false := by
    simp [resumeSpanFor, hlast, hmid]
  refine ⟨resumeSpanFor span resp resume, hflow, rfl, ?_, ?_⟩
  · intro inp' priority req header hsent
    exact sent_splitMidKey_of_firstKeyTS c inp' priority _ req header hts hsent
  · intro inp' priority retry chunks hre
    have hretry := exportStep_requeued c inp' priority _ retry chunks hre
    refine ⟨hretry.1, ?_⟩
    intro inp2 priority' req header hsent
    exact sent_splitMidKey_of_firstKeyTS c inp2 priority' retry req header
      (by rw [hretry.2.1]; exact hts) hsent

/-- C7, amended, at a concrete input: the response with the file for `[a, m)`
that ends at `t5` and the resume span `[m, z)`, the setting off afterwards. -/
theorem splitMidKey_latched_witness :
    ∃ next : spanAndTime,
      (handleResponse Example.ctx (Example.input true (.succeeded Example.responseAM))
        Example.requestAZ Example.responseAM).flow = .next next ∧
      next.span = Example.spanMZ ∧
      ∀ (req : ExportRequest) (header : Header),
        (exportStep Example.ctx (Example.input false (.succeeded Example.responseMZ))
          false next).sent = some (req, header) → req.splitMidKey = true := by
  obtain ⟨next, h1, h2, h3, _⟩ :=
    splitMidKey_latched Example.ctx (Example.input true (.succeeded Example.responseAM))
      Example.requestAZ Example.responseAM Example.spanMZ
      { span := Example.spanAM, path := "1.sst", sst := [1], endKeyTS := Example.t5 }
      rfl (by decide) (by decide) rfl (by decide)
  exact ⟨next, h1, h2, fun req header h =>
    h3 (Example.input false (.succeeded Example.responseMZ)) false req header h⟩

/-- C1: the code at the resume scenario.  The request for the assigned span
`[a, z)` has `finishesSpec` set; its first response carries the file for
`[a, m)` and the resume span `[m, z)`, its second response the file for
`[m, z)` and no resume span.  Both workers return without an error, and the
sink has got both files, the last one too with `completedSpans = 0`. -/
theorem resumed_span_completes_with_zero :
    Example.requestAZ.finishesSpec = true ∧
      (State.run Example.ctx (State.init false 2 [Example.requestAZ])
        [(0, .receive),
         (0, .exportPass (Example.input true (.succeeded Example.responseAM))),
         (0, .exportPass (Example.input true (.succeeded Example.responseMZ))),
         (0, .nextSpan),
         (0, .noWork false),
         (1, .noWork false)]).map
        (fun s => (s.allReturnedNil, s.todo.length, s.sinkCalls.map
          fun call => (call.isWrite, call.arg.metadata.span, call.arg.completedSpans))) =
        some (true, 0, [(true, Example.spanAM, 0), (true, Example.spanMZ, 0)]) := by
  decide

/-! ## Runs of the workers -/

/-- A step of the processor is a step of one worker on the queue. -/
theorem State.step_spec (c : ProcessorCtx) (s s' : State) (i : Nat) (a : Action)
    (h : s.step c i a = some s') :
    ∃ w w', s.workers[i]? = some w ∧ w.step c s.todo a = some (w', s'.todo) ∧
      s'.workers = s.workers.set i w' := by
  unfold State.step at h
  cases hw : s.workers[i]? with
  | none => simp [hw] at h
  | some w =>
    simp only [hw] at h
    cases hstep : w.step c s.todo a with
    | none => simp [hstep] at h
    | some r =>
      obtain ⟨w', todo'⟩ := r
      simp only [hstep, Option.some.injEq] at h
      subst h
      exact ⟨w, w', rfl, hstep, rfl⟩

/-- A property of the states that every step preserves holds after every
run. -/
theorem State.run_invariant (c : ProcessorCtx) (P : State → Prop)
    (hstep : ∀ (s s' : State) (i : Nat) (a : Action), P s → s.step c i a = some s' → P s') :
    ∀ (sched : Schedule) (s s' : State), P s → State.run c s sched = some s' → P s' := by
  intro sched
  induction sched with
  | nil =>
    intro s s' hP hrun
    simp only [State.run, Option.some.injEq] at hrun
    exact hrun ▸ hP
  | cons x rest ih =>
    intro s s' hP hrun
    obtain ⟨i, a⟩ := x
    simp only [State.run] at hrun
    cases hs : s.step c i a with
    | none => simp [hs] at hrun
    | some s1 =>
      simp only [hs] at hrun
      exact ih s1 s' (hstep s s1 i a hP hs) hrun

/-- A property of the states that every step that keeps the completion count
preserves holds after every run of such steps. -/
theorem State.run_invariant_counted (c : ProcessorCtx) (P : State → Prop)
    (hstep : ∀ (s s' : State) (i : Nat) (a : Action) (w : Worker),
      s.workers[i]? = some w → w.keepsCount a = true → P s → s.step c i a = some s' → P s') :
    ∀ (sched : Schedule) (s s' : State), State.runKeepsCount c s sched = true → P s →
      State.run c s sched = some s' → P s' := by
  intro sched
  induction sched with
  | nil =>
    intro s s' _ hP hrun
    simp only [State.run, Option.some.injEq] at hrun
    exact hrun ▸ hP
  | cons x rest ih =>
    intro s s' hgood hP hrun
    obtain ⟨i, a⟩ := x
    simp only [State.run] at hrun
    cases hs : s.step c i a with
    | none => simp [hs] at hrun
    | some s1 =>
      simp only [hs] at hrun
      simp only [State.runKeepsCount, hs, Bool.and_eq_true] at hgood
      cases hw : s.workers[i]? with
      | none => simp [State.step, hw] at hs
      | some w =>
        simp only [hw] at hgood
        exact ih s1 s' hgood.2 (hstep s s1 i a w hw hgood.1 hP hs) hrun

/-- Replacing one element of a list changes a sum over it by the difference
of the two summands. -/
theorem sum_map_set_nat {α : Type} (f : α → Nat) (l : List α) :
    ∀ (i : Nat) (w w' : α), l[i]? = some w →
      ((l.set i w').map f).sum + f w = (l.map f).sum + f w' := by
  induction l with
  | nil => intro i w w' h; simp at h
  | cons x xs ih =>
    intro i w w' h
    cases i with
    | zero =>
      simp only [List.getElem?_cons_zero, Option.some.injEq] at h
      subst h
      simp only [List.set_cons_zero, List.map_cons, List.sum_cons]
      omega
    | succ j =>
      simp only [List.getElem?_cons_succ] at h
      have := ih j w w' h
      simp only [List.set_cons_succ, List.map_cons, List.sum_cons]
      omega

/-- Replacing one element of a list changes a sum of integers over it by the
difference of the two summands. -/
theorem sum_map_set_int {α : Type} (f : α → Int) (l : List α) :
    ∀ (i : Nat) (w w' : α), l[i]? = some w →
      ((l.set i w').map f).sum = (l.map f).sum + f w' - f w := by
  induction l with
  | nil => intro i w w' h; simp at h
  | cons x xs ih =>
    intro i w w' h
    cases i with
    | zero =>
      simp only [List.getElem?_cons_zero, Option.some.injEq] at h
      subst h
      simp only [List.set_cons_zero, List.map_cons, List.sum_cons]
      omega
    | succ j =>
      simp only [List.getElem?_cons_succ] at h
      have := ih j w w' h
      simp only [List.set_cons_succ, List.map_cons, List.sum_cons]
      omega

/-- A pass sends nothing to `todo`, or it sends one chunk with one request,
the working span but for `attempts` and `lastTried`, calls nothing on the
sink and leaves the loop over the span. -/
theorem exportStep_requeued_cases (c : ProcessorCtx) (inp : IterationInput) (priority : Bool)
    (span : spanAndTime) :
    (exportStep c inp priority span).requeued = [] ∨
      ∃ retry : spanAndTime,
        (exportStep c inp priority span).requeued = [[retry]] ∧
        (exportStep c inp priority span).flow = .next {} ∧
        (exportStep c inp priority span).sinkCalls = [] ∧
        retry.span = span.span ∧ retry.finishesSpec = span.finishesSpec := by
  unfold exportStep
  cases hgate : retryGate c inp priority span with
  | cancelled delay => left; rfl
  | proceed waited priority' =>
    simp only []
    unfold handleResult
    cases hres : inp.result with
    | failed err =>
      simp only []
      unfold handleError
      by_cases h1 : err.detail = .writeIntentError
      · right
        rw [if_pos h1]
        exact ⟨_, rfl, rfl, rfl, rfl, rfl⟩
      · left
        by_cases h2 : err.isTimeout = true
        · simp [h1, h2]
        · by_cases h3 : err.detail.isExcludedGC = true
          · simp [h1, h2, h3]
          · simp [h1, h2, h3]
    | succeeded resp =>
      left
      simp only []
      unfold handleResponse
      cases hr : resp.resumeSpan with
      | none =>
        simp only []
        split <;> rfl
      | some resume =>
        simp only []
        by_cases hv : resume.Valid = true
        · simp only [hv, Bool.not_true, Bool.false_eq_true, if_false]
          split <;> rfl
        · simp [hv]

/-- The spans a worker holds at the start of the loop over a chunk are the
spans of the chunk at most. -/
theorem held_rangeSpans (spans : List spanAndTime) :
    (rangeSpans spans).held ≤ spans.length := by
  cases spans with
  | nil => simp [rangeSpans, Control.held]
  | cons span rest =>
    simp only [rangeSpans, Control.held, List.length_cons]
    split <;> omega

/-- A step of a worker does not raise the number of span requests in the
queue and in its hands, and it puts no empty chunk on the queue. -/
theorem Worker.step_held (c : ProcessorCtx) (w w' : Worker)
    (todo todo' : List (List spanAndTime)) (a : Action)
    (h : w.step c todo a = some (w', todo')) (hne : ∀ ch ∈ todo, ch ≠ []) :
    (∀ ch ∈ todo', ch ≠ []) ∧
      queuedSpans todo' + w'.control.held ≤ queuedSpans todo + w.control.held := by
  cases a with
  | ctxDone =>
    cases hctl : w.control with
    | atSelect =>
      simp only [Worker.step, hctl, Option.some.injEq, Prod.mk.injEq] at h
      obtain ⟨hw, ht⟩ := h
      subst hw ht
      exact ⟨hne, by simp [Control.held]⟩
    | inChunk span rest => simp [Worker.step, hctl] at h
    | returned err => simp [Worker.step, hctl] at h
  | receive =>
    cases hctl : w.control with
    | atSelect =>
      cases todo with
      | nil => simp [Worker.step, hctl] at h
      | cons spans queue =>
        simp only [Worker.step, hctl, Option.some.injEq, Prod.mk.injEq] at h
        obtain ⟨hw, ht⟩ := h
        subst hw ht
        refine ⟨fun ch hch => hne ch (List.mem_cons_of_mem _ hch), ?_⟩
        have := held_rangeSpans spans
        have h0 : Control.atSelect.held = 0 := rfl
        simp only [queuedSpans, List.map_cons, List.sum_cons, h0]
        omega
    | inChunk span rest => simp [Worker.step, hctl] at h
    | returned err => simp [Worker.step, hctl] at h
  | noWork flushFails =>
    cases hctl : w.control with
    | atSelect =>
      cases todo with
      | nil =>
        simp only [Worker.step, hctl, Option.some.injEq, Prod.mk.injEq] at h
        obtain ⟨hw, ht⟩ := h
        subst hw ht
        exact ⟨hne, by simp [Control.held]⟩
      | cons spans queue => simp [Worker.step, hctl] at h
    | inChunk span rest => simp [Worker.step, hctl] at h
    | returned err => simp [Worker.step, hctl] at h
  | exportPass inp =>
    cases hctl : w.control with
    | atSelect => simp [Worker.step, hctl] at h
    | returned err => simp [Worker.step, hctl] at h
    | inChunk span rest =>
      by_cases hkey : span.span.key.length ≠ 0
      · rw [Worker.step_export c w todo inp span rest hctl hkey] at h
        simp only [Option.some.injEq, Prod.mk.injEq] at h
        obtain ⟨hw, ht⟩ := h
        subst hw ht
        have hheld : (Control.inChunk span rest).held = 1 + rest.length := by
          simp [Control.held, hkey]
        rw [hheld]
        rcases exportStep_requeued_cases c inp w.priority span with hnone | ⟨retry, hre, hflow, _⟩
        · rw [hnone]
          refine ⟨by simpa using hne, ?_⟩
          simp only [List.append_nil]
          cases hf : (exportStep c inp w.priority span).flow with
          | next span' =>
            simp only [Control.held]
            split <;> omega
          | ret err => simp [Control.held]
        · rw [hre, hflow]
          refine ⟨?_, ?_⟩
          · intro ch hch
            rcases List.mem_append.mp hch with h1 | h1
            · exact hne ch h1
            · simp only [List.mem_singleton] at h1
              subst h1
              simp
          · simp [queuedSpans, Control.held]
            omega
      · simp [Worker.step, hctl, hkey] at h
  | nextSpan =>
    cases hctl : w.control with
    | atSelect => simp [Worker.step, hctl] at h
    | returned err => simp [Worker.step, hctl] at h
    | inChunk span rest =>
      by_cases hkey : span.span.key.length ≠ 0
      · simp [Worker.step, hctl, hkey] at h
      · simp only [Worker.step, hctl, hkey, if_false, Option.some.injEq, Prod.mk.injEq] at h
        obtain ⟨hw, ht⟩ := h
        subst hw ht
        refine ⟨hne, ?_⟩
        have := held_rangeSpans rest
        have h0 : (Control.inChunk span rest).held = rest.length := by
          simp [Control.held, hkey]
        rw [h0]
        show queuedSpans todo + (rangeSpans rest).held ≤ queuedSpans todo + rest.length
        omega

/-! ## The initial fill and the capacity of the queue -/

/-- The fill loop keeps the request spans and their order: the chunks on the
queue, then the pending chunk, are what was there before, then the request
spans the loop went over.  Without pre-splitting the pending chunk is not
used. -/
theorem fillTodo_flatten (rangeSizedSpans : Bool) (chunkSize : Nat) :
    ∀ (rs chunk : List spanAndTime) (todo : List (List spanAndTime)),
      (rangeSizedSpans = false → chunk = []) →
      (fillTodo rangeSizedSpans chunkSize rs chunk todo).1.flatten ++
          (fillTodo rangeSizedSpans chunkSize rs chunk todo).2 =
        todo.flatten ++ chunk ++ rs := by
  intro rs
  induction rs with
  | nil => intro chunk todo _; simp [fillTodo]
  | cons r rs ih =>
    intro chunk todo hchunk
    unfold fillTodo
    cases rangeSizedSpans with
    | false =>
      have hnil := hchunk rfl
      subst hnil
      simp only [Bool.not_false, if_true]
      rw [ih [] _ (fun _ => rfl)]
      simp
    | true =>
      simp only [Bool.not_true, Bool.false_eq_true, if_false]
      split
      · rw [ih [] _ (fun h => by cases h)]
        simp
      · rw [ih _ _ (fun h => by cases h)]
        simp

/-- The fill loop puts no empty chunk on the queue. -/
theorem fillTodo_nonempty (rangeSizedSpans : Bool) (chunkSize : Nat) :
    ∀ (rs chunk : List spanAndTime) (todo : List (List spanAndTime)),
      (∀ ch ∈ todo, ch ≠ []) →
      ∀ ch ∈ (fillTodo rangeSizedSpans chunkSize rs chunk todo).1, ch ≠ [] := by
  intro rs
  induction rs with
  | nil => intro chunk todo h; simpa [fillTodo] using h
  | cons r rs ih =>
    intro chunk todo h
    unfold fillTodo
    cases rangeSizedSpans with
    | false =>
      simp only [Bool.not_false, if_true]
      apply ih
      intro ch hch
      rcases List.mem_append.mp hch with h1 | h1
      · exact h ch h1
      · simp only [List.mem_singleton] at h1
        subst h1
        simp
    | true =>
      simp only [Bool.not_true, Bool.false_eq_true, if_false]
      split
      · apply ih
        intro ch hch
        rcases List.mem_append.mp hch with h1 | h1
        · exact h ch h1
        · simp only [List.mem_singleton] at h1
          subst h1
          simp
      · exact ih _ _ h

/-- The chunks of the initial queue, one after the other, are the request
spans. -/
theorem initialTodo_flatten (rangeSizedSpans : Bool) (numSenders : Nat)
    (requestSpans : List spanAndTime) :
    (initialTodo rangeSizedSpans numSenders requestSpans).flatten = requestSpans := by
  have h := fillTodo_flatten rangeSizedSpans (chunkSizeFor requestSpans numSenders)
    requestSpans [] [] (fun _ => rfl)
  simp only [List.flatten_nil, List.nil_append] at h
  unfold initialTodo
  simp only []
  split
  · rw [List.flatten_append]
    simpa using h
  · rename_i hlen
    have hnil : (fillTodo rangeSizedSpans (chunkSizeFor requestSpans numSenders)
        requestSpans [] []).2 = [] := List.eq_nil_of_length_eq_zero (by omega)
    rw [hnil, List.append_nil] at h
    exact h

/-- The initial queue holds no empty chunk. -/
theorem initialTodo_nonempty (rangeSizedSpans : Bool) (numSenders : Nat)
    (requestSpans : List spanAndTime) :
    ∀ ch ∈ initialTodo rangeSizedSpans numSenders requestSpans, ch ≠ [] := by
  have h := fillTodo_nonempty rangeSizedSpans (chunkSizeFor requestSpans numSenders)
    requestSpans [] [] (fun ch hch => by cases hch)
  unfold initialTodo
  simp only []
  split
  · rename_i hlen
    intro ch hch
    rcases List.mem_append.mp hch with h1 | h1
    · exact h ch h1
    · simp only [List.mem_singleton] at h1
      subst h1
      intro hnil
      rw [hnil] at hlen
      simp at hlen
  · exact h

/-- The number of queued span requests is the length of the queue laid out
flat. -/
theorem queuedSpans_eq (todo : List (List spanAndTime)) :
    queuedSpans todo = todo.flatten.length := by
  induction todo with
  | nil => rfl
  | cons ch todo ih =>
    simp only [queuedSpans, List.map_cons, List.sum_cons, List.flatten_cons,
      List.length_append] at *
    omega

/-- A queue without empty chunks has at most as many chunks as span
requests. -/
theorem length_le_queuedSpans (todo : List (List spanAndTime)) (h : ∀ ch ∈ todo, ch ≠ []) :
    todo.length ≤ queuedSpans todo := by
  induction todo with
  | nil => simp [queuedSpans]
  | cons ch todo ih =>
    have hch : ch.length ≠ 0 := fun h0 =>
      h ch (List.mem_cons_self _ _) (List.eq_nil_of_length_eq_zero h0)
    have := ih (fun x hx => h x (List.mem_cons_of_mem _ hx))
    simp only [queuedSpans, List.map_cons, List.sum_cons, List.length_cons] at *
    omega

/-- A summand is at most the sum. -/
theorem le_sum_map_of_getElem {α : Type} (f : α → Nat) (l : List α) :
    ∀ (i : Nat) (w : α), l[i]? = some w → f w ≤ (l.map f).sum := by
  induction l with
  | nil => intro i w h; simp at h
  | cons x xs ih =>
    intro i w h
    cases i with
    | zero =>
      simp only [List.getElem?_cons_zero, Option.some.injEq] at h
      subst h
      simp only [List.map_cons, List.sum_cons]
      omega
    | succ j =>
      simp only [List.getElem?_cons_succ] at h
      have := ih j w h
      simp only [List.map_cons, List.sum_cons]
      omega

/-- Every step keeps the queue free of empty chunks and does not raise the
number of span requests in the queue and in the hands of the workers. -/
theorem State.step_keeps_held (c : ProcessorCtx) (n : Nat) (s s' : State) (i : Nat) (a : Action)
    (hinv : (∀ ch ∈ s.todo, ch ≠ []) ∧ queuedSpans s.todo + s.held ≤ n)
    (h : s.step c i a = some s') :
    (∀ ch ∈ s'.todo, ch ≠ []) ∧ queuedSpans s'.todo + s'.held ≤ n := by
  obtain ⟨w, w', hw, hstep, hset⟩ := State.step_spec c s s' i a h
  have hlocal := Worker.step_held c w w' s.todo s'.todo a hstep hinv.1
  have hsum := sum_map_set_nat (fun w : Worker => w.control.held) s.workers i w w' hw
  refine ⟨hlocal.1, ?_⟩
  have h2 := hinv.2
  have h3 := hlocal.2
  unfold State.held at *
  rw [hset]
  simp only [] at hsum
  omega

/-- C10: the initial fill puts at most `len(requestSpans)` chunks on `todo`;
in every state the workers can reach, the number of chunks on `todo` plus the
number of span requests the workers hold is at most `len(requestSpans)`; so a
worker that holds a span request it may have to retry finds `todo` below its
capacity. -/
theorem todo_within_capacity (c : ProcessorCtx) (rangeSizedSpans : Bool) (numSenders : Nat)
    (requestSpans : List spanAndTime) (sched : Schedule) (s : State)
    (hrun : State.run c (State.init rangeSizedSpans numSenders requestSpans) sched = some s) :
    (initialTodo rangeSizedSpans numSenders requestSpans).length ≤ requestSpans.length ∧
      s.todo.length + s.held ≤ requestSpans.length ∧
      ∀ (i : Nat) (w : Worker) (span : spanAndTime) (rest : List spanAndTime),
        s.workers[i]? = some w → w.control = .inChunk span rest →
        span.span.key.length ≠ 0 → s.todo.length < requestSpans.length := by
  have hne0 := initialTodo_nonempty rangeSizedSpans numSenders requestSpans
  have hq0 : queuedSpans (initialTodo rangeSizedSpans numSenders requestSpans) =
      requestSpans.length := by
    rw [queuedSpans_eq, initialTodo_flatten]
  have hheld0 : (State.init rangeSizedSpans numSenders requestSpans).held = 0 := by
    simp [State.init, State.held, Control.held]
  have hinv := State.run_invariant c
    (fun s => (∀ ch ∈ s.todo, ch ≠ []) ∧ queuedSpans s.todo + s.held ≤ requestSpans.length)
    (fun s s' i a hP hstep => State.step_keeps_held c requestSpans.length s s' i a hP hstep)
    sched _ s ⟨hne0, by rw [hheld0]; simp only [State.init]; omega⟩ hrun
  have hlen := length_le_queuedSpans s.todo hinv.1
  refine ⟨?_, by have := hinv.2; omega, ?_⟩
  · have := length_le_queuedSpans _ hne0
    omega
  · intro i w span rest hw hctl hkey
    have hle := le_sum_map_of_getElem (fun w : Worker => w.control.held) s.workers i w hw
    have hone : 1 ≤ w.control.held := by
      rw [hctl]
      simp [Control.held, hkey]
    have := hinv.2
    unfold State.held at this
    simp only [] at hle
    omega

/-- C10, at a concrete input: two request spans without pre-splitting, worker
0 takes the first chunk and its export runs into a WriteIntentError. -/
theorem todo_within_capacity_witness :
    (initialTodo false 2 [Example.requestAZ, Example.requestB]).length ≤
        [Example.requestAZ, Example.requestB].length ∧
      Example.retryState.todo.length + Example.retryState.held ≤
        [Example.requestAZ, Example.requestB].length ∧
      ∀ (i : Nat) (w : Worker) (span : spanAndTime) (rest : List spanAndTime),
        Example.retryState.workers[i]? = some w → w.control = .inChunk span rest →
        span.span.key.length ≠ 0 →
        Example.retryState.todo.length < [Example.requestAZ, Example.requestB].length :=
  todo_within_capacity Example.ctx false 2 [Example.requestAZ, Example.requestB]
    [(0, .receive),
     (0, .exportPass (Example.input true (.failed (Example.exportError .writeIntentError))))]
    Example.retryState (by decide)

/-! ## Completion accounting -/

/-- The completion counts of two lists of sink calls add up. -/
theorem completedSum_append (xs ys : List SinkCall) :
    completedSum (xs ++ ys) = completedSum xs + completedSum ys := by
  simp [completedSum]

/-- What two queues owe adds up. -/
theorem pendingTodo_append (xs ys : List (List spanAndTime)) :
    pendingTodo (xs ++ ys) = pendingTodo xs + pendingTodo ys := by
  simp [pendingTodo]

/-- What the queue owes is what its span requests owe. -/
theorem pendingTodo_eq (todo : List (List spanAndTime)) :
    pendingTodo todo = pendingList todo.flatten := by
  induction todo with
  | nil => rfl
  | cons ch todo ih =>
    simp only [pendingTodo, pendingList, List.map_cons, List.sum_cons, List.flatten_cons,
      List.map_append, List.sum_append] at *
    omega

/-- What a worker owes at the start of the loop over a chunk is what the
chunk owes. -/
theorem pending_rangeSpans (spans : List spanAndTime) :
    (rangeSpans spans).pending = pendingList spans := by
  cases spans with
  | nil => rfl
  | cons span rest => simp [rangeSpans, Control.pending, pendingList]

/-- When the loop over the files returns no error, the files written from
index `i` on carry the completion count once, if there is such a file. -/
theorem writeFiles_sum (c : ProcessorCtx) (span : spanAndTime) (resp : ExportResponse)
    (completedSpans : Int) (sinkFailsAt : Option Nat) (files : List ExportResponse_File) :
    ∀ i : Nat, i + files.length = resp.files.length →
      (writeFiles c span resp completedSpans sinkFailsAt i files).2 = none →
      completedSum (writeFiles c span resp completedSpans sinkFailsAt i files).1 =
        if files = [] then 0 else completedSpans := by
  induction files with
  | nil => intro i _ _; rfl
  | cons file files ih =>
    intro i hlen hok
    simp only [List.length_cons] at hlen
    by_cases hfail : sinkFailsAt = some i
    · simp [writeFiles, hfail] at hok
    · simp only [writeFiles, hfail, if_false] at hok ⊢
      have hrec := ih (i + 1) (by omega) hok
      simp only [completedSum, List.map_cons, List.sum_cons, SinkCall.arg,
        exportedSpanFor_completedSpans] at hrec ⊢
      rw [hrec]
      cases files with
      | nil =>
        simp only [List.length_nil] at hlen
        have : i = resp.files.length - 1 := by omega
        simp [this]
      | cons f fs =>
        simp only [List.length_cons] at hlen
        have : i ≠ resp.files.length - 1 := by omega
        simp [this]

/-- When the loop over the files returns no error, the sink calls of a
response carry its completion count once. -/
theorem sinkCalls_sum (c : ProcessorCtx) (inp : IterationInput) (span : spanAndTime)
    (resp : ExportResponse)
    (hw : (writeFiles c span resp (completedSpansFor span resp) inp.sinkFailsAt 0
      resp.files).2 = none) :
    completedSum
        ((if resp.files.length = 0 then
            [SinkCall.writeWithNoData { completedSpans := completedSpansFor span resp }]
          else []) ++
          (writeFiles c span resp (completedSpansFor span resp) inp.sinkFailsAt 0
            resp.files).1) =
      completedSpansFor span resp := by
  have hsum := writeFiles_sum c span resp (completedSpansFor span resp) inp.sinkFailsAt
    resp.files 0 (by omega) hw
  rw [completedSum_append, hsum]
  by_cases hfiles : resp.files = []
  · simp [hfiles, completedSum, SinkCall.arg]
  · have hlen : resp.files.length ≠ 0 := fun h => hfiles (List.eq_nil_of_length_eq_zero h)
    simp [hfiles, hlen, completedSum]

/-- A pass that keeps the count, on a span with a key left, either makes the
worker return an error, or it keeps the account: what it sends to `todo`,
what the next working span owes and what it reports to the sink add up to
what the working span owed. -/
theorem exportStep_account (c : ProcessorCtx) (inp : IterationInput) (priority : Bool)
    (span : spanAndTime) (hkeeps : passKeepsCount span inp = true)
    (hkey : span.span.key.length ≠ 0) :
    (∃ e, (exportStep c inp priority span).flow = .ret e) ∨
      ∃ next, (exportStep c inp priority span).flow = .next next ∧
        pendingTodo (exportStep c inp priority span).requeued + pendingOf next +
          completedSum (exportStep c inp priority span).sinkCalls = pendingOf span := by
  unfold exportStep
  cases hgate : retryGate c inp priority span with
  | cancelled delay => left; exact ⟨_, rfl⟩
  | proceed waited priority' =>
    simp only []
    unfold handleResult
    cases hres : inp.result with
    | failed err =>
      simp only [passKeepsCount, hres, Bool.or_eq_true, Bool.not_eq_true'] at hkeeps
      simp only []
      unfold handleError
      by_cases h1 : err.detail = .writeIntentError
      · right
        rw [if_pos h1]
        refine ⟨{}, rfl, ?_⟩
        simp [pendingTodo, pendingList, pendingOf, completedSum]
      · by_cases h2 : err.isTimeout = true
        · left
          simp [h1, h2]
        · by_cases h3 : err.detail.isExcludedGC = true
          · right
            have hflag : span.finishesSpec = false := by
              rcases hkeeps with h | h
              · exact h
              · rw [h3] at h; cases h
            rw [if_neg h1, if_neg h2, if_pos h3]
            refine ⟨{}, rfl, ?_⟩
            simp [pendingTodo, pendingOf, completedSum, hflag]
          · left
            simp [h1, h2, h3]
    | succeeded resp =>
      simp only [passKeepsCount, hres, Bool.or_eq_true, Bool.not_eq_true',
        Option.isNone_iff_eq_none] at hkeeps
      simp only []
      unfold handleResponse
      have hcs : completedSpansFor span resp = pendingOf span := by
        rcases hkeeps with h | h
        · simp [completedSpansFor, pendingOf, h]
        · simp [completedSpansFor, pendingOf, h, hkey]
      cases hr : resp.resumeSpan with
      | none =>
        simp only []
        cases hw : (writeFiles c span resp (completedSpansFor span resp) inp.sinkFailsAt 0
            resp.files).2 with
        | some e => left; exact ⟨e, rfl⟩
        | none =>
          right
          refine ⟨{}, rfl, ?_⟩
          simp only []
          rw [sinkCalls_sum c inp span resp hw, hcs]
          simp [pendingTodo, pendingOf]
      | some resume =>
        simp only []
        by_cases hv : resume.Valid = true
        · simp only [hv, Bool.not_true, Bool.false_eq_true, if_false]
          cases hw : (writeFiles c span resp (completedSpansFor span resp) inp.sinkFailsAt 0
              resp.files).2 with
          | some e => left; exact ⟨e, rfl⟩
          | none =>
            right
            refine ⟨resumeSpanFor span resp resume, rfl, ?_⟩
            simp only []
            rw [sinkCalls_sum c inp span resp hw, hcs]
            simp [pendingTodo, pendingOf, resumeSpanFor]
        · left
          simp [hv]

/-- A step of a worker that keeps the count either makes the worker return an
error or keeps the account of the queue and the worker. -/
theorem Worker.step_account (c : ProcessorCtx) (w w' : Worker)
    (todo todo' : List (List spanAndTime)) (a : Action) (hkeeps : w.keepsCount a = true)
    (h : w.step c todo a = some (w', todo')) :
    w.failed = 0 ∧
      (w'.failed = 1 ∨ pendingTodo todo' + w'.account = pendingTodo todo + w.account) := by
  cases a with
  | ctxDone =>
    cases hctl : w.control with
    | atSelect =>
      simp only [Worker.step, hctl, Option.some.injEq, Prod.mk.injEq] at h
      obtain ⟨hw, ht⟩ := h
      subst hw ht
      exact ⟨by simp [Worker.failed, hctl], Or.inl rfl⟩
    | inChunk span rest => simp [Worker.step, hctl] at h
    | returned err => simp [Worker.step, hctl] at h
  | receive =>
    cases hctl : w.control with
    | atSelect =>
      cases todo with
      | nil => simp [Worker.step, hctl] at h
      | cons spans queue =>
        simp only [Worker.step, hctl, Option.some.injEq, Prod.mk.injEq] at h
        obtain ⟨hw, ht⟩ := h
        subst hw ht
        refine ⟨by simp [Worker.failed, hctl], Or.inr ?_⟩
        have ha : ({ w with control := rangeSpans spans } : Worker).account =
            pendingList spans + completedSum w.sink := by
          simp only [Worker.account, pending_rangeSpans]
        have hb : w.account = completedSum w.sink := by
          simp [Worker.account, hctl, Control.pending]
        have hc : pendingTodo (spans :: queue) = pendingList spans + pendingTodo queue := by
          simp [pendingTodo]
        rw [ha, hb, hc]
        omega
    | inChunk span rest => simp [Worker.step, hctl] at h
    | returned err => simp [Worker.step, hctl] at h
  | noWork flushFails =>
    cases hctl : w.control with
    | atSelect =>
      cases todo with
      | nil =>
        simp only [Worker.step, hctl, Option.some.injEq, Prod.mk.injEq] at h
        obtain ⟨hw, ht⟩ := h
        subst hw ht
        refine ⟨by simp [Worker.failed, hctl], ?_⟩
        cases flushFails with
        | true => left; rfl
        | false => right; simp [Worker.account, hctl, Control.pending]
      | cons spans queue => simp [Worker.step, hctl] at h
    | inChunk span rest => simp [Worker.step, hctl] at h
    | returned err => simp [Worker.step, hctl] at h
  | exportPass inp =>
    cases hctl : w.control with
    | atSelect => simp [Worker.step, hctl] at h
    | returned err => simp [Worker.step, hctl] at h
    | inChunk span rest =>
      by_cases hkey : span.span.key.length ≠ 0
      · rw [Worker.step_export c w todo inp span rest hctl hkey] at h
        simp only [Option.some.injEq, Prod.mk.injEq] at h
        obtain ⟨hw, ht⟩ := h
        subst hw ht
        refine ⟨by simp [Worker.failed, hctl], ?_⟩
        have hpass : passKeepsCount span inp = true := by
          simpa [Worker.keepsCount, hctl] using hkeeps
        rcases exportStep_account c inp w.priority span hpass hkey with
          ⟨e, he⟩ | ⟨next, hn, hacc⟩
        · left
          simp [Worker.failed, he]
        · right
          simp only [Worker.account, hn, hctl, Control.pending, pendingTodo_append,
            completedSum_append]
          omega
      · simp [Worker.step, hctl, hkey] at h
  | nextSpan =>
    cases hctl : w.control with
    | atSelect => simp [Worker.step, hctl] at h
    | returned err => simp [Worker.step, hctl] at h
    | inChunk span rest =>
      by_cases hkey : span.span.key.length ≠ 0
      · simp [Worker.step, hctl, hkey] at h
      · simp only [Worker.step, hctl, hkey, if_false, Option.some.injEq, Prod.mk.injEq] at h
        obtain ⟨hw, ht⟩ := h
        subst hw ht
        refine ⟨by simp [Worker.failed, hctl], Or.inr ?_⟩
        have h0 : pendingOf span = 0 := by
          simp only [ne_eq, not_not] at hkey
          simp [pendingOf, hkey]
        have ha : ({ w with control := rangeSpans rest } : Worker).account =
            pendingList rest + completedSum w.sink := by
          simp only [Worker.account, pending_rangeSpans]
        have hb : w.account = pendingList rest + completedSum w.sink := by
          simp [Worker.account, hctl, Control.pending, h0]
        rw [ha, hb]

/-- A worker has failed or not. -/
theorem Worker.failed_le (w : Worker) : w.failed ≤ 1 := by
  unfold Worker.failed
  split <;> omega

/-- Unless a worker has returned an error, every step that keeps the count
keeps the account of the queue and all workers. -/
theorem State.step_keeps_account (c : ProcessorCtx) (total : Int) (s s' : State) (i : Nat)
    (a : Action) (w0 : Worker) (hw0 : s.workers[i]? = some w0)
    (hkeeps : w0.keepsCount a = true)
    (hinv : 0 < s.failures ∨ pendingTodo s.todo + s.accounts = total)
    (h : s.step c i a = some s') :
    0 < s'.failures ∨ pendingTodo s'.todo + s'.accounts = total := by
  obtain ⟨w, w', hw, hstep, hset⟩ := State.step_spec c s s' i a h
  have hww : w0 = w := by
    rw [hw0] at hw
    exact Option.some.inj hw
  rw [hww] at hkeeps
  obtain ⟨hw0, hlocal⟩ := Worker.step_account c w w' s.todo s'.todo a hkeeps hstep
  have hfail := sum_map_set_nat Worker.failed s.workers i w w' hw
  have hacc := sum_map_set_int Worker.account s.workers i w w' hw
  unfold State.failures State.accounts at *
  rw [hset]
  rcases hinv with hinv | hinv
  · left; omega
  · rcases hlocal with hl | hl
    · left; omega
    · right; omega

/-- After a step, the queue is empty or the worker that made it has not
returned without an error. -/
theorem Worker.step_live (c : ProcessorCtx) (w w' : Worker)
    (todo todo' : List (List spanAndTime)) (a : Action)
    (h : w.step c todo a = some (w', todo')) :
    todo' = [] ∨ w'.control ≠ .returned none := by
  cases a with
  | ctxDone =>
    cases hctl : w.control with
    | atSelect =>
      simp only [Worker.step, hctl, Option.some.injEq, Prod.mk.injEq] at h
      obtain ⟨hw, ht⟩ := h
      subst hw ht
      right; simp
    | inChunk span rest => simp [Worker.step, hctl] at h
    | returned err => simp [Worker.step, hctl] at h
  | receive =>
    cases hctl : w.control with
    | atSelect =>
      cases todo with
      | nil => simp [Worker.step, hctl] at h
      | cons spans queue =>
        simp only [Worker.step, hctl, Option.some.injEq, Prod.mk.injEq] at h
        obtain ⟨hw, ht⟩ := h
        subst hw ht
        right
        cases spans <;> simp [rangeSpans]
    | inChunk span rest => simp [Worker.step, hctl] at h
    | returned err => simp [Worker.step, hctl] at h
  | noWork flushFails =>
    cases hctl : w.control with
    | atSelect =>
      cases todo with
      | nil =>
        simp only [Worker.step, hctl, Option.some.injEq, Prod.mk.injEq] at h
        exact Or.inl h.2.symm
      | cons spans queue => simp [Worker.step, hctl] at h
    | inChunk span rest => simp [Worker.step, hctl] at h
    | returned err => simp [Worker.step, hctl] at h
  | exportPass inp =>
    cases hctl : w.control with
    | atSelect => simp [Worker.step, hctl] at h
    | returned err => simp [Worker.step, hctl] at h
    | inChunk span rest =>
      by_cases hkey : span.span.key.length ≠ 0
      · rw [Worker.step_export c w todo inp span rest hctl hkey] at h
        simp only [Option.some.injEq, Prod.mk.injEq] at h
        obtain ⟨hw, ht⟩ := h
        subst hw ht
        right
        cases (exportStep c inp w.priority span).flow <;> simp
      · simp [Worker.step, hctl, hkey] at h
  | nextSpan =>
    cases hctl : w.control with
    | atSelect => simp [Worker.step, hctl] at h
    | returned err => simp [Worker.step, hctl] at h
    | inChunk span rest =>
      by_cases hkey : span.span.key.length ≠ 0
      · simp [Worker.step, hctl, hkey] at h
      · simp only [Worker.step, hctl, hkey, if_false, Option.some.injEq, Prod.mk.injEq] at h
        obtain ⟨hw, ht⟩ := h
        subst hw ht
        right
        cases rest <;> simp [rangeSpans]

/-- A list in which one element was replaced by one that fails a test does
not pass the test as a whole. -/
theorem all_set_false {α : Type} (p : α → Bool) (l : List α) :
    ∀ (i : Nat) (w w' : α), l[i]? = some w → p w' = false → (l.set i w').all p = false := by
  induction l with
  | nil => intro i w w' h; simp at h
  | cons x xs ih =>
    intro i w w' h hp
    cases i with
    | zero => simp [hp]
    | succ j =>
      simp only [List.getElem?_cons_succ] at h
      simp [ih j w w' h hp]

/-- After a step, the queue is empty or some worker has not returned without
an error. -/
theorem State.step_keeps_live (c : ProcessorCtx) (s s' : State) (i : Nat) (a : Action)
    (h : s.step c i a = some s') :
    s'.todo = [] ∨ s'.allReturnedNil = false := by
  obtain ⟨w, w', hw, hstep, hset⟩ := State.step_spec c s s' i a h
  rcases Worker.step_live c w w' s.todo s'.todo a hstep with h1 | h1
  · exact Or.inl h1
  · right
    unfold State.allReturnedNil
    rw [hset]
    exact all_set_false _ s.workers i w w' hw (by simpa using h1)

/-- When all workers have returned without an error, none has failed, and
their accounts are the completions they reported. -/
theorem accounts_of_allReturnedNil (workers : List Worker)
    (h : (workers.all fun w => decide (w.control = .returned none)) = true) :
    (workers.map Worker.failed).sum = 0 ∧
      (workers.map Worker.account).sum =
        completedSum (workers.map fun w => w.sink).flatten := by
  induction workers with
  | nil => exact ⟨rfl, rfl⟩
  | cons w ws ih =>
    simp only [List.all_cons, Bool.and_eq_true, decide_eq_true_eq] at h
    obtain ⟨h1, h2⟩ := ih h.2
    refine ⟨?_, ?_⟩
    · simp only [List.map_cons, List.sum_cons, h1, Worker.failed, h.1]
    · simp only [List.map_cons, List.sum_cons, h2, Worker.account, h.1, Control.pending,
        List.flatten_cons, completedSum_append]
      omega

/-! ## The number of request spans that finish an assigned span -/

/-- The flagged request spans of two lists add up. -/
theorem finishCount_append (xs ys : List spanAndTime) :
    finishCount (xs ++ ys) = finishCount xs + finishCount ys := by
  simp [finishCount]

/-- Marking the last request span leaves alone what comes before the spans
appended last. -/
theorem markLastFinishes_append (acc news : List spanAndTime) (h : news ≠ []) :
    markLastFinishes (acc ++ news) = acc ++ markLastFinishes news := by
  induction acc with
  | nil => rfl
  | cons a as ih =>
    cases hrest : as ++ news with
    | nil =>
      have := List.append_eq_nil.mp hrest
      exact absurd this.2 h
    | cons y ys =>
      rw [List.cons_append, hrest, markLastFinishes, ← hrest, ih, List.cons_append]

/-- Marking the last of some new request spans flags exactly one of them. -/
theorem finishCount_markLastFinishes (news : List spanAndTime) (hne : news ≠ [])
    (hall : ∀ x ∈ news, x.finishesSpec = false) :
    finishCount (markLastFinishes news) = 1 := by
  induction news with
  | nil => exact absurd rfl hne
  | cons x xs ih =>
    cases xs with
    | nil => simp [markLastFinishes, finishCount]
    | cons y ys =>
      have hx := hall x (List.mem_cons_self _ _)
      have hrec := ih (by simp) (fun z hz => hall z (List.mem_cons_of_mem _ hz))
      simp only [markLastFinishes, finishCount, List.filter_cons, hx] at hrec ⊢
      simpa using hrec

/-- The loop over the ranges appends request spans that are not flagged, at
least one when there is a range, and leaves the remaining span alone when
there is none. -/
theorem splitRanges_spec (fullSpan : Span) (start end_ : Timestamp) :
    ∀ (ranges : List Span) (remainingSpan : Span) (acc : List spanAndTime)
      (remainingSpan' : Span) (acc' : List spanAndTime),
      splitRanges fullSpan start end_ ranges remainingSpan acc = .ok (remainingSpan', acc') →
      ∃ news : List spanAndTime, acc' = acc ++ news ∧
        (∀ x ∈ news, x.finishesSpec = false) ∧
        (ranges = [] → remainingSpan' = remainingSpan) ∧ (ranges ≠ [] → news ≠ []) := by
  intro ranges
  induction ranges with
  | nil =>
    intro remainingSpan acc remainingSpan' acc' h
    simp only [splitRanges, Except.ok.injEq, Prod.mk.injEq] at h
    exact ⟨[], by simp [h.2], by simp, fun _ => h.1.symm, fun hne => absurd rfl hne⟩
  | cons rangeSpan ranges ih =>
    intro remainingSpan acc remainingSpan' acc' h
    unfold splitRanges at h
    simp only [] at h
    split at h
    · cases h
    · obtain ⟨news, hacc, hflags, _, _⟩ := ih _ _ _ _ h
      refine ⟨{ span := remainingSpan.Intersect rangeSpan, start := start, end_ := end_ } :: news,
        (by simp [hacc]), ?_, (fun hnil => by cases hnil), (fun _ => by simp)⟩
      intro x hx
      rcases List.mem_cons.mp hx with h1 | h1
      · subst h1; rfl
      · exact hflags x h1

/-- Splitting one valid assigned span adds exactly one flagged request
span. -/
theorem splitSpan_count (rangeSizedSpans : Bool)
    (newIterator : Span → Except String (List Span)) (start end_ : Timestamp)
    (acc acc' : List spanAndTime) (fullSpan : Span) (hvalid : fullSpan.Valid = true)
    (h : splitSpan rangeSizedSpans newIterator start end_ acc fullSpan = .ok acc') :
    finishCount acc' = finishCount acc + 1 := by
  have key : ∀ (remainingSpan : Span) (rs news : List spanAndTime),
      rs = acc ++ news → (∀ x ∈ news, x.finishesSpec = false) →
      (remainingSpan.Valid = false → news ≠ []) →
      (if (if remainingSpan.Valid = true then
              rs ++ [({ span := remainingSpan, start := start, end_ := end_ } : spanAndTime)]
            else rs).length = 0 then (Except.error SplitError.indexOutOfRange)
        else Except.ok (markLastFinishes
          (if remainingSpan.Valid = true then
              rs ++ [({ span := remainingSpan, start := start, end_ := end_ } : spanAndTime)]
            else rs))) = Except.ok acc' →
      finishCount acc' = finishCount acc + 1 := by
    intro remainingSpan rs news hrs hflags hne hres
    have hlist : ∃ news2 : List spanAndTime,
        (if remainingSpan.Valid = true then
            rs ++ [({ span := remainingSpan, start := start, end_ := end_ } : spanAndTime)]
          else rs) = acc ++ news2 ∧ news2 ≠ [] ∧ ∀ x ∈ news2, x.finishesSpec = false := by
      by_cases hv : remainingSpan.Valid = true
      · refine ⟨news ++ [{ span := remainingSpan, start := start, end_ := end_ }],
          by simp [hv, hrs], by simp, ?_⟩
        intro x hx
        rcases List.mem_append.mp hx with h1 | h1
        · exact hflags x h1
        · simp only [List.mem_singleton] at h1
          subst h1; rfl
      · refine ⟨news, by simp [hv, hrs], hne (by simpa using hv), hflags⟩
    obtain ⟨news2, hl, hne2, hflags2⟩ := hlist
    rw [hl] at hres
    have hlen : (acc ++ news2).length ≠ 0 := by
      intro h0
      have := List.append_eq_nil.mp (List.eq_nil_of_length_eq_zero h0)
      exact hne2 this.2
    rw [if_neg hlen] at hres
    simp only [Except.ok.injEq] at hres
    rw [← hres, markLastFinishes_append acc news2 hne2, finishCount_append,
      finishCount_markLastFinishes news2 hne2 hflags2]
  unfold splitSpan at h
  cases rangeSizedSpans with
  | false =>
    simp only [Bool.false_eq_true, if_false] at h
    exact key fullSpan acc [] (by simp) (by simp) (fun hv => by rw [hvalid] at hv; cases hv) h
  | true =>
    simp only [if_true] at h
    cases hit : newIterator fullSpan with
    | error text => simp [hit] at h
    | ok ranges =>
      simp only [hit] at h
      cases hsr : splitRanges fullSpan start end_ ranges fullSpan acc with
      | error e => simp [hsr] at h
      | ok r =>
        obtain ⟨remainingSpan, rs⟩ := r
        simp only [hsr] at h
        obtain ⟨news, hacc, hflags, hnil, hcons⟩ := splitRanges_spec _ _ _ _ _ _ _ _ hsr
        refine key remainingSpan rs news hacc hflags ?_ h
        intro hinv
        apply hcons
        intro hr
        rw [hnil hr, hvalid] at hinv
        cases hinv

/-- Splitting valid assigned spans adds one flagged request span for each. -/
theorem splitSpans_count (rangeSizedSpans : Bool)
    (newIterator : Span → Except String (List Span)) (start end_ : Timestamp) :
    ∀ (spans : List Span) (acc acc' : List spanAndTime),
      (∀ sp ∈ spans, sp.Valid = true) →
      splitSpans rangeSizedSpans newIterator start end_ spans acc = .ok acc' →
      finishCount acc' = finishCount acc + spans.length := by
  intro spans
  induction spans with
  | nil =>
    intro acc acc' _ h
    simp only [splitSpans, Except.ok.injEq] at h
    simp [h]
  | cons fullSpan spans ih =>
    intro acc acc' hvalid h
    unfold splitSpans at h
    cases hs : splitSpan rangeSizedSpans newIterator start end_ acc fullSpan with
    | error e => simp [hs] at h
    | ok acc1 =>
      simp only [hs] at h
      have h1 := splitSpan_count rangeSizedSpans newIterator start end_ acc acc1 fullSpan
        (hvalid fullSpan (List.mem_cons_self _ _)) hs
      have h2 := ih acc1 acc' (fun sp hsp => hvalid sp (List.mem_cons_of_mem _ hsp)) h
      simp only [List.length_cons]
      omega

/-- With valid assigned spans, as many request spans are flagged as there are
assigned spans. -/
theorem requestSpansOf_count (rangeSizedSpans : Bool)
    (newIterator : Span → Except String (List Span)) (spec : BackupDataSpec)
    (requestSpans : List spanAndTime)
    (hvalid : ∀ sp ∈ spec.introducedSpans ++ spec.spans, sp.Valid = true)
    (h : requestSpansOf rangeSizedSpans newIterator spec = .ok requestSpans) :
    finishCount requestSpans = spec.totalSpans := by
  unfold requestSpansOf at h
  cases h1 : splitSpans rangeSizedSpans newIterator {} spec.backupStartTime
      spec.introducedSpans [] with
  | error e => simp [h1] at h
  | ok rs1 =>
    simp only [h1] at h
    have c1 := splitSpans_count rangeSizedSpans newIterator _ _ spec.introducedSpans [] rs1
      (fun sp hsp => hvalid sp (List.mem_append_left _ hsp)) h1
    have c2 := splitSpans_count rangeSizedSpans newIterator _ _ spec.spans rs1 requestSpans
      (fun sp hsp => hvalid sp (List.mem_append_right _ hsp)) h
    have c0 : finishCount [] = 0 := rfl
    unfold BackupDataSpec.totalSpans
    omega

/-- Request spans that have a key when they are flagged owe one completion
per flagged span. -/
theorem pendingList_eq_finishCount (spans : List spanAndTime)
    (hkeys : ∀ r ∈ spans, r.finishesSpec = true → r.span.key.length ≠ 0) :
    pendingList spans = finishCount spans := by
  induction spans with
  | nil => rfl
  | cons r rs ih =>
    have hr := hkeys r (List.mem_cons_self _ _)
    have hrec := ih (fun x hx => hkeys x (List.mem_cons_of_mem _ hx))
    simp only [pendingList, finishCount, List.map_cons, List.sum_cons] at hrec ⊢
    rw [hrec]
    cases hf : r.finishesSpec with
    | false => simp [pendingOf, hf, List.filter_cons]
    | true =>
      have := hr hf
      simp [pendingOf, hf, this, List.filter_cons]
      omega

/-! ## The sum of the completion counts -/

/-- C2: the code at two runs on the single assigned span `[a, z)`, which
gives one request span.  In the first, scenario 2 of the spec, the export is
answered with the file for `[a, m)` and the resume span `[m, z)`, then with
the file for `[m, z)`; in the second it fails with a
BatchTimestampBeforeGCError marked `DataExcludedFromBackup`.  In both runs
both workers return without an error, and the completion counts handed to the
sinks sum to 0, where the number of assigned spans is 1. -/
theorem completed_sum_below_total_spans :
    requestSpansOf false Example.noRanges Example.spec = .ok [Example.requestAZ] ∧
      Example.spec.totalSpans = 1 ∧
      (State.run Example.ctx (State.init false 2 [Example.requestAZ])
        [(0, .receive),
         (0, .exportPass (Example.input true (.succeeded Example.responseAM))),
         (0, .exportPass (Example.input true (.succeeded Example.responseMZ))),
         (0, .nextSpan),
         (0, .noWork false),
         (1, .noWork false)]).map
        (fun s => (s.allReturnedNil, completedSum s.sinkCalls)) = some (true, 0) ∧
      (State.run Example.ctx (State.init false 2 [Example.requestAZ])
        [(0, .receive),
         (0, .exportPass (Example.input true
            (.failed (Example.exportError (.batchTimestampBeforeGCError true))))),
         (0, .nextSpan),
         (0, .noWork false),
         (1, .noWork false)]).map
        (fun s => (s.allReturnedNil, completedSum s.sinkCalls)) = some (true, 0) := by
  decide

/-- The sum of the completion counts on the runs that keep the count: take
valid assigned spans, request spans whose start key is not empty when they
finish an assigned span, at least one worker, and a run in which no export
for a request that finishes its assigned span fails with a
BatchTimestampBeforeGCError marked `DataExcludedFromBackup` or is answered
with a resume span.  When all workers have returned without an error, the
completion counts handed to `sink.write` and `sink.writeWithNoData` sum to
`len(Spans) + len(IntroducedSpans)`. -/
theorem completed_sum_eq_total_spans (c : ProcessorCtx) (rangeSizedSpans : Bool)
    (newIterator : Span → Except String (List Span)) (spec : BackupDataSpec)
    (numSenders : Nat) (requestSpans : List spanAndTime) (sched : Schedule) (s : State)
    (hsplit : requestSpansOf rangeSizedSpans newIterator spec = .ok requestSpans)
    (hvalid : ∀ sp ∈ spec.introducedSpans ++ spec.spans, sp.Valid = true)
    (hkeys : ∀ r ∈ requestSpans, r.finishesSpec = true → r.span.key.length ≠ 0)
    (hworkers : 0 < numSenders)
    (hkeeps : State.runKeepsCount c (State.init rangeSizedSpans numSenders requestSpans)
      sched = true)
    (hrun : State.run c (State.init rangeSizedSpans numSenders requestSpans) sched = some s)
    (hdone : s.allReturnedNil = true) :
    completedSum s.sinkCalls = spec.totalSpans := by
  have htotal : pendingList requestSpans = spec.totalSpans := by
    rw [pendingList_eq_finishCount requestSpans hkeys,
      requestSpansOf_count rangeSizedSpans newIterator spec requestSpans hvalid hsplit]
  have hinit : pendingTodo (State.init rangeSizedSpans numSenders requestSpans).todo +
      (State.init rangeSizedSpans numSenders requestSpans).accounts =
        pendingList requestSpans := by
    have h0 : (State.init rangeSizedSpans numSenders requestSpans).accounts = 0 := by
      simp [State.init, State.accounts, Worker.account, Control.pending, completedSum]
    rw [h0]
    simp only [State.init, pendingTodo_eq, initialTodo_flatten]
    omega
  have hacc := State.run_invariant_counted c
    (fun s => 0 < s.failures ∨ pendingTodo s.todo + s.accounts = pendingList requestSpans)
    (fun s s' i a w hw hk hP hstep => State.step_keeps_account c _ s s' i a w hw hk hP hstep)
    sched _ s hkeeps (Or.inr hinit) hrun
  have hlive := State.run_invariant c
    (fun s => s.todo = [] ∨ s.allReturnedNil = false)
    (fun s s' i a _ hstep => State.step_keeps_live c s s' i a hstep)
    sched _ s
    (Or.inr (by
      cases numSenders with
      | zero => omega
      | succ n => simp [State.init, State.allReturnedNil, List.replicate_succ])) hrun
  have htodo : s.todo = [] := by
    rcases hlive with h | h
    · exact h
    · rw [hdone] at h; cases h
  obtain ⟨hfail, hsum⟩ := accounts_of_allReturnedNil s.workers hdone
  rcases hacc with h | h
  · unfold State.failures at h
    omega
  · unfold State.accounts at h
    rw [htodo, hsum] at h
    have h0 : pendingTodo [] = 0 := rfl
    unfold State.sinkCalls
    omega

/-- The sum of the completion counts at a concrete input: the single assigned
span `[a, z)`, exported in one response. -/
theorem completed_sum_eq_total_spans_witness :
    completedSum Example.doneState.sinkCalls = Example.spec.totalSpans :=
  completed_sum_eq_total_spans Example.ctx false Example.noRanges Example.spec 2
    [Example.requestAZ]
    [(0, .receive),
     (0, .exportPass (Example.input true (.succeeded Example.responseAZ))),
     (0, .nextSpan),
     (0, .noWork false),
     (1, .noWork false)]
    Example.doneState (by decide) (by decide) (by decide) (by decide) (by decide) (by decide)
    (by decide)

/-! ## Invalid resume spans -/

/-- C20: when a successful response carries a resume span that is not valid,
the worker returns an error, and its sink gets no call for the response:
none of the files is written and no completion is reported. -/
theorem invalid_resume_span_is_fatal (c : ProcessorCtx) (w : Worker)
    (todo : List (List spanAndTime)) (inp : IterationInput) (span : spanAndTime)
    (rest : List spanAndTime) (resp : ExportResponse) (resume : Span)
    (waited : Option Int) (priority : Bool)
    (hctl : w.control = .inChunk span rest) (hkey : span.span.key.length ≠ 0)
    (hgate : retryGate c inp w.priority span = .proceed waited priority)
    (hres : inp.result = .succeeded resp)
    (hresume : resp.resumeSpan = some resume) (hinvalid : resume.Valid = false) :
    w.step c todo (.exportPass inp) =
      some ({ priority := priority
              control := .returned (some (.invalidResumeSpan resume))
              requests := w.requests ++ [(exportRequestFor c inp span, headerFor span priority)]
              sink := w.sink },
            todo) := by
  rw [Worker.step_export c w todo inp span rest hctl hkey, exportStep_proceed c inp _ span _ _ hgate]
  simp [handleResult, hres, handleResponse, hresume, hinvalid]

/-- C20, at a concrete input: the response to the request for `[a, z)` has a
file and the resume span `[z, a)`. -/
theorem invalid_resume_span_is_fatal_witness :
    Example.workerAZ.step Example.ctx []
        (.exportPass (Example.input true (.succeeded
          { files := Example.responseAM.files, resumeSpan := some Example.spanZA }))) =
      some ({ priority := false
              control := .returned (some (.invalidResumeSpan Example.spanZA))
              requests := Example.workerAZ.requests ++ [(exportRequestFor Example.ctx
                (Example.input true (.succeeded
                  { files := Example.responseAM.files, resumeSpan := some Example.spanZA }))
                Example.requestAZ, headerFor Example.requestAZ false)]
              sink := Example.workerAZ.sink },
            []) :=
  invalid_resume_span_is_fatal Example.ctx Example.workerAZ []
    (Example.input true (.succeeded
      { files := Example.responseAM.files, resumeSpan := some Example.spanZA }))
    Example.requestAZ []
    { files := Example.responseAM.files, resumeSpan := some Example.spanZA }
    Example.spanZA none false rfl (by decide) (by decide) rfl rfl (by decide)

/-! ## Priority and the retry delay -/

/-- The header of the request a pass sends is built from the priority flag as
the pass leaves it. -/
theorem sent_header (c : ProcessorCtx) (inp : IterationInput) (priority : Bool)
    (span : spanAndTime) (req : ExportRequest) (header : Header)
    (hsent : (exportStep c inp priority span).sent = some (req, header)) :
    header = headerFor span (exportStep c inp priority span).priority := by
  unfold exportStep at hsent ⊢
  cases hgate : retryGate c inp priority span with
  | cancelled delay => simp [hgate] at hsent
  | proceed waited priority' =>
    simp only [hgate, Option.some.injEq, Prod.mk.injEq] at hsent ⊢
    exact hsent.2.symm

/-- C15: for every request a pass sends, with the priority flag as it is when
the header is built, exactly one of the two holds: the flag is false and the
header has wait policy `Error` and the user priority left at its zero value,
or the flag is true and the header has user priority `MaxUserPriority` and the
wait policy left at its zero value, `Block`. -/
theorem header_by_priority (c : ProcessorCtx) (inp : IterationInput) (priority : Bool)
    (span : spanAndTime) (req : ExportRequest) (header : Header)
    (hsent : (exportStep c inp priority span).sent = some (req, header)) :
    Xor'
      ((exportStep c inp priority span).priority = false ∧ header.waitPolicy = .Error ∧
        header.userPriority = UnspecifiedUserPriority)
      ((exportStep c inp priority span).priority = true ∧
        header.userPriority = MaxUserPriority ∧ header.waitPolicy = .Block) := by
  have hh := sent_header c inp priority span req header hsent
  cases hp : (exportStep c inp priority span).priority with
  | false =>
    rw [hp] at hh
    subst hh
    left
    simp [headerFor]
  | true =>
    rw [hp] at hh
    subst hh
    right
    simp [headerFor]

/-- C15, at a concrete input: the retry of `[a, z)` sent while the read time
is more than `priorityAfter` in the past. -/
theorem header_by_priority_witness :
    Xor'
      ((exportStep Example.ctx (Example.input true (.succeeded Example.responseAZ)) false
          Example.retryAZ).priority = false ∧
        (headerFor Example.retryAZ true).waitPolicy = .Error ∧
        (headerFor Example.retryAZ true).userPriority = UnspecifiedUserPriority)
      ((exportStep Example.ctx (Example.input true (.succeeded Example.responseAZ)) false
          Example.retryAZ).priority = true ∧
        (headerFor Example.retryAZ true).userPriority = MaxUserPriority ∧
        (headerFor Example.retryAZ true).waitPolicy = .Block) :=
  header_by_priority Example.ctx (Example.input true (.succeeded Example.responseAZ)) false
    Example.retryAZ
    (exportRequestFor Example.ctx (Example.input true (.succeeded Example.responseAZ))
      Example.retryAZ)
    (headerFor Example.retryAZ true) (by decide)

/-- C16, as stated, fails: a worker whose priority flag is set sends the retry
of `[a, z)`, last tried 1 ns ago with a retry delay of 5 ns, without
waiting. -/
theorem retry_with_priority_does_not_wait :
    Example.retryAZ.attempts > 0 ∧
      (Example.input true (.succeeded Example.responseAZ)).nowAtDelay -
          Example.retryAZ.lastTried <
        (Example.input true (.succeeded Example.responseAZ)).delayPerAttempt ∧
      (exportStep Example.ctx (Example.input true (.succeeded Example.responseAZ)) true
        Example.retryAZ).waited = none ∧
      (exportStep Example.ctx (Example.input true (.succeeded Example.responseAZ)) true
        Example.retryAZ).sent.isSome = true := by
  decide

/-- C16, amended: before a retry (a request whose `attempts` is positive) is
sent by a worker whose priority flag is false, with `D = now - lastTried`: if
`D < delayPerAttempt` the worker waits `delayPerAttempt - D` and then sends
the request, or it returns the cancellation error without sending it when the
context is cancelled first; if `D >= delayPerAttempt` it sends the request
without waiting.  A worker whose priority flag is true sends the request
without waiting. -/
theorem retry_delay (c : ProcessorCtx) (inp : IterationInput) (priority : Bool)
    (span : spanAndTime) (hretry : span.attempts > 0) :
    (priority = false → inp.nowAtDelay - span.lastTried < inp.delayPerAttempt →
      inp.cancelledInDelay = false →
      (exportStep c inp priority span).waited =
          some (inp.delayPerAttempt - (inp.nowAtDelay - span.lastTried)) ∧
        (exportStep c inp priority span).sent.isSome = true) ∧
    (priority = false → inp.nowAtDelay - span.lastTried < inp.delayPerAttempt →
      inp.cancelledInDelay = true →
      (exportStep c inp priority span).sent = none ∧
        (exportStep c inp priority span).flow = .ret .ctxErr) ∧
    (priority = false → inp.delayPerAttempt ≤ inp.nowAtDelay - span.lastTried →
      (exportStep c inp priority span).waited = none ∧
        (exportStep c inp priority span).sent.isSome = true) ∧
    (priority = true →
      (exportStep c inp priority span).waited = none ∧
        (exportStep c inp priority span).sent.isSome = true) := by
  refine ⟨?_, ?_, ?_, ?_⟩
  · intro hp hd hc
    have hpos : inp.delayPerAttempt - (inp.nowAtDelay - span.lastTried) > 0 := by omega
    simp [exportStep, retryGate, hp, hretry, hpos, hc]
  · intro hp hd hc
    have hpos : inp.delayPerAttempt - (inp.nowAtDelay - span.lastTried) > 0 := by omega
    simp [exportStep, retryGate, hp, hretry, hpos, hc]
  · intro hp hd
    have hpos : ¬ inp.delayPerAttempt - (inp.nowAtDelay - span.lastTried) > 0 := by omega
    simp [exportStep, retryGate, hp, hretry, hpos]
  · intro hp
    simp [exportStep, retryGate, hp]

/-- C16, amended, at a concrete input: the retry of `[a, z)`, last tried 1 ns
ago with a retry delay of 5 ns, by a worker whose priority flag is false. -/
theorem retry_delay_witness :
    (exportStep Example.ctx (Example.input true (.succeeded Example.responseAZ)) false
        Example.retryAZ).waited = some 4 ∧
      (exportStep Example.ctx (Example.input true (.succeeded Example.responseAZ)) false
        Example.retryAZ).sent.isSome = true :=
  (retry_delay Example.ctx (Example.input true (.succeeded Example.responseAZ)) false
    Example.retryAZ (by decide)).1 rfl (by decide) rfl

/-- C17: a pass of a worker whose priority flag is false leaves the flag true
if and only if the request has `attempts > 0`, the retry delay is not cut
short by the cancellation of the context, and after the delay
`now - BackupEndTime > priorityAfter`; so for a request that is sent, if and
only if `attempts > 0` and `now - BackupEndTime > priorityAfter`.  A request
with `attempts = 0` leaves the flag as it is, whatever it is. -/
theorem priority_flag_set_iff (c : ProcessorCtx) (inp : IterationInput) (priority : Bool)
    (span : spanAndTime) (hflag : priority = false) :
    ((exportStep c inp priority span).priority = true ↔
      (span.attempts > 0 ∧
        ¬ (inp.delayPerAttempt - (inp.nowAtDelay - span.lastTried) > 0 ∧
          inp.cancelledInDelay = true) ∧
        inp.nowAtPriority - c.backupEndTime.wallTime > inp.priorityAfter)) ∧
    ((exportStep c inp priority span).sent.isSome = true →
      ((exportStep c inp priority span).priority = true ↔
        (span.attempts > 0 ∧
          inp.nowAtPriority - c.backupEndTime.wallTime > inp.priorityAfter))) ∧
    (∀ flag : Bool, span.attempts = 0 → (exportStep c inp flag span).priority = flag) := by
  subst hflag
  refine ⟨?_, ?_, ?_⟩
  · by_cases ha : span.attempts > 0
    · by_cases hd : inp.delayPerAttempt - (inp.nowAtDelay - span.lastTried) > 0
      · cases hc : inp.cancelledInDelay <;>
          simp [exportStep, retryGate, ha, hd, hc, ProcessorCtx.readTime]
      · simp [exportStep, retryGate, ha, hd, ProcessorCtx.readTime]
    · simp [exportStep, retryGate, ha]
  · by_cases ha : span.attempts > 0
    · by_cases hd : inp.delayPerAttempt - (inp.nowAtDelay - span.lastTried) > 0
      · cases hc : inp.cancelledInDelay <;>
          simp [exportStep, retryGate, ha, hd, hc, ProcessorCtx.readTime]
      · simp [exportStep, retryGate, ha, hd, ProcessorCtx.readTime]
    · simp [exportStep, retryGate, ha]
  · intro flag h0
    have ha : ¬ span.attempts > 0 := by omega
    simp [exportStep, retryGate, ha]

/-- C17, at a concrete input: the retry of `[a, z)` at time 200, with the
backup end time 100 and `priorityAfter` 60. -/
theorem priority_flag_set_iff_witness :
    (exportStep Example.ctx (Example.input true (.succeeded Example.responseAZ)) false
        Example.retryAZ).priority = true ↔
      (Example.retryAZ.attempts > 0 ∧
        ¬ ((Example.input true (.succeeded Example.responseAZ)).delayPerAttempt -
              ((Example.input true (.succeeded Example.responseAZ)).nowAtDelay -
                Example.retryAZ.lastTried) > 0 ∧
          (Example.input true (.succeeded Example.responseAZ)).cancelledInDelay = true) ∧
        (Example.input true (.succeeded Example.responseAZ)).nowAtPriority -
            Example.ctx.backupEndTime.wallTime >
          (Example.input true (.succeeded Example.responseAZ)).priorityAfter) :=
  (priority_flag_set_iff Example.ctx (Example.input true (.succeeded Example.responseAZ)) false
    Example.retryAZ rfl).1

/-- A step of a worker whose priority flag is set leaves it set, and the
requests it sends carry the maximal user priority. -/
theorem Worker.step_priority (c : ProcessorCtx) (w w' : Worker)
    (todo todo' : List (List spanAndTime)) (a : Action) (hp : w.priority = true)
    (h : w.step c todo a = some (w', todo')) :
    w'.priority = true ∧
      ∃ new : List (ExportRequest × Header), w'.requests = w.requests ++ new ∧
        ∀ r ∈ new, r.2.userPriority = MaxUserPriority := by
  cases a with
  | ctxDone =>
    cases hctl : w.control with
    | atSelect =>
      simp only [Worker.step, hctl, Option.some.injEq, Prod.mk.injEq] at h
      obtain ⟨hw, _⟩ := h
      subst hw
      exact ⟨hp, [], by simp, by simp⟩
    | inChunk span rest => simp [Worker.step, hctl] at h
    | returned err => simp [Worker.step, hctl] at h
  | receive =>
    cases hctl : w.control with
    | atSelect =>
      cases todo with
      | nil => simp [Worker.step, hctl] at h
      | cons spans queue =>
        simp only [Worker.step, hctl, Option.some.injEq, Prod.mk.injEq] at h
        obtain ⟨hw, _⟩ := h
        subst hw
        exact ⟨hp, [], by simp, by simp⟩
    | inChunk span rest => simp [Worker.step, hctl] at h
    | returned err => simp [Worker.step, hctl] at h
  | noWork flushFails =>
    cases hctl : w.control with
    | atSelect =>
      cases todo with
      | nil =>
        simp only [Worker.step, hctl, Option.some.injEq, Prod.mk.injEq] at h
        obtain ⟨hw, _⟩ := h
        subst hw
        exact ⟨hp, [], by simp, by simp⟩
      | cons spans queue => simp [Worker.step, hctl] at h
    | inChunk span rest => simp [Worker.step, hctl] at h
    | returned err => simp [Worker.step, hctl] at h
  | exportPass inp =>
    cases hctl : w.control with
    | atSelect => simp [Worker.step, hctl] at h
    | returned err => simp [Worker.step, hctl] at h
    | inChunk span rest =>
      by_cases hkey : span.span.key.length ≠ 0
      · rw [Worker.step_export c w todo inp span rest hctl hkey] at h
        simp only [Option.some.injEq, Prod.mk.injEq] at h
        obtain ⟨hw, _⟩ := h
        subst hw
        have hgate : retryGate c inp w.priority span = .proceed none true := by
          simp [retryGate, hp]
        rw [exportStep_proceed c inp _ span _ _ hgate]
        refine ⟨rfl, [(exportRequestFor c inp span, headerFor span true)], rfl, ?_⟩
        intro r hr
        simp only [List.mem_singleton] at hr
        subst hr
        simp [headerFor]
      · simp [Worker.step, hctl, hkey] at h
  | nextSpan =>
    cases hctl : w.control with
    | atSelect => simp [Worker.step, hctl] at h
    | returned err => simp [Worker.step, hctl] at h
    | inChunk span rest =>
      by_cases hkey : span.span.key.length ≠ 0
      · simp [Worker.step, hctl, hkey] at h
      · simp only [Worker.step, hctl, hkey, if_false, Option.some.injEq, Prod.mk.injEq] at h
        obtain ⟨hw, _⟩ := h
        subst hw
        exact ⟨hp, [], by simp, by simp⟩

/-- C14: once the priority flag of a worker is true, it is true after every
further run of the workers, and every request the worker sends in that run,
for whatever span, has user priority `MaxUserPriority`. -/
theorem priority_is_sticky (c : ProcessorCtx) (sched : Schedule) :
    ∀ (s s' : State) (i : Nat) (w : Worker), s.workers[i]? = some w → w.priority = true →
      State.run c s sched = some s' →
      ∃ (w' : Worker) (new : List (ExportRequest × Header)),
        s'.workers[i]? = some w' ∧ w'.priority = true ∧
        w'.requests = w.requests ++ new ∧
        ∀ r ∈ new, r.2.userPriority = MaxUserPriority := by
  induction sched with
  | nil =>
    intro s s' i w hw hp hrun
    simp only [State.run, Option.some.injEq] at hrun
    subst hrun
    exact ⟨w, [], hw, hp, by simp, by simp⟩
  | cons x rest ih =>
    intro s s' i w hw hp hrun
    obtain ⟨j, a⟩ := x
    simp only [State.run] at hrun
    cases hs : s.step c j a with
    | none => simp [hs] at hrun
    | some s1 =>
      simp only [hs] at hrun
      obtain ⟨wj, wj', hwj, hstep, hset⟩ := State.step_spec c s s1 j a hs
      by_cases hji : j = i
      · subst hji
        have hww : wj = w := by
          rw [hw] at hwj
          exact (Option.some.inj hwj).symm
        subst hww
        obtain ⟨hp1, new1, hreq1, hall1⟩ := Worker.step_priority c wj wj' s.todo s1.todo a hp hstep
        have hlt : j < s.workers.length := by
          rcases Nat.lt_or_ge j s.workers.length with h | h
          · exact h
          · rw [List.getElem?_eq_none h] at hw
            cases hw
        have hw1 : s1.workers[j]? = some wj' := by
          rw [hset, List.getElem?_set_self hlt]
        obtain ⟨w', new2, hw', hp', hreq', hall'⟩ := ih s1 s' j wj' hw1 hp1 hrun
        refine ⟨w', new1 ++ new2, hw', hp', by rw [hreq', hreq1, List.append_assoc], ?_⟩
        intro r hr
        rcases List.mem_append.mp hr with h | h
        · exact hall1 r h
        · exact hall' r h
      · have hw1 : s1.workers[i]? = some w := by
          rw [hset, List.getElem?_set_ne hji]
          exact hw
        exact ih s1 s' i w hw1 hp hrun

/-- C14, at a concrete input: worker 0, with its priority flag set, takes the
chunk of `requestAZ` and exports it in one response. -/
theorem priority_is_sticky_witness :
    ∃ (w' : Worker) (new : List (ExportRequest × Header)),
      Example.priorityDone.workers[0]? = some w' ∧ w'.priority = true ∧
      w'.requests = ({ priority := true } : Worker).requests ++ new ∧
      ∀ r ∈ new, r.2.userPriority = MaxUserPriority :=
  priority_is_sticky Example.ctx
    [(0, .receive),
     (0, .exportPass (Example.input true (.succeeded Example.responseAZ))),
     (0, .nextSpan),
     (0, .noWork false)]
    Example.priorityStart Example.priorityDone 0 { priority := true } rfl rfl (by decide)

/-! ## The request spans of an assigned span -/

/-- Marking the last request span changes no more than flags. -/
theorem markLastFinishes_unflag (l : List spanAndTime) :
    (markLastFinishes l).map spanAndTime.unflag = l.map spanAndTime.unflag := by
  induction l with
  | nil => rfl
  | cons x xs ih =>
    cases xs with
    | nil => rfl
    | cons y ys =>
      simp only [markLastFinishes, List.map_cons] at ih ⊢
      rw [ih]

/-- Marking the last of some new request spans flags the last one and leaves
the others as they are. -/
theorem markLastFinishes_shape (news : List spanAndTime) (hne : news ≠ []) :
    ∃ (init : List spanAndTime) (last : spanAndTime),
      markLastFinishes news = init ++ [last] ∧ last.finishesSpec = true ∧
      init = news.dropLast := by
  induction news with
  | nil => exact absurd rfl hne
  | cons x xs ih =>
    cases xs with
    | nil => exact ⟨[], { x with finishesSpec := true }, rfl, rfl, rfl⟩
    | cons y ys =>
      obtain ⟨init, last, h1, h2, h3⟩ := ih (by simp)
      refine ⟨x :: init, last, ?_, h2, ?_⟩
      · simp only [markLastFinishes, List.cons_append]
        rw [h1]
      · rw [h3]
        rfl

/-- The loop over the ranges appends request spans that are not flagged and
have the given times, at least one when there is a range; it leaves the
remaining span alone when there is none; and what it appends does not depend
on the request spans before. -/
theorem splitRanges_news (fullSpan : Span) (start end_ : Timestamp) :
    ∀ (ranges : List Span) (remainingSpan : Span) (acc : List spanAndTime)
      (remainingSpan' : Span) (acc' : List spanAndTime),
      splitRanges fullSpan start end_ ranges remainingSpan acc = .ok (remainingSpan', acc') →
      ∃ news : List spanAndTime, acc' = acc ++ news ∧
        (∀ x ∈ news, x.finishesSpec = false ∧ x.start = start ∧ x.end_ = end_) ∧
        (ranges = [] → remainingSpan' = remainingSpan) ∧ (ranges ≠ [] → news ≠ []) ∧
        ∀ acc2 : List spanAndTime,
          splitRanges fullSpan start end_ ranges remainingSpan acc2 =
            .ok (remainingSpan', acc2 ++ news) := by
  intro ranges
  induction ranges with
  | nil =>
    intro remainingSpan acc remainingSpan' acc' h
    simp only [splitRanges, Except.ok.injEq, Prod.mk.injEq] at h
    refine ⟨[], by simp [h.2], by simp, fun _ => h.1.symm, fun hne => absurd rfl hne, ?_⟩
    intro acc2
    simp [splitRanges, h.1]
  | cons rangeSpan ranges ih =>
    intro remainingSpan acc remainingSpan' acc' h
    unfold splitRanges at h
    simp only [] at h
    by_cases hv : (remainingSpan.Intersect rangeSpan).Valid = true
    · simp only [hv, Bool.not_true, Bool.false_eq_true, if_false] at h
      obtain ⟨news, hacc, hflags, _, _, hind⟩ := ih _ _ _ _ h
      refine ⟨{ span := remainingSpan.Intersect rangeSpan, start := start, end_ := end_ } :: news,
        (by simp [hacc]), ?_, (fun hnil => by cases hnil), (fun _ => by simp), ?_⟩
      · intro x hx
        rcases List.mem_cons.mp hx with h1 | h1
        · subst h1
          exact ⟨rfl, rfl, rfl⟩
        · exact hflags x h1
      · intro acc2
        unfold splitRanges
        simp only [hv, Bool.not_true, Bool.false_eq_true, if_false]
        rw [hind]
        simp
    · simp [hv] at h

/-- Splitting one assigned span appends new request spans, not flagged and
with the given times, to the request spans before, and then marks the last
request span; what it appends does not depend on the request spans before,
and there is at least one new request span when the assigned span is
valid. -/
theorem splitSpan_news (rangeSizedSpans : Bool)
    (newIterator : Span → Except String (List Span)) (start end_ : Timestamp)
    (acc acc' : List spanAndTime) (fullSpan : Span)
    (h : splitSpan rangeSizedSpans newIterator start end_ acc fullSpan = .ok acc') :
    ∃ news : List spanAndTime,
      acc' = markLastFinishes (acc ++ news) ∧
      (∀ x ∈ news, x.finishesSpec = false ∧ x.start = start ∧ x.end_ = end_) ∧
      (fullSpan.Valid = true → news ≠ []) ∧
      ∀ acc2 : List spanAndTime, acc2 ++ news ≠ [] →
        splitSpan rangeSizedSpans newIterator start end_ acc2 fullSpan =
          .ok (markLastFinishes (acc2 ++ news)) := by
  unfold splitSpan at h
  cases rangeSizedSpans with
  | false =>
    simp only [Bool.false_eq_true, if_false] at h
    by_cases hv : fullSpan.Valid = true
    · simp only [hv, if_true] at h
      split at h
      · cases h
      · simp only [Except.ok.injEq] at h
        refine ⟨[{ span := fullSpan, start := start, end_ := end_ }], h.symm, ?_,
          (fun _ => by simp), ?_⟩
        · intro x hx
          simp only [List.mem_singleton] at hx
          subst hx
          exact ⟨rfl, rfl, rfl⟩
        · intro acc2 _
          simp [splitSpan, hv]
    · simp only [hv, Bool.false_eq_true, if_false] at h
      split at h
      · cases h
      · rename_i hlen
        simp only [Except.ok.injEq] at h
        refine ⟨[], by simp [h], by simp, (fun hvalid => absurd hvalid hv), ?_⟩
        intro acc2 hne
        have hlen2 : acc2.length ≠ 0 := fun h0 =>
          hne (by simp [List.eq_nil_of_length_eq_zero h0])
        simp [splitSpan, hv, hlen2]
  | true =>
    simp only [if_true] at h
    cases hit : newIterator fullSpan with
    | error text => simp [hit] at h
    | ok ranges =>
      simp only [hit] at h
      cases hsr : splitRanges fullSpan start end_ ranges fullSpan acc with
      | error e => simp [hsr] at h
      | ok r =>
        obtain ⟨remainingSpan, rs⟩ := r
        simp only [hsr] at h
        obtain ⟨news, hacc, hflags, hnil, hcons, hind⟩ :=
          splitRanges_news _ _ _ _ _ _ _ _ hsr
        subst hacc
        by_cases hv : remainingSpan.Valid = true
        · simp only [hv, if_true] at h
          split at h
          · cases h
          · simp only [Except.ok.injEq] at h
            refine ⟨news ++ [{ span := remainingSpan, start := start, end_ := end_ }],
              (by rw [← h, List.append_assoc]), ?_, (fun _ => by simp), ?_⟩
            · intro x hx
              rcases List.mem_append.mp hx with h1 | h1
              · exact hflags x h1
              · simp only [List.mem_singleton] at h1
                subst h1
                exact ⟨rfl, rfl, rfl⟩
            · intro acc2 _
              simp [splitSpan, hit, hind acc2, hv]
        · simp only [hv, Bool.false_eq_true, if_false] at h
          split at h
          · cases h
          · simp only [Except.ok.injEq] at h
            refine ⟨news, h.symm, hflags, ?_, ?_⟩
            · intro hvalid
              apply hcons
              intro hr
              rw [hnil hr] at hv
              exact hv hvalid
            · intro acc2 hne
              have hlen2 : (acc2 ++ news).length ≠ 0 := fun h0 =>
                hne (List.eq_nil_of_length_eq_zero h0)
              simp only [splitSpan, if_true, hit, hind acc2, hv, Bool.false_eq_true, if_false,
                hlen2]

/-- Splitting valid assigned spans appends one group of request spans per
assigned span: the request spans the span gives on its own, the last of them
flagged and no other. -/
theorem splitSpans_groups (rangeSizedSpans : Bool)
    (newIterator : Span → Except String (List Span)) (start end_ : Timestamp) :
    ∀ (spans : List Span) (acc acc' : List spanAndTime),
      (∀ sp ∈ spans, sp.Valid = true) →
      splitSpans rangeSizedSpans newIterator start end_ spans acc = .ok acc' →
      ∃ groups : List (List spanAndTime), acc' = acc ++ groups.flatten ∧
        List.Forall₂
          (fun sp g => splitSpan rangeSizedSpans newIterator start end_ [] sp = .ok g ∧
            ∃ (init : List spanAndTime) (last : spanAndTime), g = init ++ [last] ∧
              last.finishesSpec = true ∧ ∀ x ∈ init, x.finishesSpec = false)
          spans groups := by
  intro spans
  induction spans with
  | nil =>
    intro acc acc' _ h
    simp only [splitSpans, Except.ok.injEq] at h
    exact ⟨[], by simp [h], List.Forall₂.nil⟩
  | cons fullSpan spans ih =>
    intro acc acc' hvalid h
    unfold splitSpans at h
    cases hs : splitSpan rangeSizedSpans newIterator start end_ acc fullSpan with
    | error e => simp [hs] at h
    | ok acc1 =>
      simp only [hs] at h
      obtain ⟨news, hacc1, hflags, hne, hind⟩ := splitSpan_news _ _ _ _ _ _ _ hs
      have hnews := hne (hvalid fullSpan (List.mem_cons_self _ _))
      obtain ⟨init, last, hshape, hlast, hinit⟩ := markLastFinishes_shape news hnews
      obtain ⟨groups, hacc', hall⟩ :=
        ih acc1 acc' (fun sp hsp => hvalid sp (List.mem_cons_of_mem _ hsp)) h
      refine ⟨markLastFinishes news :: groups, ?_, List.Forall₂.cons ⟨?_, init, last, hshape,
        hlast, ?_⟩ hall⟩
      · rw [hacc', hacc1, markLastFinishes_append acc news hnews]
        simp
      · have := hind [] (by simpa using hnews)
        simpa using this
      · intro x hx
        rw [hinit] at hx
        exact (hflags x (List.dropLast_subset news hx)).1

/-- C12: for valid assigned spans, the request spans are one group per assigned
span, introduced spans first, in order: the request spans derived from it, of
which the last one has `finishesSpec = true` and no other has; so the number
of flagged request spans is `len(Spans) + len(IntroducedSpans)`. -/
theorem one_flag_per_assigned_span (rangeSizedSpans : Bool)
    (newIterator : Span → Except String (List Span)) (spec : BackupDataSpec)
    (requestSpans : List spanAndTime)
    (hvalid : ∀ sp ∈ spec.introducedSpans ++ spec.spans, sp.Valid = true)
    (h : requestSpansOf rangeSizedSpans newIterator spec = .ok requestSpans) :
    ∃ groups : List (List spanAndTime),
      requestSpans = groups.flatten ∧
      List.Forall₂
        (fun sp g =>
          (∃ start end_ : Timestamp,
            splitSpan rangeSizedSpans newIterator start end_ [] sp = .ok g) ∧
          ∃ (init : List spanAndTime) (last : spanAndTime), g = init ++ [last] ∧
            last.finishesSpec = true ∧ ∀ x ∈ init, x.finishesSpec = false)
        (spec.introducedSpans ++ spec.spans) groups ∧
      finishCount requestSpans = spec.totalSpans := by
  have hcount := requestSpansOf_count rangeSizedSpans newIterator spec requestSpans hvalid h
  unfold requestSpansOf at h
  cases h1 : splitSpans rangeSizedSpans newIterator {} spec.backupStartTime
      spec.introducedSpans [] with
  | error e => simp [h1] at h
  | ok rs1 =>
    simp only [h1] at h
    obtain ⟨g1, hrs1, hall1⟩ := splitSpans_groups _ _ _ _ _ _ _
      (fun sp hsp => hvalid sp (List.mem_append_left _ hsp)) h1
    obtain ⟨g2, hrs2, hall2⟩ := splitSpans_groups _ _ _ _ _ _ _
      (fun sp hsp => hvalid sp (List.mem_append_right _ hsp)) h
    refine ⟨g1 ++ g2, by simp [hrs2, hrs1], ?_, hcount⟩
    exact List.rel_append
      (hall1.imp (fun sp g hg => ⟨⟨_, _, hg.1⟩, hg.2⟩))
      (hall2.imp (fun sp g hg => ⟨⟨_, _, hg.1⟩, hg.2⟩))

/-- C12, at a concrete input: the span `[a, z)` split along `ranges3`. -/
theorem one_flag_per_assigned_span_witness :
    ∃ groups : List (List spanAndTime),
      [({ span := Example.spanAM, end_ := { wallTime := 100 } } : spanAndTime),
        { span := Example.spanMQ, end_ := { wallTime := 100 } },
        { span := Example.spanQZ, end_ := { wallTime := 100 }, finishesSpec := true }] =
        groups.flatten ∧
      List.Forall₂
        (fun sp g =>
          (∃ start end_ : Timestamp,
            splitSpan true Example.iterator3 start end_ [] sp = .ok g) ∧
          ∃ (init : List spanAndTime) (last : spanAndTime), g = init ++ [last] ∧
            last.finishesSpec = true ∧ ∀ x ∈ init, x.finishesSpec = false)
        (Example.spec.introducedSpans ++ Example.spec.spans) groups ∧
      finishCount
          [({ span := Example.spanAM, end_ := { wallTime := 100 } } : spanAndTime),
            { span := Example.spanMQ, end_ := { wallTime := 100 } },
            { span := Example.spanQZ, end_ := { wallTime := 100 }, finishesSpec := true }] =
        Example.spec.totalSpans :=
  one_flag_per_assigned_span true Example.iterator3 Example.spec _ (by decide) (by decide)

/-- Splitting assigned spans appends request spans with the given times and
changes no more than flags of the request spans before. -/
theorem splitSpans_unflag (rangeSizedSpans : Bool)
    (newIterator : Span → Except String (List Span)) (start end_ : Timestamp) :
    ∀ (spans : List Span) (acc acc' : List spanAndTime),
      splitSpans rangeSizedSpans newIterator start end_ spans acc = .ok acc' →
      ∃ news : List spanAndTime,
        acc'.map spanAndTime.unflag = (acc ++ news).map spanAndTime.unflag ∧
        ∀ x ∈ news, x.start = start ∧ x.end_ = end_ := by
  intro spans
  induction spans with
  | nil =>
    intro acc acc' h
    simp only [splitSpans, Except.ok.injEq] at h
    exact ⟨[], by simp [h], by simp⟩
  | cons fullSpan spans ih =>
    intro acc acc' h
    unfold splitSpans at h
    cases hs : splitSpan rangeSizedSpans newIterator start end_ acc fullSpan with
    | error e => simp [hs] at h
    | ok acc1 =>
      simp only [hs] at h
      obtain ⟨news1, hacc1, hflags1, _, _⟩ := splitSpan_news _ _ _ _ _ _ _ hs
      obtain ⟨news2, hmap, hflags2⟩ := ih acc1 acc' h
      refine ⟨news1 ++ news2, ?_, ?_⟩
      · rw [hmap, List.map_append, hacc1, markLastFinishes_unflag]
        simp
      · intro x hx
        rcases List.mem_append.mp hx with h1 | h1
        · exact (hflags1 x h1).2
        · exact hflags2 x h1

/-- The times of the request spans of a list follow from those of the list
with the flags cleared. -/
theorem times_of_unflag (l news : List spanAndTime) (start end_ : Timestamp)
    (hmap : l.map spanAndTime.unflag = news.map spanAndTime.unflag)
    (hnews : ∀ x ∈ news, x.start = start ∧ x.end_ = end_) :
    ∀ r ∈ l, r.start = start ∧ r.end_ = end_ := by
  intro r hr
  have hmem : r.unflag ∈ news.map spanAndTime.unflag := by
    rw [← hmap]
    exact List.mem_map_of_mem _ hr
  obtain ⟨x, hx, hxr⟩ := List.mem_map.mp hmem
  have h1 : x.unflag.start = r.unflag.start := congrArg spanAndTime.start hxr
  have h2 : x.unflag.end_ = r.unflag.end_ := congrArg spanAndTime.end_ hxr
  change x.start = r.start at h1
  change x.end_ = r.end_ at h2
  have := hnews x hx
  exact ⟨h1 ▸ this.1, h2 ▸ this.2⟩

/-- C13: the request spans derived from the introduced spans come first; they
have start time 0, the empty timestamp, and end time `BackupStartTime`.  All
request spans after them, those derived from the spans, have start time
`BackupStartTime` and end time `BackupEndTime`. -/
theorem request_times (rangeSizedSpans : Bool)
    (newIterator : Span → Except String (List Span)) (spec : BackupDataSpec)
    (requestSpans : List spanAndTime)
    (h : requestSpansOf rangeSizedSpans newIterator spec = .ok requestSpans) :
    ∃ first : List spanAndTime,
      splitSpans rangeSizedSpans newIterator {} spec.backupStartTime spec.introducedSpans [] =
        .ok first ∧
      (requestSpans.take first.length).map spanAndTime.unflag =
        first.map spanAndTime.unflag ∧
      (∀ r ∈ requestSpans.take first.length,
        r.start = {} ∧ r.end_ = spec.backupStartTime) ∧
      (∀ r ∈ requestSpans.drop first.length,
        r.start = spec.backupStartTime ∧ r.end_ = spec.backupEndTime) := by
  unfold requestSpansOf at h
  cases h1 : splitSpans rangeSizedSpans newIterator {} spec.backupStartTime
      spec.introducedSpans [] with
  | error e => simp [h1] at h
  | ok first =>
    simp only [h1] at h
    obtain ⟨news1, hmap1, htimes1⟩ := splitSpans_unflag _ _ _ _ _ _ _ h1
    obtain ⟨news2, hmap2, htimes2⟩ := splitSpans_unflag _ _ _ _ _ _ _ h
    simp only [List.nil_append] at hmap1
    have hlen : (first.map spanAndTime.unflag).length = first.length := List.length_map _ _
    have htake : (requestSpans.take first.length).map spanAndTime.unflag =
        first.map spanAndTime.unflag := by
      rw [List.map_take, hmap2, List.map_append, ← hlen, List.take_left']
      rfl
    have hdrop : (requestSpans.drop first.length).map spanAndTime.unflag =
        news2.map spanAndTime.unflag := by
      rw [List.map_drop, hmap2, List.map_append, ← hlen, List.drop_left']
      rfl
    refine ⟨first, rfl, htake, ?_, ?_⟩
    · exact times_of_unflag _ news1 _ _ (htake.trans hmap1) htimes1
    · exact times_of_unflag _ news2 _ _ hdrop htimes2

/-- C13, at a concrete input: the introduced span `[a, m)` and the span
`[m, z)` of a backup from time 50 to time 100. -/
theorem request_times_witness :
    ∃ first : List spanAndTime,
      splitSpans false Example.noRanges {} Example.specIntroduced.backupStartTime
          Example.specIntroduced.introducedSpans [] = .ok first ∧
      (([{ span := Example.spanAM, end_ := { wallTime := 50 }, finishesSpec := true },
          { span := Example.spanMZ, start := { wallTime := 50 }, end_ := { wallTime := 100 },
            finishesSpec := true }] : List spanAndTime).take first.length).map
          spanAndTime.unflag = first.map spanAndTime.unflag ∧
      (∀ r ∈ ([{ span := Example.spanAM, end_ := { wallTime := 50 }, finishesSpec := true },
          { span := Example.spanMZ, start := { wallTime := 50 }, end_ := { wallTime := 100 },
            finishesSpec := true }] : List spanAndTime).take first.length,
        r.start = {} ∧ r.end_ = Example.specIntroduced.backupStartTime) ∧
      (∀ r ∈ ([{ span := Example.spanAM, end_ := { wallTime := 50 }, finishesSpec := true },
          { span := Example.spanMZ, start := { wallTime := 50 }, end_ := { wallTime := 100 },
            finishesSpec := true }] : List spanAndTime).drop first.length,
        r.start = Example.specIntroduced.backupStartTime ∧
          r.end_ = Example.specIntroduced.backupEndTime) :=
  request_times false Example.noRanges Example.specIntroduced _ (by decide)

/-! ## The order of keys -/

/-- No key sorts before itself. -/
theorem bytesLess_irrefl : ∀ a : List Nat, bytesLess a a = false := by
  intro a
  induction a with
  | nil => rfl
  | cons x xs ih => simp [bytesLess, ih]

/-- No key sorts before the empty key. -/
theorem bytesLess_nil_right (a : List Nat) : bytesLess a [] = false := by
  cases a <;> rfl

/-- A key that has a key sorting before it is not empty. -/
theorem ne_nil_of_bytesLess (a b : List Nat) (h : bytesLess a b = true) : b ≠ [] := by
  intro hb
  rw [hb, bytesLess_nil_right] at h
  cases h

/-- The order of keys is transitive. -/
theorem bytesLess_trans : ∀ a b c : List Nat,
    bytesLess a b = true → bytesLess b c = true → bytesLess a c = true := by
  intro a
  induction a with
  | nil =>
    intro b c hab hbc
    cases c with
    | nil => rw [bytesLess_nil_right] at hbc; cases hbc
    | cons z zs => rfl
  | cons x xs ih =>
    intro b c hab hbc
    cases b with
    | nil => simp [bytesLess] at hab
    | cons y ys =>
      cases c with
      | nil => simp [bytesLess] at hbc
      | cons z zs =>
        simp only [bytesLess] at hab hbc ⊢
        by_cases hxy : x < y
        · by_cases hyz : y < z
          · have : x < z := by omega
            simp [this]
          · by_cases hzy : z < y
            · simp [hyz, hzy] at hbc
            · have : x < z := by omega
              simp [this]
        · by_cases hyx : y < x
          · simp [hxy, hyx] at hab
          · simp only [hxy, hyx, if_false] at hab
            have hxy' : x = y := by omega
            subst hxy'
            by_cases hxz : x < z
            · simp [hxz]
            · by_cases hzx : z < x
              · simp [hxz, hzx] at hbc
              · simp only [hxz, hzx, if_false] at hbc ⊢
                exact ih ys zs hab hbc

/-- The order of keys is asymmetric. -/
theorem bytesLess_asymm (a b : List Nat) (h : bytesLess a b = true) : bytesLess b a = false := by
  cases hba : bytesLess b a with
  | false => rfl
  | true =>
    have := bytesLess_trans a b a h hba
    rw [bytesLess_irrefl] at this
    cases this

/-- Two keys of which neither sorts before the other are equal. -/
theorem bytesLess_total : ∀ a b : List Nat,
    bytesLess a b = false → bytesLess b a = false → a = b := by
  intro a
  induction a with
  | nil =>
    intro b hab _
    cases b with
    | nil => rfl
    | cons y ys => simp [bytesLess] at hab
  | cons x xs ih =>
    intro b hab hba
    cases b with
    | nil => simp [bytesLess] at hba
    | cons y ys =>
      simp only [bytesLess] at hab hba
      by_cases hxy : x < y
      · simp [hxy] at hab
      · by_cases hyx : y < x
        · simp [hyx] at hba
        · simp only [hxy, hyx, if_false] at hab hba
          have hxy' : x = y := by omega
          subst hxy'
          rw [ih ys hab hba]

/-- A key at or before a key that sorts before a third sorts before the
third. -/
theorem bytesLess_of_le_of_lt (a b c : List Nat) (hab : bytesLess b a = false)
    (hbc : bytesLess b c = true) : bytesLess a c = true := by
  cases h : bytesLess a b with
  | true => exact bytesLess_trans a b c h hbc
  | false =>
    have := bytesLess_total a b h hab
    rw [this]
    exact hbc

/-- A key that sorts before a key at or before a third sorts before the
third. -/
theorem bytesLess_of_lt_of_le (a b c : List Nat) (hab : bytesLess a b = true)
    (hbc : bytesLess c b = false) : bytesLess a c = true := by
  cases h : bytesLess b c with
  | true => exact bytesLess_trans a b c hab h
  | false =>
    have := bytesLess_total b c h hbc
    rw [← this]
    exact hab

/-- A list that is not empty has a length that is not zero. -/
theorem length_beq_zero_of_ne_nil (l : List Nat) (h : l ≠ []) : (l.length == 0) = false := by
  cases l with
  | nil => exact absurd rfl h
  | cons x xs => rfl

/-- A range whose start key sorts before its end key is valid. -/
theorem valid_of_bytesLess (r : Span) (h : bytesLess r.key r.endKey = true) :
    r.Valid = true := by
  have hne := length_beq_zero_of_ne_nil _ (ne_nil_of_bytesLess _ _ h)
  simp [Span.Valid, hne, h]

/-- A span with an end key and a range overlap when each starts before the
other ends. -/
theorem overlaps_proper (s r : Span) (hs : s.endKey ≠ [])
    (hsv : bytesLess s.key s.endKey = true) (hr : bytesLess r.key r.endKey = true) :
    s.Overlaps r = (bytesLess r.key s.endKey && bytesLess s.key r.endKey) := by
  have h1 := length_beq_zero_of_ne_nil _ hs
  have h2 := length_beq_zero_of_ne_nil _ (ne_nil_of_bytesLess _ _ hr)
  simp [Span.Overlaps, Span.Valid, h1, h2, hsv, hr]

/-- The intersection of a span with an end key and a range it overlaps: from
the later of the two start keys to the earlier of the two end keys. -/
theorem intersect_proper (s r : Span) (hs : s.endKey ≠ [])
    (hsv : bytesLess s.key s.endKey = true) (hr : bytesLess r.key r.endKey = true)
    (h1 : bytesLess r.key s.endKey = true) (h2 : bytesLess s.key r.endKey = true) :
    s.Intersect r =
      { key := if bytesLess s.key r.key then r.key else s.key
        endKey := if bytesLess r.endKey s.endKey then r.endKey else s.endKey } := by
  have ho := overlaps_proper s r hs hsv hr
  have hl1 := length_beq_zero_of_ne_nil _ hs
  have hl2 := length_beq_zero_of_ne_nil _ (ne_nil_of_bytesLess _ _ hr)
  simp [Span.Intersect, ho, h1, h2, hl1, hl2]

/-! ## Splitting along the ranges of a span -/

/-- The loop over ranges that cover what remains of a span with an end key:
it appends the intersection of the span with each range, and leaves what
remains after the last range. -/
theorem splitRanges_cover (K E : Key) (start end_ : Timestamp) (hE : E ≠ [])
    (hKE : bytesLess K E = true) :
    ∀ (ranges : List Span) (a : Key) (acc : List spanAndTime),
      ranges ≠ [] →
      (∀ r ∈ ranges, bytesLess r.key r.endKey = true) →
      List.Chain' (fun r r' : Span => r'.key = r.endKey) ranges →
      (∀ r ∈ ranges, bytesLess r.key E = true ∧ bytesLess K r.endKey = true) →
      bytesLess a E = true →
      (∀ r, ranges.head? = some r →
        bytesLess a r.key = false ∧ bytesLess a r.endKey = true ∧
          a = if bytesLess K r.key then r.key else K) →
      ∃ last : Span, ranges.getLast? = some last ∧
        splitRanges { key := K, endKey := E } start end_ ranges { key := a, endKey := E } acc =
          .ok ({ key := if bytesLess last.endKey E then last.endKey else E, endKey := E },
            acc ++ ranges.map fun r =>
              { span := ({ key := K, endKey := E } : Span).Intersect r,
                start := start, end_ := end_ }) := by
  intro ranges
  induction ranges with
  | nil => intro a acc hne; exact absurd rfl hne
  | cons r rest ih =>
    intro a acc _ hproper hchain hover haE hhead
    have hr := hproper r (List.mem_cons_self _ _)
    obtain ⟨ho1, ho2⟩ := hover r (List.mem_cons_self _ _)
    obtain ⟨hh1, hh2, hh3⟩ := hhead r rfl
    have hsub : ({ key := a, endKey := E } : Span).Intersect r =
        { key := a, endKey := if bytesLess r.endKey E then r.endKey else E } := by
      rw [intersect_proper _ r hE haE hr ho1 hh2]
      simp [hh1]
    have hfull : ({ key := K, endKey := E } : Span).Intersect r =
        { key := a, endKey := if bytesLess r.endKey E then r.endKey else E } := by
      rw [intersect_proper _ r hE hKE hr ho1 ho2]
      simp only []
      rw [← hh3]
    have hval : ({ key := a, endKey := if bytesLess r.endKey E then r.endKey else E } :
        Span).Valid = true := by
      apply valid_of_bytesLess
      simp only []
      split
      · exact hh2
      · exact haE
    cases rest with
    | nil =>
      refine ⟨r, rfl, ?_⟩
      simp [splitRanges, hsub, hfull, hval]
    | cons r' rest' =>
      have hkey : r'.key = r.endKey := by
        have := List.chain'_cons.mp hchain
        exact this.1
      have hchain' : List.Chain' (fun r r' : Span => r'.key = r.endKey) (r' :: rest') :=
        (List.chain'_cons.mp hchain).2
      obtain ⟨ho1', _⟩ := hover r' (List.mem_cons_of_mem _ (List.mem_cons_self _ _))
      have hr' := hproper r' (List.mem_cons_of_mem _ (List.mem_cons_self _ _))
      have hend : bytesLess r.endKey E = true := by
        rw [← hkey]
        exact ho1'
      obtain ⟨last, hlast, hrun⟩ := ih r.endKey
        (acc ++ [{ span := { key := a, endKey := r.endKey }, start := start, end_ := end_ }])
        (by simp)
        (fun x hx => hproper x (List.mem_cons_of_mem _ hx))
        hchain'
        (fun x hx => hover x (List.mem_cons_of_mem _ hx))
        hend
        (by
          intro x hx
          simp only [List.head?_cons, Option.some.injEq] at hx
          subst hx
          refine ⟨?_, ?_, ?_⟩
          · rw [hkey]
            exact bytesLess_irrefl _
          · rw [← hkey]
            exact hr'
          · rw [hkey, ho2]
            rfl)
      refine ⟨last, by rw [List.getLast?_cons_cons]; exact hlast, ?_⟩
      have hval' : ({ key := a, endKey := r.endKey } : Span).Valid = true :=
        valid_of_bytesLess _ hh2
      unfold splitRanges
      simp only [hsub, hend, if_true, hval', Bool.not_true, Bool.false_eq_true, if_false]
      rw [hrun]
      simp [hfull, hend]

/-- The intersections of a span with an end key with contiguous ranges that
overlap it are valid, each starts where the one before ends, and their start
keys are in ascending order. -/
theorem intersect_chain (K E : Key) (hE : E ≠ []) (hKE : bytesLess K E = true) :
    ∀ ranges : List Span,
      (∀ r ∈ ranges, bytesLess r.key r.endKey = true) →
      List.Chain' (fun r r' : Span => r'.key = r.endKey) ranges →
      (∀ r ∈ ranges, bytesLess r.key E = true ∧ bytesLess K r.endKey = true) →
      (∀ r ∈ ranges, (({ key := K, endKey := E } : Span).Intersect r).Valid = true) ∧
        List.Chain' (fun s s' : Span => s'.key = s.endKey ∧ bytesLess s.key s'.key = true)
          (ranges.map ({ key := K, endKey := E } : Span).Intersect) := by
  intro ranges hproper hchain hover
  have hform : ∀ r ∈ ranges, ({ key := K, endKey := E } : Span).Intersect r =
      { key := if bytesLess K r.key then r.key else K
        endKey := if bytesLess r.endKey E then r.endKey else E } := fun r hr =>
    intersect_proper _ r hE hKE (hproper r hr) (hover r hr).1 (hover r hr).2
  have hvalid : ∀ r ∈ ranges,
      bytesLess (({ key := K, endKey := E } : Span).Intersect r).key
        (({ key := K, endKey := E } : Span).Intersect r).endKey = true := by
    intro r hr
    rw [hform r hr]
    simp only []
    split <;> split
    · exact hproper r hr
    · exact (hover r hr).1
    · exact (hover r hr).2
    · exact hKE
  refine ⟨fun r hr => valid_of_bytesLess _ (hvalid r hr), ?_⟩
  induction ranges with
  | nil => exact List.chain'_nil
  | cons r rest ih =>
    cases rest with
    | nil => exact List.chain'_singleton _
    | cons r' rest' =>
      have hkey : r'.key = r.endKey := (List.chain'_cons.mp hchain).1
      have hin : r ∈ r :: r' :: rest' := List.mem_cons_self _ _
      have hin' : r' ∈ r :: r' :: rest' := List.mem_cons_of_mem _ (List.mem_cons_self _ _)
      have hadj : (({ key := K, endKey := E } : Span).Intersect r').key =
          (({ key := K, endKey := E } : Span).Intersect r).endKey := by
        rw [hform r hin, hform r' hin']
        have h1 : bytesLess r.endKey E = true := by
          rw [← hkey]
          exact (hover r' hin').1
        have h2 : bytesLess K r.endKey = true := (hover r hin).2
        simp only [hkey, h1, h2, if_true]
      have hrest := ih (fun x hx => hproper x (List.mem_cons_of_mem _ hx))
        (List.chain'_cons.mp hchain).2
        (fun x hx => hover x (List.mem_cons_of_mem _ hx))
        (fun x hx => hform x (List.mem_cons_of_mem _ hx))
        (fun x hx => hvalid x (List.mem_cons_of_mem _ hx))
      simp only [List.map_cons] at hrest ⊢
      refine List.chain'_cons.mpr ⟨⟨hadj, ?_⟩, hrest⟩
      rw [hadj]
      exact hvalid r hin

/-- A span with no end key, the single key at its start: when contiguous
ranges all overlap it, there is one range, and its intersection with the span
is the span. -/
theorem ranges_of_point (K : Key) (hK : K ≠ []) (ranges : List Span) (hne : ranges ≠ [])
    (hproper : ∀ r ∈ ranges, bytesLess r.key r.endKey = true)
    (hchain : List.Chain' (fun r r' : Span => r'.key = r.endKey) ranges)
    (hover : ∀ r ∈ ranges, ({ key := K, endKey := [] } : Span).Overlaps r = true) :
    ∃ r : Span, ranges = [r] ∧
      ({ key := K, endKey := [] } : Span).Intersect r = { key := K, endKey := [] } := by
  have hlen := length_beq_zero_of_ne_nil K hK
  have hfacts : ∀ r ∈ ranges, bytesLess K r.key = false ∧ bytesLess K r.endKey = true := by
    intro r hr
    have h := hover r hr
    have h2 := length_beq_zero_of_ne_nil _ (ne_nil_of_bytesLess _ _ (hproper r hr))
    simpa [Span.Overlaps, Span.Valid, hlen, h2, hproper r hr] using h
  cases ranges with
  | nil => exact absurd rfl hne
  | cons r rest =>
    cases rest with
    | nil =>
      refine ⟨r, rfl, ?_⟩
      simp [Span.Intersect, hover r (List.mem_cons_self _ _)]
    | cons r' rest' =>
      have hkey : r'.key = r.endKey := (List.chain'_cons.mp hchain).1
      have h1 := (hfacts r (List.mem_cons_self _ _)).2
      have h2 := (hfacts r' (List.mem_cons_of_mem _ (List.mem_cons_self _ _))).1
      rw [hkey, h1] at h2
      cases h2

/-- Marking the last request span changes no span. -/
theorem markLastFinishes_spans (l : List spanAndTime) :
    (markLastFinishes l).map spanAndTime.span = l.map spanAndTime.span := by
  induction l with
  | nil => rfl
  | cons x xs ih =>
    cases xs with
    | nil => rfl
    | cons y ys =>
      simp only [markLastFinishes, List.map_cons] at ih ⊢
      rw [ih]

/-- The body of the loop of `splitSpans` with pre-splitting on, when the loop
over the ranges leaves nothing of the span: the request spans are those of the
ranges, the last one flagged. -/
theorem splitSpan_of_splitRanges (newIterator : Span → Except String (List Span))
    (start end_ : Timestamp) (acc news : List spanAndTime) (fullSpan rest : Span)
    (ranges : List Span) (hit : newIterator fullSpan = .ok ranges)
    (hsplit : splitRanges fullSpan start end_ ranges fullSpan acc = .ok (rest, acc ++ news))
    (hrest : rest.Valid = false) (hne : news ≠ []) :
    splitSpan true newIterator start end_ acc fullSpan =
      .ok (acc ++ markLastFinishes news) := by
  have hlen : (acc ++ news).length ≠ 0 := by
    cases news with
    | nil => exact absurd rfl hne
    | cons x xs => simp
  simp only [splitSpan, hit, hsplit, hrest, if_true]
  simp only [Bool.false_eq_true, if_false, hlen]
  rw [markLastFinishes_append acc news hne]

/-- C11: for a valid assigned span, with pre-splitting off the splitter
appends exactly one request span, the whole assigned span.  With pre-splitting
on and a range iterator that yields ranges of the span in ascending contiguous
order covering the span, it appends one request span per range, whose span is
the intersection of the assigned span with that range; each of these starts at
the end key of the one before, their start keys ascend, the first starts at
the start key of the assigned span and the last ends at its end key. -/
theorem split_span_requests (newIterator : Span → Except String (List Span))
    (start end_ : Timestamp) (acc : List spanAndTime) (fullSpan : Span)
    (hvalid : fullSpan.Valid = true) :
    splitSpan false newIterator start end_ acc fullSpan =
        .ok (acc ++ [{ span := fullSpan, start := start, end_ := end_,
                       finishesSpec := true }]) ∧
      ∀ (ranges : List Span) (first last : Span),
        newIterator fullSpan = .ok ranges →
        (∀ r ∈ ranges, bytesLess r.key r.endKey = true) →
        List.Chain' (fun r r' : Span => r'.key = r.endKey) ranges →
        (∀ r ∈ ranges, fullSpan.Overlaps r = true) →
        ranges.head? = some first → ranges.getLast? = some last →
        bytesLess fullSpan.key first.key = false →
        bytesLess last.endKey fullSpan.endKey = false →
        splitSpan true newIterator start end_ acc fullSpan =
            .ok (acc ++ markLastFinishes (ranges.map fun r =>
              { span := fullSpan.Intersect r, start := start, end_ := end_ })) ∧
          (markLastFinishes (ranges.map fun r =>
              ({ span := fullSpan.Intersect r, start := start, end_ := end_ } :
                spanAndTime))).map spanAndTime.span = ranges.map fullSpan.Intersect ∧
          List.Chain' (fun s s' : Span => s'.key = s.endKey ∧ bytesLess s.key s'.key = true)
            (ranges.map fullSpan.Intersect) ∧
          (∀ r ∈ ranges, (fullSpan.Intersect r).Valid = true) ∧
          (fullSpan.Intersect first).key = fullSpan.key ∧
          (fullSpan.Intersect last).endKey = fullSpan.endKey := by
  constructor
  · have hlen : (acc ++ [({ span := fullSpan, start := start, end_ := end_ } :
        spanAndTime)]).length ≠ 0 := by simp
    simp only [splitSpan, Bool.false_eq_true, if_false, hvalid, if_true, hlen]
    rw [markLastFinishes_append acc _ (by simp)]
    rfl
  · intro ranges first last hit hproper hchain hover hfirst hlast hstart hend
    have hne : ranges ≠ [] := by
      intro h
      rw [h] at hfirst
      cases hfirst
    have hmapne : (ranges.map fun r =>
        ({ span := fullSpan.Intersect r, start := start, end_ := end_ } : spanAndTime)) ≠
        [] := by
      simpa using hne
    have hspans : (markLastFinishes (ranges.map fun r =>
        ({ span := fullSpan.Intersect r, start := start, end_ := end_ } :
          spanAndTime))).map spanAndTime.span = ranges.map fullSpan.Intersect := by
      rw [markLastFinishes_spans, List.map_map]
      rfl
    obtain ⟨K, E⟩ := fullSpan
    by_cases hE : E = []
    · subst hE
      have hK : K ≠ [] := by
        intro h
        subst h
        simp [Span.Valid] at hvalid
      obtain ⟨r, hr, hint⟩ := ranges_of_point K hK ranges hne hproper hchain hover
      subst hr
      have hf : first = r := by simpa using hfirst.symm
      have hl : last = r := by simpa using hlast.symm
      subst hf
      subst hl
      have hsplit : splitRanges { key := K, endKey := [] } start end_ [last]
          { key := K, endKey := [] } acc =
          .ok ({ key := [], endKey := [] },
            acc ++ [last].map fun r =>
              { span := ({ key := K, endKey := [] } : Span).Intersect r,
                start := start, end_ := end_ }) := by
        simp [splitRanges, hint, hvalid]
      refine ⟨splitSpan_of_splitRanges newIterator start end_ acc _ _ _ _ hit hsplit
        (by simp [Span.Valid]) hmapne, hspans, ?_, ?_, ?_, ?_⟩
      · simp
      · intro x hx
        have hx' : x = last := by simpa using hx
        rw [hx', hint]
        exact hvalid
      · rw [hint]
      · rw [hint]
    · have hKE : bytesLess K E = true := by
        have hl := length_beq_zero_of_ne_nil E hE
        simpa [Span.Valid, hl] using hvalid
      have hover' : ∀ r ∈ ranges, bytesLess r.key E = true ∧ bytesLess K r.endKey = true := by
        intro r hr
        have h := hover r hr
        rw [overlaps_proper _ r hE hKE (hproper r hr)] at h
        simpa using h
      have hfirstmem : first ∈ ranges := List.mem_of_mem_head? hfirst
      have hlastmem : last ∈ ranges := List.mem_of_getLast?_eq_some hlast
      obtain ⟨hallvalid, hadj⟩ := intersect_chain K E hE hKE ranges hproper hchain hover'
      obtain ⟨last', hlast', hsplit⟩ := splitRanges_cover K E start end_ hE hKE ranges K acc
        hne hproper hchain hover' hKE (by
          intro r hr
          have hrf : r = first := by
            rw [hfirst] at hr
            exact (Option.some.inj hr).symm
          subst hrf
          refine ⟨hstart, (hover' r hfirstmem).2, ?_⟩
          simp only [] at hstart
          rw [hstart]
          rfl)
      have hll : last' = last := by
        rw [hlast] at hlast'
        exact (Option.some.inj hlast').symm
      subst hll
      simp only [] at hend hstart
      rw [hend] at hsplit
      refine ⟨splitSpan_of_splitRanges newIterator start end_ acc _ _ _ _ hit hsplit
        (by simp [Span.Valid, bytesLess_irrefl]) hmapne, hspans, hadj, hallvalid, ?_, ?_⟩
      · rw [intersect_proper _ first hE hKE (hproper _ hfirstmem) (hover' _ hfirstmem).1
          (hover' _ hfirstmem).2]
        simp only [hstart]
        rfl
      · rw [intersect_proper _ last' hE hKE (hproper _ hlastmem) (hover' _ hlastmem).1
          (hover' _ hlastmem).2]
        simp only [hend]
        rfl

/-- C11, at a concrete input: the span `[a, z)` as one request span, and split
along `ranges3` into `[a, m)`, `[m, q)` and `[q, z)`. -/
theorem split_span_requests_witness :
    Example.spanAZ.Valid = true ∧
      splitSpan false Example.iterator3 {} { wallTime := 100 } [] Example.spanAZ =
        .ok [{ span := Example.spanAZ, end_ := { wallTime := 100 }, finishesSpec := true }] ∧
      splitSpan true Example.iterator3 {} { wallTime := 100 } [] Example.spanAZ =
        .ok [{ span := Example.spanAM, end_ := { wallTime := 100 } },
             { span := Example.spanMQ, end_ := { wallTime := 100 } },
             { span := Example.spanQZ, end_ := { wallTime := 100 }, finishesSpec := true }] ∧
      List.Chain' (fun s s' : Span => s'.key = s.endKey ∧ bytesLess s.key s'.key = true)
        [Example.spanAM, Example.spanMQ, Example.spanQZ] ∧
      Example.spanAM.key = Example.spanAZ.key ∧ Example.spanQZ.endKey = Example.spanAZ.endKey :=
  have h := split_span_requests Example.iterator3 {} { wallTime := 100 } [] Example.spanAZ
    (by decide)
  have h2 := h.2 Example.ranges3 { key := [], endKey := [109] } { key := [113], endKey := [255] }
    rfl (by decide)
    (List.chain'_cons.mpr ⟨rfl, List.chain'_cons.mpr ⟨rfl, List.chain'_singleton _⟩⟩)
    (by decide) rfl rfl (by decide) (by decide)
  ⟨by decide, h.1, h2.1, h2.2.2.1, h2.2.2.2.2.1, h2.2.2.2.2.2⟩

/-! ## The worker pool sizer -/

/-- A value in the range of `int64` is left as it is by the conversion. -/
theorem toInt64_of_isInt64 (x : Int) (h : isInt64 x) : toInt64 x = x := by
  obtain ⟨h1, h2⟩ := h
  unfold toInt64
  omega

/-- The conversion to `int64` gives a value in the range of `int64`. -/
theorem isInt64_toInt64 (x : Int) : isInt64 (toInt64 x) := by
  unfold isInt64 toInt64
  omega

/-- The conversion to `int64` keeps the low 64 bits. -/
theorem toInt64_modEq (x : Int) : toInt64 x ≡ x [ZMOD 18446744073709551616] := by
  unfold Int.ModEq toInt64
  omega

/-- Two integers with the same low 64 bits are the same `int64`. -/
theorem toInt64_congr (a b : Int) (h : a ≡ b [ZMOD 18446744073709551616]) :
    toInt64 a = toInt64 b := by
  unfold Int.ModEq at h
  unfold toInt64
  omega

/-- The loop that adds workers: it adds a worker for each of its first `k`
requests, all of them granted, where `k` is at most the number of passes and
the loop ends early by a refused request only; the account grows by the memory
of one worker for each worker added, a refused `Grow` adding nothing. -/
theorem growWorkers_spec (perWorkerMemory : Int) (grants : Nat → Bool) :
    ∀ (remaining i : Nat) (workerCount : Int) (memAcc : BoundAccount),
      isInt64 workerCount → isInt64 memAcc.used →
      ∃ k : Nat, k ≤ remaining ∧ (∀ j : Nat, j < k → grants (i + j + 1) = true) ∧
        (k < remaining → grants (i + k + 1) = false) ∧
        (growWorkers perWorkerMemory grants remaining i workerCount memAcc).1 =
          toInt64 (workerCount + k) ∧
        (growWorkers perWorkerMemory grants remaining i workerCount memAcc).2.used =
          toInt64 (memAcc.used + k * perWorkerMemory) := by
  intro remaining
  induction remaining with
  | zero =>
    intro i workerCount memAcc hw hm
    refine ⟨0, le_refl _, fun j hj => absurd hj (Nat.not_lt_zero j),
      fun h => absurd h (Nat.lt_irrefl 0), ?_, ?_⟩
    · simp [growWorkers, toInt64_of_isInt64 _ hw]
    · simp [growWorkers, toInt64_of_isInt64 _ hm]
  | succ n ih =>
    intro i workerCount memAcc hw hm
    cases hg : grants (i + 1) with
    | false =>
      refine ⟨0, Nat.zero_le _, fun j hj => absurd hj (Nat.not_lt_zero j), fun _ => hg, ?_, ?_⟩
      · simp [growWorkers, BoundAccount.Grow, hg, toInt64_of_isInt64 _ hw]
      · simp [growWorkers, BoundAccount.Grow, hg, toInt64_of_isInt64 _ hm]
    | true =>
      obtain ⟨k, hk, hall, hstop, h1, h2⟩ := ih (i + 1) (toInt64 (workerCount + 1))
        { used := toInt64 (memAcc.used + perWorkerMemory) }
        (isInt64_toInt64 _) (isInt64_toInt64 _)
      refine ⟨k + 1, Nat.succ_le_succ hk, ?_, ?_, ?_, ?_⟩
      · intro j hj
        cases j with
        | zero => exact hg
        | succ j =>
          have := hall j (by omega)
          rw [← this]
          congr 1
          omega
      · intro hlt
        have := hstop (by omega)
        rw [← this]
        congr 1
        omega
      · simp only [growWorkers, BoundAccount.Grow, hg, if_true]
        rw [h1]
        apply toInt64_congr
        have := toInt64_modEq (workerCount + 1)
        have h3 := this.add_right (k : Int)
        refine h3.trans ?_
        push_cast
        rw [add_assoc, add_comm (1 : Int) (k : Int)]
      · simp only [growWorkers, BoundAccount.Grow, hg, if_true]
        rw [h2]
        apply toInt64_congr
        have := toInt64_modEq (memAcc.used + perWorkerMemory)
        have h3 := this.add_right ((k : Int) * perWorkerMemory)
        refine h3.trans ?_
        push_cast
        have : memAcc.used + perWorkerMemory + (k : Int) * perWorkerMemory =
            memAcc.used + ((k : Int) + 1) * perWorkerMemory := by ring
        rw [this]

/-- A successful `reserveWorkerMemory`: the reservation for the minimum was
granted, and the loop added `k` workers, one for each of its first `k`
requests, where `k` is at most the bound of the loop. -/
theorem reserveWorkerMemory_ok (exportRequestsLimit perWorkerMemory : Int)
    (grants : Nat → Bool) (memAcc : BoundAccount) (r : Reserved)
    (h : reserveWorkerMemory exportRequestsLimit perWorkerMemory grants memAcc = .ok r) :
    grants 0 = true ∧
      ∃ k : Nat,
        k ≤ (toInt64 (toInt64 (toInt64 exportRequestsLimit * 2) - minimumWorkerCount)).toNat ∧
        (∀ j : Nat, j < k → grants (j + 1) = true) ∧
        r.workerCount = toInt64 (minimumWorkerCount + k) ∧
        r.account.used =
          toInt64 (memAcc.used + (minimumWorkerCount + k) * perWorkerMemory) ∧
        r.release = fun account =>
          account.Shrink (toInt64 (toInt64 r.workerCount * perWorkerMemory)) := by
  cases hg : grants 0 with
  | false => simp [reserveWorkerMemory, BoundAccount.Grow, hg] at h
  | true =>
    simp only [reserveWorkerMemory, BoundAccount.Grow, hg, if_true] at h
    have hr := (Except.ok.inj h).symm
    obtain ⟨k, hk, hall, _, h1, h2⟩ := growWorkers_spec perWorkerMemory grants
      (toInt64 (toInt64 (toInt64 exportRequestsLimit * 2) - minimumWorkerCount)).toNat 0
      minimumWorkerCount
      { used := toInt64 (memAcc.used + toInt64 (minimumWorkerCount * perWorkerMemory)) }
      (by unfold isInt64 minimumWorkerCount; omega) (isInt64_toInt64 _)
    refine ⟨rfl, k, hk, fun j hj => by have := hall j hj; rwa [Nat.zero_add] at this, ?_, ?_, ?_⟩
    · rw [hr]
      exact h1
    · rw [hr]
      simp only []
      rw [h2]
      apply toInt64_congr
      have h3 := ((toInt64_modEq (minimumWorkerCount * perWorkerMemory)).add_left
        memAcc.used).trans (Int.ModEq.refl _)
      have h4 := (toInt64_modEq
        (memAcc.used + toInt64 (minimumWorkerCount * perWorkerMemory))).trans h3
      have h5 := h4.add_right ((k : Int) * perWorkerMemory)
      refine h5.trans ?_
      have : memAcc.used + minimumWorkerCount * perWorkerMemory + (k : Int) * perWorkerMemory =
          memAcc.used + (minimumWorkerCount + (k : Int)) * perWorkerMemory := by ring
      rw [this]
    · rw [hr]

/-- Why the limit is taken to be positive: at a limit of 0 the function
reserves the memory of the minimum of 2 workers and returns 2, which is above
twice the limit. -/
theorem worker_count_at_limit_zero :
    ∃ r : Reserved,
      reserveWorkerMemory 0 8 (fun _ => true) { used := 0 } = .ok r ∧ r.workerCount = 2 :=
  ⟨{ workerCount := 2, release := fun memAcc => memAcc.Shrink (2 * 8),
     account := { used := 16 } }, rfl, rfl⟩

/-- At the largest limit, where twice the limit is not an `int` and
`maxWorkerCount` wraps to -2, the loop is not entered and the function returns
the minimum of 2 workers. -/
theorem worker_count_at_largest_limit :
    ∃ r : Reserved,
      reserveWorkerMemory 9223372036854775807 8 (fun _ => true) { used := 0 } = .ok r ∧
        r.workerCount = 2 ∧ r.account.used = 16 :=
  ⟨{ workerCount := 2, release := fun memAcc => memAcc.Shrink (2 * 8),
     account := { used := 16 } }, rfl, rfl, rfl⟩

/-- C18: whenever `reserveWorkerMemory` succeeds, the worker count N it
returns satisfies minimumWorkerCount ≤ N ≤ cap, where minimumWorkerCount = 2
and cap = 2 × ExportRequestsLimit.  The setting is a positive `int64`.  At
the one limit 2^62, where `maxWorkerCount` wraps to the least `int` and the
bound of the loop to 2^63 - 2, the monitor is taken to refuse one of the
first 2^63 - 2 requests of the loop. -/
theorem worker_count_bounds (exportRequestsLimit perWorkerMemory : Int)
    (grants : Nat → Bool) (memAcc : BoundAccount) (r : Reserved)
    (hpos : 1 ≤ exportRequestsLimit) (hint : exportRequestsLimit ≤ 9223372036854775807)
    (hstop : exportRequestsLimit = 4611686018427387904 →
      ∃ k : Nat, k < 9223372036854775806 ∧ grants (k + 1) = false)
    (h : reserveWorkerMemory exportRequestsLimit perWorkerMemory grants memAcc = .ok r) :
    minimumWorkerCount = 2 ∧ minimumWorkerCount ≤ r.workerCount ∧
      r.workerCount ≤ 2 * exportRequestsLimit := by
  obtain ⟨_, k, hk, hall, hw, _, _⟩ := reserveWorkerMemory_ok _ _ _ _ _ h
  have hmin : minimumWorkerCount = 2 := rfl
  rw [hmin] at hk hw ⊢
  refine ⟨rfl, ?_⟩
  rw [hw]
  by_cases h62 : exportRequestsLimit = 4611686018427387904
  · obtain ⟨k0, hk0, hfalse⟩ := hstop h62
    have hle : k ≤ k0 := by
      by_contra hlt
      have := hall k0 (by omega)
      rw [this] at hfalse
      cases hfalse
    unfold toInt64 at hk ⊢
    omega
  · unfold toInt64 at hk ⊢
    omega

/-- C18, at a concrete input: a limit of 3 export requests, 8 bytes per
worker and a monitor that grants three requests give 4 workers, between 2 and
the cap 6. -/
theorem worker_count_bounds_witness :
    reserveWorkerMemory 3 8 Example.grantsThree { used := 0 } = .ok Example.reservedFour ∧
      (minimumWorkerCount = 2 ∧ minimumWorkerCount ≤ Example.reservedFour.workerCount ∧
        Example.reservedFour.workerCount ≤ 2 * 3) :=
  ⟨rfl, worker_count_bounds 3 8 Example.grantsThree { used := 0 } Example.reservedFour
    (by decide) (by decide) (fun h => absurd h (by decide)) rfl⟩

/-- C19: whenever `reserveWorkerMemory` succeeds with worker count N, the
account, whose balance is an `int64`, has grown by exactly
N × perWorkerMemory, a failed `Grow` having reserved nothing; the returned
release closure shrinks the account by exactly that amount, so the balance of
the account after release is its balance before the call.  The amounts are
those of the `int64` arithmetic of the code; they are the plain sums and
products whenever these are in the range of `int64`. -/
theorem release_returns_reserved (exportRequestsLimit perWorkerMemory : Int)
    (grants : Nat → Bool) (memAcc : BoundAccount) (r : Reserved)
    (hacc : isInt64 memAcc.used)
    (h : reserveWorkerMemory exportRequestsLimit perWorkerMemory grants memAcc = .ok r) :
    r.account.used = toInt64 (memAcc.used + toInt64 (r.workerCount * perWorkerMemory)) ∧
      (∀ account : BoundAccount,
        (r.release account).used =
          toInt64 (account.used - toInt64 (r.workerCount * perWorkerMemory))) ∧
      r.release r.account = memAcc ∧
      (isInt64 (r.workerCount * perWorkerMemory) →
        isInt64 (memAcc.used + r.workerCount * perWorkerMemory) →
        r.account.used = memAcc.used + r.workerCount * perWorkerMemory ∧
          (r.release r.account).used = r.account.used - r.workerCount * perWorkerMemory) := by
  obtain ⟨_, k, _, _, hw, hused, hrel⟩ := reserveWorkerMemory_ok _ _ _ _ _ h
  have hwint : toInt64 r.workerCount = r.workerCount := by
    rw [hw]
    exact toInt64_of_isInt64 _ (isInt64_toInt64 _)
  have hprod : r.workerCount * perWorkerMemory ≡
      (minimumWorkerCount + (k : Int)) * perWorkerMemory [ZMOD 18446744073709551616] := by
    rw [hw]
    exact (toInt64_modEq _).mul_right _
  have h1 : r.account.used =
      toInt64 (memAcc.used + toInt64 (r.workerCount * perWorkerMemory)) := by
    rw [hused]
    apply toInt64_congr
    exact (((toInt64_modEq (r.workerCount * perWorkerMemory)).trans hprod).add_left
      memAcc.used).symm
  have h2 : ∀ account : BoundAccount,
      r.release account =
        { used := toInt64 (account.used - toInt64 (r.workerCount * perWorkerMemory)) } := by
    intro account
    rw [hrel, hwint]
    rfl
  have h3 : r.release r.account = memAcc := by
    rw [h2, h1]
    cases memAcc with
    | mk used =>
      simp only [BoundAccount.mk.injEq]
      obtain ⟨hlo, hhi⟩ := hacc
      simp only [] at hlo hhi
      generalize toInt64 (r.workerCount * perWorkerMemory) = x
      unfold toInt64
      omega
  refine ⟨h1, fun account => by rw [h2 account], h3, ?_⟩
  intro hp hs
  have hplain : r.account.used = memAcc.used + r.workerCount * perWorkerMemory := by
    rw [h1, toInt64_of_isInt64 _ hp, toInt64_of_isInt64 _ hs]
  refine ⟨hplain, ?_⟩
  rw [h3, hplain]
  ring

/-- C19, at a concrete input: 4 workers of 8 bytes reserve 32 bytes of an
account that held 5, and the release closure brings it back to 5. -/
theorem release_returns_reserved_witness :
    reserveWorkerMemory 3 8 Example.grantsThree { used := 5 } =
        .ok { Example.reservedFour with account := { used := 37 } } ∧
      ((37 : Int) = 5 + 4 * 8 ∧
        Example.reservedFour.release { used := 37 } = { used := 5 }) :=
  ⟨rfl,
    ((release_returns_reserved 3 8 Example.grantsThree { used := 5 }
      { Example.reservedFour with account := { used := 37 } } ⟨by decide, by decide⟩ rfl).2.2.2
        ⟨by decide, by decide⟩ ⟨by decide, by decide⟩).1,
    (release_returns_reserved 3 8 Example.grantsThree { used := 5 }
      { Example.reservedFour with account := { used := 37 } } ⟨by decide, by decide⟩ rfl).2.2.1⟩

/-! ## The chunks of the initial fill -/

/-- C28: the initial fill of `todo` loses, duplicates and reorders nothing:
with and without pre-splitting, the chunks on the queue, one after the other
in queue order, are the request spans. -/
theorem initial_fill_keeps_request_spans (numSenders : Nat)
    (requestSpans : List spanAndTime) :
    (initialTodo true numSenders requestSpans).flatten = requestSpans ∧
      (initialTodo false numSenders requestSpans).flatten = requestSpans :=
  ⟨initialTodo_flatten true numSenders requestSpans,
    initialTodo_flatten false numSenders requestSpans⟩

set_option maxRecDepth 100000 in
/-- C26, at the failing input: with pre-splitting on, two workers and 792
request spans, `chunkSize` is `maxChunkSize` = 100, and the fill sends a chunk
when it holds more than `chunkSize` spans: seven chunks of 101 spans and one
of 85. -/
theorem initial_chunk_of_101 :
    chunkSizeFor (List.replicate 792 Example.requestAZ) 2 = maxChunkSize ∧
      (initialTodo true 2 (List.replicate 792 Example.requestAZ)).map List.length =
        [101, 101, 101, 101, 101, 101, 101, 85] := by
  decide

/-! ## Workers that return without an error -/

/-- A worker returns without an error only from the `default` branch of its
`select`, which is taken when the queue is empty, with a flush that does not
fail. -/
theorem Worker.step_returned_nil (c : ProcessorCtx) (w w' : Worker)
    (todo todo' : List (List spanAndTime)) (a : Action)
    (h : w.step c todo a = some (w', todo')) (hret : w'.control = .returned none) :
    a = .noWork false ∧ w.control = .atSelect ∧ todo = [] ∧ todo' = [] := by
  cases a with
  | ctxDone =>
    cases hctl : w.control with
    | atSelect =>
      simp only [Worker.step, hctl, Option.some.injEq, Prod.mk.injEq] at h
      obtain ⟨hw, _⟩ := h
      subst hw
      simp at hret
    | inChunk span rest => simp [Worker.step, hctl] at h
    | returned err => simp [Worker.step, hctl] at h
  | receive =>
    cases hctl : w.control with
    | atSelect =>
      cases todo with
      | nil => simp [Worker.step, hctl] at h
      | cons spans queue =>
        simp only [Worker.step, hctl, Option.some.injEq, Prod.mk.injEq] at h
        obtain ⟨hw, _⟩ := h
        subst hw
        cases spans <;> simp [rangeSpans] at hret
    | inChunk span rest => simp [Worker.step, hctl] at h
    | returned err => simp [Worker.step, hctl] at h
  | noWork flushFails =>
    cases hctl : w.control with
    | atSelect =>
      cases todo with
      | nil =>
        simp only [Worker.step, hctl, Option.some.injEq, Prod.mk.injEq] at h
        obtain ⟨hw, ht⟩ := h
        subst hw
        cases flushFails with
        | false => exact ⟨rfl, rfl, rfl, ht.symm⟩
        | true => simp at hret
      | cons spans queue => simp [Worker.step, hctl] at h
    | inChunk span rest => simp [Worker.step, hctl] at h
    | returned err => simp [Worker.step, hctl] at h
  | exportPass inp =>
    cases hctl : w.control with
    | atSelect => simp [Worker.step, hctl] at h
    | returned err => simp [Worker.step, hctl] at h
    | inChunk span rest =>
      by_cases hkey : span.span.key.length ≠ 0
      · simp only [Worker.step, hctl, hkey, if_true, Option.some.injEq, Prod.mk.injEq,
          ne_eq, not_false_eq_true] at h
        obtain ⟨hw, _⟩ := h
        subst hw
        simp only [] at hret
        split at hret <;> simp at hret
      · simp [Worker.step, hctl, hkey] at h
  | nextSpan =>
    cases hctl : w.control with
    | atSelect => simp [Worker.step, hctl] at h
    | returned err => simp [Worker.step, hctl] at h
    | inChunk span rest =>
      by_cases hkey : span.span.key.length ≠ 0
      · simp [Worker.step, hctl, hkey] at h
      · simp only [Worker.step, hctl, hkey, if_false, Option.some.injEq, Prod.mk.injEq] at h
        obtain ⟨hw, _⟩ := h
        subst hw
        cases rest <;> simp [rangeSpans] at hret

/-- C25: a worker returns without an error only from the branch of its
`select` taken when the queue is observed empty; so after every interleaving
of the steps of the workers that starts from the initial fill, when all
workers have returned without an error the queue is empty. -/
theorem no_retry_is_lost (c : ProcessorCtx) (rangeSizedSpans : Bool) (numSenders : Nat)
    (requestSpans : List spanAndTime) (hworkers : 0 < numSenders) :
    (∀ (w w' : Worker) (todo todo' : List (List spanAndTime)) (a : Action),
      w.step c todo a = some (w', todo') → w'.control = .returned none →
        a = .noWork false ∧ w.control = .atSelect ∧ todo = [] ∧ todo' = []) ∧
      ∀ (sched : Schedule) (s : State),
        State.run c (State.init rangeSizedSpans numSenders requestSpans) sched = some s →
        s.allReturnedNil = true → s.todo = [] := by
  refine ⟨fun w w' todo todo' a h hret => Worker.step_returned_nil c w w' todo todo' a h hret,
    ?_⟩
  intro sched s hrun hall
  have hinit : (State.init rangeSizedSpans numSenders requestSpans).todo = [] ∨
      (State.init rangeSizedSpans numSenders requestSpans).allReturnedNil = false := by
    right
    cases numSenders with
    | zero => exact absurd hworkers (by decide)
    | succ n => simp [State.init, State.allReturnedNil, List.replicate]
  have hinv := State.run_invariant c
    (fun s => s.todo = [] ∨ s.allReturnedNil = false)
    (fun s s' i a _ hstep => State.step_keeps_live c s s' i a hstep)
    sched _ s hinit hrun
  rcases hinv with h | h
  · exact h
  · rw [hall] at h
    cases h

/-- C25, at a concrete input: two workers and the request span `[a, z)`;
worker 0 exports it in one response, and both workers find the queue
empty. -/
theorem no_retry_is_lost_witness :
    State.run Example.ctx (State.init false 2 [Example.requestAZ])
        [(0, .receive), (1, .noWork false),
         (0, .exportPass (Example.input true (.succeeded Example.responseAZ))),
         (0, .nextSpan), (0, .noWork false)] = some Example.doneState ∧
      Example.doneState.allReturnedNil = true ∧ Example.doneState.todo = [] :=
  ⟨by decide, by decide,
    (no_retry_is_lost Example.ctx false 2 [Example.requestAZ] (by decide)).2
      [(0, .receive), (1, .noWork false),
       (0, .exportPass (Example.input true (.succeeded Example.responseAZ))),
       (0, .nextSpan), (0, .noWork false)] Example.doneState (by decide) (by decide)⟩

/-! ## What the sink is handed for a file -/

/-- A timestamp is empty exactly when it is the zero value. -/
theorem Timestamp.isEmpty_iff (t : Timestamp) : t.IsEmpty = true ↔ t = {} := by
  cases t with
  | mk wallTime logical =>
    simp [Timestamp.IsEmpty]

/-- The `exportedSpan` built from a file carries the span, the path and the
SST of the file and the start time of the response, and is at a key boundary
exactly when the file does not end in the middle of a key. -/
theorem exportedSpanFor_file (c : ProcessorCtx) (span : spanAndTime) (resp : ExportResponse)
    (completedSpans : Int) (i : Nat) (file : ExportResponse_File) :
    (exportedSpanFor c span resp completedSpans i file).atKeyBoundary = file.endKeyTS.IsEmpty ∧
      (exportedSpanFor c span resp completedSpans i file).metadata.span = file.span ∧
      (exportedSpanFor c span resp completedSpans i file).metadata.path = file.path ∧
      (exportedSpanFor c span resp completedSpans i file).dataSST = file.sst ∧
      (exportedSpanFor c span resp completedSpans i file).revStart = resp.startTime := by
  unfold exportedSpanFor
  by_cases h1 : span.start ≠ c.backupStartTime <;> by_cases h2 : i = resp.files.length - 1 <;>
    simp [h1, h2]

/-- Every call the loop over the files makes on the sink is a `write` of the
`exportedSpan` built from one of the files. -/
theorem writeFiles_mem (c : ProcessorCtx) (span : spanAndTime) (resp : ExportResponse)
    (completedSpans : Int) (sinkFailsAt : Option Nat) (files : List ExportResponse_File) :
    ∀ (i : Nat) (call : SinkCall),
      call ∈ (writeFiles c span resp completedSpans sinkFailsAt i files).1 →
      ∃ (k : Nat) (file : ExportResponse_File), files[k]? = some file ∧
        call = .write (exportedSpanFor c span resp completedSpans (i + k) file) := by
  induction files with
  | nil =>
    intro i call h
    simp [writeFiles] at h
  | cons file files ih =>
    intro i call h
    unfold writeFiles at h
    by_cases hfail : sinkFailsAt = some i
    · simp only [hfail, if_true, List.mem_singleton] at h
      exact ⟨0, file, by simp, h⟩
    · simp only [hfail, if_false, List.mem_cons] at h
      rcases h with h | h
      · exact ⟨0, file, by simp, h⟩
      · obtain ⟨k, f, hk, hcall⟩ := ih (i + 1) call h
        refine ⟨k + 1, f, by simpa using hk, ?_⟩
        rw [hcall]
        congr 2
        omega

/-- C23: every `exportedSpan` a worker hands to `sink.write` for a successful
response is built from a file of the response: it has `atKeyBoundary = true`
if and only if the `EndKeyTS` of the file is the empty timestamp, and it
carries the span, the path and the SST of the file and the `StartTime` of the
response as `revStart`.  When the resume span is absent or valid and no
`sink.write` before the last one fails, every file is handed over, in
order. -/
theorem exported_span_of_file (c : ProcessorCtx) (inp : IterationInput) (span : spanAndTime)
    (resp : ExportResponse) :
    (∀ call ∈ (handleResponse c inp span resp).sinkCalls, call.isWrite = true →
      ∃ (i : Nat) (file : ExportResponse_File), resp.files[i]? = some file ∧
        (call.arg.atKeyBoundary = true ↔ file.endKeyTS = {}) ∧
        call.arg.metadata.span = file.span ∧ call.arg.metadata.path = file.path ∧
        call.arg.dataSST = file.sst ∧ call.arg.revStart = resp.startTime) ∧
      ((∀ resume, resp.resumeSpan = some resume → resume.Valid = true) →
        (∀ j, inp.sinkFailsAt = some j → resp.files.length ≤ j + 1) →
        ((handleResponse c inp span resp).sinkCalls.filter SinkCall.isWrite).map
            (fun call => (call.arg.atKeyBoundary, call.arg.metadata.span,
              call.arg.metadata.path, call.arg.dataSST, call.arg.revStart)) =
          resp.files.map
            (fun file => (file.endKeyTS.IsEmpty, file.span, file.path, file.sst,
              resp.startTime))) := by
  constructor
  · intro call hcall hwrite
    have hmem : call ∈ (writeFiles c span resp (completedSpansFor span resp) inp.sinkFailsAt 0
        resp.files).1 := by
      unfold handleResponse at hcall
      cases hr : resp.resumeSpan with
      | none =>
        simp only [hr] at hcall
        split at hcall <;>
          · simp only [List.mem_append] at hcall
            rcases hcall with h | h
            · split at h
              · simp only [List.mem_singleton] at h
                rw [h] at hwrite
                cases hwrite
              · cases h
            · exact h
      | some resume =>
        simp only [hr] at hcall
        by_cases hv : resume.Valid = true
        · simp only [hv, Bool.not_true, Bool.false_eq_true, if_false] at hcall
          split at hcall <;>
            · simp only [List.mem_append] at hcall
              rcases hcall with h | h
              · split at h
                · simp only [List.mem_singleton] at h
                  rw [h] at hwrite
                  cases hwrite
                · cases h
              · exact h
        · simp [hv] at hcall
    obtain ⟨k, file, hk, hcall'⟩ := writeFiles_mem c span resp _ _ resp.files 0 call hmem
    obtain ⟨h1, h2, h3, h4, h5⟩ :=
      exportedSpanFor_file c span resp (completedSpansFor span resp) (0 + k) file
    refine ⟨k, file, hk, ?_, ?_, ?_, ?_, ?_⟩
    · rw [hcall', SinkCall.arg, h1]
      exact Timestamp.isEmpty_iff _
    · rw [hcall', SinkCall.arg, h2]
    · rw [hcall', SinkCall.arg, h3]
    · rw [hcall', SinkCall.arg, h4]
    · rw [hcall', SinkCall.arg, h5]
  · intro hresume hsink
    have hcalls : (handleResponse c inp span resp).sinkCalls =
        (if resp.files.length = 0 then
            [SinkCall.writeWithNoData { completedSpans := completedSpansFor span resp }]
          else []) ++
          (resp.files.enumFrom 0).map
            (fun p => SinkCall.write
              (exportedSpanFor c span resp (completedSpansFor span resp) p.1 p.2)) := by
      have hw := writeFiles_calls c span resp (completedSpansFor span resp) inp.sinkFailsAt
        resp.files 0 (fun j hj => by have := hsink j hj; omega)
      unfold handleResponse
      cases hr : resp.resumeSpan with
      | none =>
        simp only []
        split <;> simp [hw]
      | some resume =>
        have hv := hresume resume hr
        simp only [hv, Bool.not_true, Bool.false_eq_true, if_false]
        split <;> simp [hw]
    rw [hcalls, List.filter_append]
    have hnone : (if resp.files.length = 0 then
        [SinkCall.writeWithNoData { completedSpans := completedSpansFor span resp }]
        else []).filter SinkCall.isWrite = [] := by
      split <;> simp [SinkCall.isWrite]
    have hall : ((resp.files.enumFrom 0).map
        (fun p => SinkCall.write
          (exportedSpanFor c span resp (completedSpansFor span resp) p.1 p.2))).filter
        SinkCall.isWrite =
        (resp.files.enumFrom 0).map
          (fun p => SinkCall.write
            (exportedSpanFor c span resp (completedSpansFor span resp) p.1 p.2)) := by
      rw [List.filter_eq_self]
      intro call hcall
      obtain ⟨p, _, rfl⟩ := List.mem_map.mp hcall
      rfl
    rw [hnone, hall, List.nil_append, List.map_map]
    have hfun : ((fun call : SinkCall => (call.arg.atKeyBoundary, call.arg.metadata.span,
          call.arg.metadata.path, call.arg.dataSST, call.arg.revStart)) ∘
        fun p : Nat × ExportResponse_File => SinkCall.write
          (exportedSpanFor c span resp (completedSpansFor span resp) p.1 p.2)) =
        (fun file : ExportResponse_File => (file.endKeyTS.IsEmpty, file.span, file.path,
          file.sst, resp.startTime)) ∘ Prod.snd := by
      funext p
      obtain ⟨h1, h2, h3, h4, h5⟩ :=
        exportedSpanFor_file c span resp (completedSpansFor span resp) p.1 p.2
      simp only [Function.comp, SinkCall.arg, h1, h2, h3, h4, h5]
    rw [hfun, ← List.map_map]
    simp [List.enumFrom_map_snd]

/-- C23, at a concrete input: the response with the file `[a, m)` that ends
in the middle of a key, at time 5. -/
theorem exported_span_of_file_witness :
    ((handleResponse Example.ctx (Example.input true (.succeeded Example.responseAM))
        Example.requestAZ Example.responseAM).sinkCalls.filter SinkCall.isWrite).map
        (fun call => (call.arg.atKeyBoundary, call.arg.metadata.span,
          call.arg.metadata.path, call.arg.dataSST, call.arg.revStart)) =
      Example.responseAM.files.map
        (fun file => (file.endKeyTS.IsEmpty, file.span, file.path, file.sst,
          Example.responseAM.startTime)) :=
  (exported_span_of_file Example.ctx (Example.input true (.succeeded Example.responseAM))
    Example.requestAZ Example.responseAM).2 (by decide) (by decide)

/-! ## The destination of the files -/

/-- The loop over the tiers stops at the first tier, from the last one back,
that is a key of the map. -/
theorem matchLocality_found (uris : List (String × String)) (t u : String)
    (hfound : List.lookup t uris = some u) :
    ∀ (before after : List String), (∀ x ∈ before, List.lookup x uris = none) →
      matchLocality uris (before ++ t :: after) = (u, t) := by
  intro before
  induction before with
  | nil =>
    intro after _
    simp [matchLocality, hfound]
  | cons x xs ih =>
    intro after hnone
    have hx := hnone x (List.mem_cons_self _ _)
    simp only [List.cons_append, matchLocality, hx]
    exact ih after (fun y hy => hnone y (List.mem_cons_of_mem _ hy))

/-- When no tier is a key of the map, the loop over the tiers finds
nothing. -/
theorem matchLocality_none (uris : List (String × String)) :
    ∀ tiers : List String, (∀ x ∈ tiers, List.lookup x uris = none) →
      matchLocality uris tiers = ("", "") := by
  intro tiers
  induction tiers with
  | nil => intro _; rfl
  | cons x xs ih =>
    intro hnone
    have hx := hnone x (List.mem_cons_self _ _)
    simp only [matchLocality, hx]
    exact ih (fun y hy => hnone y (List.mem_cons_of_mem _ hy))

/-- C21, as stated, fails: with the test flag that discards the backup data
set, the destination is `null:///discard` and not the URI of the matching
tier; and a matching tier whose URI is the empty string leaves the destination
at the default URI, with the tier as the tag. -/
theorem destination_not_of_matching_tier :
    List.lookup "region=us" [("region=us", "nodelocal://1/us")] = some "nodelocal://1/us" ∧
      destinationFor "nodelocal://1/default" [("region=us", "nodelocal://1/us")]
          ["region=us"] true = ("null:///discard", "region=us") ∧
      List.lookup "region=us" [("region=us", "")] = some "" ∧
      destinationFor "nodelocal://1/default" [("region=us", "")] ["region=us"] false =
        ("nodelocal://1/default", "region=us") := by
  decide

/-- C21, amended: when locality-keyed URIs are configured, the locality tag
is the most specific (last) locality tier `t` of the node whose string is a
key of `URIsByLocalityKV`, and the empty tag if no tier is a key.  With the
test flag that discards the backup data off, the destination URI is
`URIsByLocalityKV[t]` when that URI is not the empty string, and `DefaultURI`
when no tier is a key; with the flag on it is `null:///discard`.  The tag is
stamped on the metadata of every file handed to the sink. -/
theorem destination_by_locality (defaultURI : String) (uris : List (String × String))
    (tiers : List String) (discard : Bool) (hconf : uris.length > 0) :
    (∀ (pre post : List String) (t u : String), tiers = pre ++ t :: post →
      List.lookup t uris = some u → (∀ x ∈ post, List.lookup x uris = none) →
      (destinationFor defaultURI uris tiers discard).2 = t ∧
        (u ≠ "" → discard = false → destinationFor defaultURI uris tiers discard = (u, t))) ∧
      ((∀ x ∈ tiers, List.lookup x uris = none) →
        (destinationFor defaultURI uris tiers discard).2 = "" ∧
          (discard = false → destinationFor defaultURI uris tiers discard = (defaultURI, ""))) ∧
      (discard = true → (destinationFor defaultURI uris tiers discard).1 = "null:///discard") ∧
      ∀ (c : ProcessorCtx) (inp : IterationInput) (span : spanAndTime) (resp : ExportResponse),
        c.destLocalityKV = (destinationFor defaultURI uris tiers discard).2 →
        ∀ call ∈ (handleResponse c inp span resp).sinkCalls, call.isWrite = true →
          call.arg.metadata.localityKV = (destinationFor defaultURI uris tiers discard).2 := by
  refine ⟨?_, ?_, ?_, ?_⟩
  · intro pre post t u htiers hfound hpost
    have hrev : tiers.reverse = post.reverse ++ t :: pre.reverse := by
      rw [htiers]
      simp
    have hmatch : matchLocality uris tiers.reverse = (u, t) := by
      rw [hrev]
      exact matchLocality_found uris t u hfound _ _
        (fun x hx => hpost x (List.mem_reverse.mp hx))
    constructor
    · simp only [destinationFor, hconf, if_true, hmatch]
      split <;> rfl
    · intro hu hd
      simp [destinationFor, hconf, hmatch, hu, hd]
  · intro hnone
    have hmatch : matchLocality uris tiers.reverse = ("", "") :=
      matchLocality_none uris _ (fun x hx => hnone x (List.mem_reverse.mp hx))
    constructor
    · simp [destinationFor, hconf, hmatch]
    · intro hd
      simp [destinationFor, hconf, hmatch, hd]
  · intro hd
    simp [destinationFor, hd]
  · intro c inp span resp hc call hcall hwrite
    have hmem : ∃ (k : Nat) (file : ExportResponse_File),
        call = .write (exportedSpanFor c span resp (completedSpansFor span resp) k file) := by
      have hin : call ∈ (writeFiles c span resp (completedSpansFor span resp)
          inp.sinkFailsAt 0 resp.files).1 := by
        unfold handleResponse at hcall
        cases hr : resp.resumeSpan with
        | none =>
          simp only [hr] at hcall
          split at hcall <;>
            · simp only [List.mem_append] at hcall
              rcases hcall with h | h
              · split at h
                · simp only [List.mem_singleton] at h
                  rw [h] at hwrite
                  cases hwrite
                · cases h
              · exact h
        | some resume =>
          simp only [hr] at hcall
          by_cases hv : resume.Valid = true
          · simp only [hv, Bool.not_true, Bool.false_eq_true, if_false] at hcall
            split at hcall <;>
              · simp only [List.mem_append] at hcall
                rcases hcall with h | h
                · split at h
                  · simp only [List.mem_singleton] at h
                    rw [h] at hwrite
                    cases hwrite
                  · cases h
                · exact h
          · simp [hv] at hcall
      obtain ⟨k, file, _, hk⟩ := writeFiles_mem c span resp _ _ resp.files 0 call hin
      exact ⟨0 + k, file, hk⟩
    obtain ⟨k, file, hk⟩ := hmem
    rw [hk, ← hc]
    unfold exportedSpanFor SinkCall.arg
    by_cases h1 : span.start ≠ c.backupStartTime <;>
      by_cases h2 : k = resp.files.length - 1 <;> simp [h1, h2]

/-- C21, amended, at a concrete input: the tiers `region=us` and `zone=a` of
the node, of which only `region=us` is a key of the map. -/
theorem destination_by_locality_witness :
    destinationFor "nodelocal://1/default" [("region=us", "nodelocal://1/us")]
        ["region=us", "zone=a"] false = ("nodelocal://1/us", "region=us") :=
  ((destination_by_locality "nodelocal://1/default" [("region=us", "nodelocal://1/us")]
    ["region=us", "zone=a"] false (by decide)).1 [] ["zone=a"] "region=us"
    "nodelocal://1/us" rfl (by decide) (by decide)).2 (by decide) rfl

/-! ## The progress reporter -/

/-- Converting a sum whose first term was converted is converting the sum. -/
theorem toInt32_add (a b : Int) : toInt32 (toInt32 a + b) = toInt32 (a + b) := by
  unfold toInt32
  omega

/-- Converting twice is converting once. -/
theorem toInt32_idem (a : Int) : toInt32 (toInt32 a) = toInt32 a := by
  unfold toInt32
  omega

/-- A value in the range of `int32` is its own conversion. -/
theorem toInt32_of_range (x : Int) (hlo : -2147483648 ≤ x) (hhi : x < 2147483648) :
    toInt32 x = x := by
  unfold toInt32
  omega

/-- A message whose details do not unmarshal adds nothing to the sum. -/
theorem completedOf_cons_none (unmarshalAny : List Nat → Option BackupManifest_Progress)
    (prog : BulkProcessorProgress) (progs : List BulkProcessorProgress)
    (hu : unmarshalAny prog.progressDetails = none) :
    completedOf unmarshalAny (prog :: progs) = completedOf unmarshalAny progs := by
  simp [completedOf, hu]

/-- A message whose details unmarshal adds its `CompletedSpans` to the sum. -/
theorem completedOf_cons_some (unmarshalAny : List Nat → Option BackupManifest_Progress)
    (prog : BulkProcessorProgress) (progs : List BulkProcessorProgress)
    (d : BackupManifest_Progress) (hu : unmarshalAny prog.progressDetails = some d) :
    completedOf unmarshalAny (prog :: progs) =
      d.completedSpans + completedOf unmarshalAny progs := by
  simp [completedOf, hu]

/-- The sum over messages one after the other. -/
theorem completedOf_append (unmarshalAny : List Nat → Option BackupManifest_Progress)
    (xs ys : List BulkProcessorProgress) :
    completedOf unmarshalAny (xs ++ ys) =
      completedOf unmarshalAny xs + completedOf unmarshalAny ys := by
  simp [completedOf]

/-- What one call does to the processor: the running count grows by the
`CompletedSpans` of the message when its details unmarshal, and nothing
changes when they do not. -/
theorem constructProgressProducerMeta_count
    (unmarshalAny : List Nat → Option BackupManifest_Progress) (bp : backupDataProcessor)
    (prog : BulkProcessorProgress) :
    (constructProgressProducerMeta unmarshalAny bp prog).1 =
      match unmarshalAny prog.progressDetails with
      | none => bp
      | some d => { bp with completedSpans := toInt32 (bp.completedSpans + d.completedSpans) } := by
  cases hu : unmarshalAny prog.progressDetails with
  | none => simp [constructProgressProducerMeta, hu]
  | some d =>
    simp only [constructProgressProducerMeta, hu]
    split <;> rfl

/-- The running count after a list of progress messages. -/
theorem forwardProgress_count (unmarshalAny : List Nat → Option BackupManifest_Progress) :
    ∀ (progs : List BulkProcessorProgress) (bp : backupDataProcessor),
      toInt32 bp.completedSpans = bp.completedSpans →
      (forwardProgress unmarshalAny bp progs).1 =
        { bp with
          completedSpans := toInt32 (bp.completedSpans + completedOf unmarshalAny progs) } := by
  intro progs
  induction progs with
  | nil =>
    intro bp hbp
    simp [forwardProgress, completedOf, hbp]
  | cons prog progs ih =>
    intro bp hbp
    simp only [forwardProgress]
    rw [constructProgressProducerMeta_count]
    cases hu : unmarshalAny prog.progressDetails with
    | none =>
      simp only []
      rw [ih bp hbp, completedOf_cons_none _ _ _ hu]
    | some d =>
      simp only []
      rw [ih _ (toInt32_idem _), completedOf_cons_some _ _ _ d hu]
      simp only [toInt32_add, add_assoc]

/-- The messages forwarded are as many as the messages received, and the
message forwarded for the one at index `k` is what the call returns on the
processor after the `k` messages before. -/
theorem forwardProgress_getElem (unmarshalAny : List Nat → Option BackupManifest_Progress) :
    ∀ (progs : List BulkProcessorProgress) (bp : backupDataProcessor) (k : Nat)
      (prog : BulkProcessorProgress), progs[k]? = some prog →
      (forwardProgress unmarshalAny bp progs).2[k]? =
        some (constructProgressProducerMeta unmarshalAny
          (forwardProgress unmarshalAny bp (progs.take k)).1 prog).2 := by
  intro progs
  induction progs with
  | nil => intro bp k prog h; simp at h
  | cons p ps ih =>
    intro bp k prog h
    cases k with
    | zero =>
      simp only [List.getElem?_cons_zero, Option.some.injEq] at h
      subst h
      simp [forwardProgress]
    | succ k =>
      simp only [List.getElem?_cons_succ] at h
      simp only [forwardProgress, List.take_succ_cons, List.getElem?_cons_succ]
      exact ih _ k prog h

/-- C24: the processor starts with a running count of zero.  For every
sequence of progress messages, a metadata message is forwarded for each, with
the node and the flow of the processor and the details of the message.  When
the details of the message at index `k` unmarshal, the forwarded message has
`CompletedFraction[processorID]` equal to the quotient of the running count,
the sum of `CompletedSpans` over the messages up to it whose details
unmarshal, and `len(Spans) + len(IntroducedSpans)`, both as `int32` values,
when that total is not zero; when it is zero, no fraction is added.  A message
whose details do not unmarshal leaves the running count and the fractions as
they are. -/
theorem completed_fraction (unmarshalAny : List Nat → Option BackupManifest_Progress)
    (bp : backupDataProcessor) (hnew : bp.completedSpans = 0)
    (progs : List BulkProcessorProgress) (k : Nat) (prog : BulkProcessorProgress)
    (hk : progs[k]? = some prog) :
    ∃ meta : BulkProcessorProgress,
      (forwardProgress unmarshalAny bp progs).2[k]? = some meta ∧
        meta.nodeID = bp.nodeID ∧ meta.flowID = bp.flowID ∧
        meta.progressDetails = prog.progressDetails ∧
        (∀ d, unmarshalAny prog.progressDetails = some d →
          (toInt32 (bp.spec.spans.length + bp.spec.introducedSpans.length) ≠ 0 →
            meta.fractionOf bp.processorID =
              some { completed := toInt32 (completedOf unmarshalAny (progs.take (k + 1)))
                     total := toInt32 (bp.spec.spans.length + bp.spec.introducedSpans.length) }) ∧
          (toInt32 (bp.spec.spans.length + bp.spec.introducedSpans.length) = 0 →
            meta.completedFraction = prog.completedFraction)) ∧
        (unmarshalAny prog.progressDetails = none →
          meta.completedFraction = prog.completedFraction ∧
            (forwardProgress unmarshalAny bp (progs.take (k + 1))).1 =
              (forwardProgress unmarshalAny bp (progs.take k)).1) ∧
        (∀ d, unmarshalAny prog.progressDetails = some d →
          -2147483648 ≤ completedOf unmarshalAny (progs.take (k + 1)) →
          completedOf unmarshalAny (progs.take (k + 1)) < 2147483648 →
          bp.spec.spans.length + bp.spec.introducedSpans.length < 2147483648 →
          (bp.spec.spans.length + bp.spec.introducedSpans.length ≠ 0 →
            meta.fractionOf bp.processorID =
              some { completed := completedOf unmarshalAny (progs.take (k + 1))
                     total := bp.spec.spans.length + bp.spec.introducedSpans.length }) ∧
          (bp.spec.spans.length + bp.spec.introducedSpans.length = 0 →
            meta.completedFraction = prog.completedFraction)) := by
  have hzero : toInt32 bp.completedSpans = bp.completedSpans := by
    rw [hnew]
    rfl
  have hbefore := forwardProgress_count unmarshalAny (progs.take k) bp hzero
  have hafter := forwardProgress_count unmarshalAny (progs.take (k + 1)) bp hzero
  have htake : progs.take (k + 1) = progs.take k ++ [prog] := by
    rw [List.take_succ, hk]
    rfl
  have hmeta := forwardProgress_getElem unmarshalAny progs bp k prog hk
  rw [hbefore] at hmeta
  have hsum : ∀ d, unmarshalAny prog.progressDetails = some d →
      completedOf unmarshalAny (progs.take (k + 1)) =
        completedOf unmarshalAny (progs.take k) + d.completedSpans := by
    intro d hd
    rw [htake, completedOf_append, completedOf_cons_some _ _ _ d hd]
    simp [completedOf]
  refine ⟨_, hmeta, ?_, ?_, ?_, ?_, ?_, ?_⟩
  · cases hu : unmarshalAny prog.progressDetails with
    | none => simp [constructProgressProducerMeta, hu]
    | some d =>
      simp only [constructProgressProducerMeta, hu]
      split <;> rfl
  · cases hu : unmarshalAny prog.progressDetails with
    | none => simp [constructProgressProducerMeta, hu]
    | some d =>
      simp only [constructProgressProducerMeta, hu]
      split <;> rfl
  · cases hu : unmarshalAny prog.progressDetails with
    | none => simp [constructProgressProducerMeta, hu]
    | some d =>
      simp only [constructProgressProducerMeta, hu]
      split <;> rfl
  · intro d hd
    constructor
    · intro htotal
      simp only [constructProgressProducerMeta, hd, htotal, ne_eq, not_false_eq_true, if_true,
        BulkProcessorProgress.fractionOf, mapSet, hsum d hd, hnew, zero_add]
      simp [List.lookup, toInt32_add]
    · intro htotal
      simp [constructProgressProducerMeta, hd, htotal]
  · intro hnone
    constructor
    · simp [constructProgressProducerMeta, hnone]
    · rw [hbefore, hafter, htake, completedOf_append, completedOf_cons_none _ _ _ hnone]
      simp [completedOf]
  · intro d hd hlo hhi htot
    have htotal : toInt32 (bp.spec.spans.length + bp.spec.introducedSpans.length) =
        bp.spec.spans.length + bp.spec.introducedSpans.length :=
      toInt32_of_range _ (by omega) (by omega)
    have hcount : toInt32 (completedOf unmarshalAny (progs.take (k + 1))) =
        completedOf unmarshalAny (progs.take (k + 1)) := toInt32_of_range _ hlo hhi
    constructor
    · intro hne
      have hne' : ¬ ((bp.spec.spans.length : Int) + bp.spec.introducedSpans.length = 0) := by
        omega
      simp only [constructProgressProducerMeta, hd, htotal, hne', ne_eq, not_false_eq_true,
        if_true, BulkProcessorProgress.fractionOf, mapSet, hnew, zero_add]
      rw [← hcount, hsum d hd]
      simp [List.lookup, toInt32_add]
    · intro hz
      have hz' : (bp.spec.spans.length : Int) + bp.spec.introducedSpans.length = 0 := by
        omega
      have hz0 : toInt32 ((bp.spec.spans.length : Int) + bp.spec.introducedSpans.length) = 0 := by
        rw [htotal, hz']
      simp [constructProgressProducerMeta, hd, hz0]

/-- C24, at a concrete input: three progress messages, of which the second
does not unmarshal; the third is forwarded with the fraction 2 / 2. -/
theorem completed_fraction_witness :
    ((forwardProgress Example.unmarshalOne Example.processor
        [{ progressDetails := [1] }, { progressDetails := [] },
         { progressDetails := [1] }]).2[2]?.bind
        fun meta => meta.fractionOf 7) = some { completed := 2, total := 2 } := by
  obtain ⟨meta, hget, _, _, _, _, _, hrange⟩ :=
    completed_fraction Example.unmarshalOne Example.processor rfl
      [{ progressDetails := [1] }, { progressDetails := [] }, { progressDetails := [1] }]
      2 { progressDetails := [1] } rfl
  rw [hget]
  exact (hrange { completedSpans := 1 } rfl (by decide) (by decide) (by decide)).1 (by decide)

/-! ## The precondition of the first upgrade -/

/-- The queries before the check for all known catalog corruptions do not
count `invalid_objects`. -/
theorem not_isInvalidObjects (result : QueryResult) :
    ({ query := repairQuery, result := result } : Issued).isInvalidObjects = false ∧
      ({ query := diagnoseQuery "databases" true, result := result } :
        Issued).isInvalidObjects = false ∧
      ∀ w : Bool, ({ query := diagnoseQuery "kv_repairable_catalog_corruptions" w,
                     result := result } : Issued).isInvalidObjects = false := by
  have h1 : (repairQuery == diagnoseQuery "invalid_objects" true) = false := by decide
  have h2 : (repairQuery == diagnoseQuery "invalid_objects" false) = false := by decide
  have h3 : (diagnoseQuery "databases" true == diagnoseQuery "invalid_objects" true) = false := by
    decide
  have h4 : (diagnoseQuery "databases" true == diagnoseQuery "invalid_objects" false) = false := by
    decide
  have h5 : ∀ w v : Bool, (diagnoseQuery "kv_repairable_catalog_corruptions" w ==
      diagnoseQuery "invalid_objects" v) = false := by
    decide
  refine ⟨?_, ?_, ?_⟩
  · simp only [Issued.isInvalidObjects, h1, h2, Bool.or_self]
  · simp only [Issued.isInvalidObjects, h3, h4, Bool.or_self]
  · intro w
    simp only [Issued.isInvalidObjects, h5, Bool.or_self]

/-- The repair loop issues no count of `invalid_objects`, and when the
function ends in it, it waits for an answer or returns the error of a
query. -/
theorem repairLoop_spec :
    ∀ (script : List QueryResult) (n : Int) (issued : List Issued),
      (∀ e ∈ issued, e.isInvalidObjects = false) →
      match repairLoop script n issued with
      | .error run => (∀ e ∈ run.issued, e.isInvalidObjects = false) ∧
          (run.outcome = .waiting ∨ ∃ err, run.outcome = .returned (some (.query err)))
      | .ok (_, _, issued) => ∀ e ∈ issued, e.isInvalidObjects = false := by
  intro script
  induction script with
  | nil =>
    intro n issued h
    exact ⟨h, Or.inl rfl⟩
  | cons result script ih =>
    intro n issued h
    have h' : ∀ e ∈ issued ++ [({ query := repairQuery, result := result } : Issued)],
        e.isInvalidObjects = false := by
      intro e he
      rcases List.mem_append.mp he with he | he
      · exact h e he
      · rw [List.mem_singleton.mp he]
        exact (not_isInvalidObjects result).1
    cases result with
    | failed err => exact ⟨h', Or.inr ⟨err, rfl⟩⟩
    | row c =>
      by_cases hc : c = 0
      · simp only [repairLoop, hc, if_true]
        rw [hc] at h'
        exact h'
      · simp only [repairLoop, hc, if_false]
        exact ih _ _ h'

/-- The check for all known catalog corruptions, case by case. -/
theorem checkInvalidObjects_spec (withAOST : Bool) (script : List QueryResult)
    (issued : List Issued) :
    (script = [] ∧ checkInvalidObjects withAOST script issued =
        { outcome := .waiting, issued := issued }) ∨
      (∃ (result : QueryResult) (rest : List QueryResult), script = result :: rest ∧
        (result = .row 0 ∨ withAOST = false ∨ ∃ err, result = .failed err) ∧
        checkInvalidObjects withAOST script issued =
          { outcome := Outcome.ofLastCheck result
            issued := issued ++ [{ query := diagnoseQuery "invalid_objects" withAOST,
                                   result := result }] }) ∨
      (∃ c : Int, c ≠ 0 ∧ withAOST = true ∧ script = [.row c] ∧
        checkInvalidObjects withAOST script issued =
          { outcome := .waiting
            issued := issued ++ [{ query := diagnoseQuery "invalid_objects" true,
                                   result := .row c }] }) ∨
      (∃ (c : Int) (result : QueryResult) (rest : List QueryResult), c ≠ 0 ∧ withAOST = true ∧
        script = .row c :: result :: rest ∧
        checkInvalidObjects withAOST script issued =
          { outcome := Outcome.ofLastCheck result
            issued := issued ++ [{ query := diagnoseQuery "invalid_objects" true,
                                   result := .row c },
                                 { query := diagnoseQuery "invalid_objects" false,
                                   result := result }] }) := by
  cases script with
  | nil => exact Or.inl ⟨rfl, rfl⟩
  | cons result rest =>
    right
    cases result with
    | failed err =>
      left
      exact ⟨_, _, rfl, Or.inr (Or.inr ⟨err, rfl⟩), rfl⟩
    | row c =>
      by_cases hc : c = 0
      · left
        subst hc
        exact ⟨_, _, rfl, Or.inl rfl, rfl⟩
      · cases withAOST with
        | false =>
          left
          refine ⟨_, _, rfl, Or.inr (Or.inl rfl), ?_⟩
          simp [checkInvalidObjects, diagnose, hc, Outcome.ofLastCheck]
        | true =>
          right
          cases rest with
          | nil =>
            left
            refine ⟨c, hc, rfl, rfl, ?_⟩
            simp [checkInvalidObjects, diagnose, hc]
          | cons result rest =>
            right
            refine ⟨c, result, rest, hc, rfl, rfl, ?_⟩
            cases result with
            | failed err => simp [checkInvalidObjects, diagnose, hc, Outcome.ofLastCheck]
            | row c2 =>
              by_cases hc2 : c2 = 0
              · simp [checkInvalidObjects, diagnose, hc, hc2, Outcome.ofLastCheck]
              · simp [checkInvalidObjects, diagnose, hc, hc2, Outcome.ofLastCheck]

/-- With the precondition enabled, the function ends before it counts
`invalid_objects`, waiting for an answer or with the error of a query, or it
ends in the check for all known catalog corruptions, entered after queries
none of which counts `invalid_objects`. -/
theorem precondition_reaches_check (script : List QueryResult) :
    ((∀ e ∈ (FirstUpgradeFromReleasePrecondition true script).issued,
        e.isInvalidObjects = false) ∧
      ((FirstUpgradeFromReleasePrecondition true script).outcome = .waiting ∨
        ∃ err, (FirstUpgradeFromReleasePrecondition true script).outcome =
          .returned (some (.query err)))) ∨
    ∃ (withAOST : Bool) (rest : List QueryResult) (issued : List Issued),
      (∀ e ∈ issued, e.isInvalidObjects = false) ∧
      FirstUpgradeFromReleasePrecondition true script =
        checkInvalidObjects withAOST rest issued := by
  cases script with
  | nil =>
    left
    exact ⟨by simp [FirstUpgradeFromReleasePrecondition], Or.inl rfl⟩
  | cons r1 script =>
    cases r1 with
    | failed err =>
      left
      refine ⟨?_, Or.inr ⟨err, rfl⟩⟩
      intro e he
      simp only [FirstUpgradeFromReleasePrecondition, diagnose, Bool.not_true,
        Bool.false_eq_true, if_false, List.mem_singleton] at he
      rw [he]
      exact (not_isInvalidObjects _).2.1
    | row c1 =>
      cases script with
      | nil =>
        left
        refine ⟨?_, Or.inl rfl⟩
        intro e he
        simp only [FirstUpgradeFromReleasePrecondition, diagnose, Bool.not_true,
          Bool.false_eq_true, if_false, List.mem_singleton] at he
        rw [he]
        exact (not_isInvalidObjects _).2.1
      | cons r2 script =>
        have hpre : ∀ (w : Bool) (r : QueryResult),
            ∀ e ∈ [({ query := diagnoseQuery "databases" true, result := .row c1 } : Issued)] ++
              [({ query := diagnoseQuery "kv_repairable_catalog_corruptions" w,
                  result := r } : Issued)], e.isInvalidObjects = false := by
          intro w r e he
          simp only [List.singleton_append, List.mem_cons, List.mem_singleton,
            List.not_mem_nil, or_false] at he
          rcases he with he | he
          · rw [he]
            exact (not_isInvalidObjects _).2.1
          · rw [he]
            exact (not_isInvalidObjects _).2.2 w
        cases r2 with
        | failed err =>
          left
          exact ⟨hpre _ _, Or.inr ⟨err, rfl⟩⟩
        | row c2 =>
          by_cases hc2 : c2 = 0
          · right
            refine ⟨(if (!decide (c1 ≠ 0)) = true then false else true), script, _,
              hpre (if (!decide (c1 ≠ 0)) = true then false else true) (.row c2), ?_⟩
            simp [FirstUpgradeFromReleasePrecondition, diagnose, hc2]
          · have hloop := repairLoop_spec script 0 _
              (hpre (if (!decide (c1 ≠ 0)) = true then false else true) (.row c2))
            have hF : FirstUpgradeFromReleasePrecondition true (.row c1 :: .row c2 :: script) =
                match repairLoop script 0
                  ([({ query := diagnoseQuery "databases" true, result := .row c1 } : Issued)] ++
                    [({ query := diagnoseQuery "kv_repairable_catalog_corruptions"
                          (if (!decide (c1 ≠ 0)) = true then false else true),
                        result := .row c2 } : Issued)]) with
                | .error run => run
                | .ok (n, script, issued) =>
                  checkInvalidObjects
                    (if n = 0 then (if (!decide (c1 ≠ 0)) = true then false else true) else false)
                    script issued := by
              simp [FirstUpgradeFromReleasePrecondition, diagnose, hc2]
            rw [hF]
            cases hl : repairLoop script 0
                ([({ query := diagnoseQuery "databases" true, result := .row c1 } : Issued)] ++
                  [({ query := diagnoseQuery "kv_repairable_catalog_corruptions"
                        (if (!decide (c1 ≠ 0)) = true then false else true),
                      result := .row c2 } : Issued)]) with
            | error run =>
              rw [hl] at hloop
              left
              exact hloop
            | ok v =>
              obtain ⟨n, rest, issued⟩ := v
              rw [hl] at hloop
              right
              exact ⟨_, rest, issued, hloop, rfl⟩

/-- The queries of a call: first queries that do not count `invalid_objects`,
then at most two that do, and the outcome that goes with them. -/
theorem precondition_cases (script : List QueryResult) :
    ∃ pre tail : List Issued,
      (FirstUpgradeFromReleasePrecondition true script).issued = pre ++ tail ∧
      (∀ e ∈ pre, e.isInvalidObjects = false) ∧
      ((tail = [] ∧
          ((FirstUpgradeFromReleasePrecondition true script).outcome = .waiting ∨
            ∃ err, (FirstUpgradeFromReleasePrecondition true script).outcome =
              .returned (some (.query err)))) ∨
        (∃ (w : Bool) (r : QueryResult),
          tail = [{ query := diagnoseQuery "invalid_objects" w, result := r }] ∧
          (r = .row 0 ∨ w = false ∨ ∃ err, r = .failed err) ∧
          (FirstUpgradeFromReleasePrecondition true script).outcome = Outcome.ofLastCheck r) ∨
        (∃ c : Int, c ≠ 0 ∧
          tail = [{ query := diagnoseQuery "invalid_objects" true, result := .row c }] ∧
          (FirstUpgradeFromReleasePrecondition true script).outcome = .waiting) ∨
        (∃ (c : Int) (r : QueryResult), c ≠ 0 ∧
          tail = [{ query := diagnoseQuery "invalid_objects" true, result := .row c },
                  { query := diagnoseQuery "invalid_objects" false, result := r }] ∧
          (FirstUpgradeFromReleasePrecondition true script).outcome =
            Outcome.ofLastCheck r)) := by
  rcases precondition_reaches_check script with ⟨hno, hout⟩ | ⟨w, rest, issued, hno, hrun⟩
  · exact ⟨_, [], (List.append_nil _).symm, hno, Or.inl ⟨rfl, hout⟩⟩
  · rw [hrun]
    rcases checkInvalidObjects_spec w rest issued with
      ⟨_, h⟩ | ⟨r, rest', _, hcase, h⟩ | ⟨c, hc, hw, _, h⟩ | ⟨c, r, rest', hc, hw, _, h⟩
    · rw [h]
      exact ⟨issued, [], (List.append_nil _).symm, hno, Or.inl ⟨rfl, Or.inl rfl⟩⟩
    · rw [h]
      exact ⟨issued, _, rfl, hno, Or.inr (Or.inl ⟨w, r, rfl, hcase, rfl⟩)⟩
    · rw [h]
      exact ⟨issued, _, rfl, hno, Or.inr (Or.inr (Or.inl ⟨c, hc, rfl, rfl⟩))⟩
    · rw [h]
      exact ⟨issued, _, rfl, hno, Or.inr (Or.inr (Or.inr ⟨c, r, hc, rfl, rfl⟩))⟩

/-- An element with a property, met in a list that starts with elements
without it, lies after them. -/
theorem append_split_of_not_mem {α : Type} (P : α → Bool) (pre tail before after : List α)
    (e : α) (h : pre ++ tail = before ++ e :: after) (hpre : ∀ x ∈ pre, P x = false)
    (he : P e = true) :
    ∃ mid, before = pre ++ mid ∧ tail = mid ++ e :: after := by
  rcases List.append_eq_append_iff.mp h with ⟨mid, hb, ht⟩ | ⟨mid, hp, ht⟩
  · exact ⟨mid, hb, ht⟩
  · cases mid with
    | nil =>
      refine ⟨[], ?_, ?_⟩
      · simpa using hp.symm
      · simpa using ht.symm
    | cons m ms =>
      simp only [List.cons_append, List.cons.injEq] at ht
      have hmem : e ∈ pre := by
        rw [hp, ht.1]
        simp
      rw [hpre e hmem] at he
      cases he

set_option maxRecDepth 10000 in
/-- The total `n` of the repair loop is an `int`: with the counts 2^63 - 1,
2^63 - 1 and 2, which add up to 2^64, it wraps to 0, the clause
`AS OF SYSTEM TIME` stays on for the count of `invalid_objects`, and the
count of 5 seen with the clause is checked again without it. -/
theorem repaired_total_wraps :
    FirstUpgradeFromReleasePrecondition true
        [.row 1, .row 1, .row 9223372036854775807, .row 9223372036854775807, .row 2, .row 0,
         .row 5, .row 0] =
      { outcome := .returned none
        issued :=
          [{ query := diagnoseQuery "databases" true, result := .row 1 },
           { query := diagnoseQuery "kv_repairable_catalog_corruptions" true, result := .row 1 },
           { query := repairQuery, result := .row 9223372036854775807 },
           { query := repairQuery, result := .row 9223372036854775807 },
           { query := repairQuery, result := .row 2 },
           { query := repairQuery, result := .row 0 },
           { query := diagnoseQuery "invalid_objects" true, result := .row 5 },
           { query := diagnoseQuery "invalid_objects" false, result := .row 0 }] } := by
  decide

/-- C30: with the precondition enabled, the function returns the error that
`invalid_objects` is not empty only after a count of `invalid_objects` issued
without the clause `AS OF SYSTEM TIME`, its last query, came back with a count
other than zero.  A count other than zero that came back for the query with
the clause is followed by the same query without the clause, and the outcome
is decided by the answer to that one: nil when the count is zero.  And the
function returns nil whenever its first count of `invalid_objects` comes back
as zero. -/
theorem invalid_objects_error_only_without_aost (script : List QueryResult) :
    ((FirstUpgradeFromReleasePrecondition true script).outcome =
        .returned (some .invalidObjects) →
      ∃ c : Int, c ≠ 0 ∧
        (FirstUpgradeFromReleasePrecondition true script).issued.getLast? =
          some { query := diagnoseQuery "invalid_objects" false, result := .row c }) ∧
      (∀ (before after : List Issued) (c : Int),
        (FirstUpgradeFromReleasePrecondition true script).issued =
          before ++ { query := diagnoseQuery "invalid_objects" true, result := .row c } ::
            after →
        c ≠ 0 →
        (after = [] ∧ (FirstUpgradeFromReleasePrecondition true script).outcome = .waiting) ∨
          ∃ r : QueryResult,
            after = [{ query := diagnoseQuery "invalid_objects" false, result := r }] ∧
            (FirstUpgradeFromReleasePrecondition true script).outcome =
              Outcome.ofLastCheck r ∧
            (r = .row 0 →
              (FirstUpgradeFromReleasePrecondition true script).outcome = .returned none)) ∧
      (∀ (before after : List Issued) (e : Issued),
        (FirstUpgradeFromReleasePrecondition true script).issued = before ++ e :: after →
        e.isInvalidObjects = true → (∀ x ∈ before, x.isInvalidObjects = false) →
        e.result = .row 0 →
        (FirstUpgradeFromReleasePrecondition true script).outcome = .returned none) := by
  have hqq : diagnoseQuery "invalid_objects" true ≠ diagnoseQuery "invalid_objects" false := by
    decide
  have hinv : ∀ (w : Bool) (r : QueryResult),
      ({ query := diagnoseQuery "invalid_objects" w, result := r } : Issued).isInvalidObjects =
        true := by
    intro w r
    cases w <;> simp [Issued.isInvalidObjects]
  obtain ⟨pre, tail, hissued, hpre, hcases⟩ := precondition_cases script
  refine ⟨?_, ?_, ?_⟩
  · intro hout
    rcases hcases with ⟨_, h | ⟨err, h⟩⟩ | ⟨w, r, ht, hcase, h⟩ | ⟨c, _, _, h⟩ | ⟨c, r, _, ht, h⟩
    · rw [h] at hout
      cases hout
    · rw [h] at hout
      cases hout
    · rw [h] at hout
      cases r with
      | failed err => simp [Outcome.ofLastCheck] at hout
      | row c =>
        by_cases hc : c = 0
        · simp [Outcome.ofLastCheck, hc] at hout
        · have hw : w = false := by
            rcases hcase with h1 | h1 | ⟨err, h1⟩
            · exact absurd (QueryResult.row.inj h1) hc
            · exact h1
            · cases h1
          refine ⟨c, hc, ?_⟩
          rw [hissued, ht, hw]
          simp
    · rw [h] at hout
      cases hout
    · rw [h] at hout
      cases r with
      | failed err => simp [Outcome.ofLastCheck] at hout
      | row c2 =>
        by_cases hc : c2 = 0
        · simp [Outcome.ofLastCheck, hc] at hout
        · refine ⟨c2, hc, ?_⟩
          rw [hissued, ht]
          simp
  · intro before after c hsplit hc
    rw [hissued] at hsplit
    obtain ⟨mid, _, htail⟩ := append_split_of_not_mem Issued.isInvalidObjects pre tail before
      after _ hsplit hpre (hinv true (.row c))
    rcases hcases with ⟨ht, _⟩ | ⟨w, r, ht, hcase, _⟩ | ⟨c', _, ht, h⟩ | ⟨c', r, _, ht, h⟩
    · rw [ht] at htail
      cases mid <;> simp at htail
    · rw [ht] at htail
      cases mid with
      | nil =>
        simp only [List.nil_append, List.cons.injEq, Issued.mk.injEq] at htail
        obtain ⟨⟨hq, hr⟩, _⟩ := htail
        have hw : w = true := by
          cases w with
          | true => rfl
          | false => exact absurd hq.symm hqq
        rcases hcase with h1 | h1 | ⟨err, h1⟩
        · rw [h1] at hr
          exact absurd (QueryResult.row.inj hr).symm hc
        · rw [hw] at h1
          cases h1
        · rw [h1] at hr
          cases hr
      | cons m ms =>
        simp only [List.cons_append, List.cons.injEq] at htail
        have := htail.2
        cases ms <;> simp at this
    · left
      rw [ht] at htail
      cases mid with
      | nil =>
        simp only [List.nil_append, List.cons.injEq] at htail
        exact ⟨htail.2.symm, h⟩
      | cons m ms =>
        simp only [List.cons_append, List.cons.injEq] at htail
        have := htail.2
        cases ms <;> simp at this
    · right
      rw [ht] at htail
      cases mid with
      | nil =>
        simp only [List.nil_append, List.cons.injEq] at htail
        refine ⟨r, htail.2.symm, h, ?_⟩
        intro hr
        rw [h, hr]
        rfl
      | cons m ms =>
        simp only [List.cons_append, List.cons.injEq] at htail
        cases ms with
        | nil =>
          simp only [List.nil_append, List.cons.injEq, Issued.mk.injEq] at htail
          exact absurd htail.2.1.1.symm hqq
        | cons m2 ms2 =>
          have := htail.2
          simp only [List.cons_append, List.cons.injEq] at this
          have := this.2
          cases ms2 <;> simp at this
  · intro before after e hsplit he hbefore hres
    rw [hissued] at hsplit
    obtain ⟨mid, hb, htail⟩ := append_split_of_not_mem Issued.isInvalidObjects pre tail before
      after e hsplit hpre he
    have hmid : ∀ x ∈ mid, x.isInvalidObjects = false := by
      intro x hx
      apply hbefore
      rw [hb]
      exact List.mem_append_right _ hx
    rcases hcases with ⟨ht, _⟩ | ⟨w, r, ht, _, h⟩ | ⟨c, hc, ht, _⟩ | ⟨c, r, hc, ht, _⟩
    · rw [ht] at htail
      cases mid <;> simp at htail
    · rw [ht] at htail
      cases mid with
      | nil =>
        simp only [List.nil_append, List.cons.injEq] at htail
        rw [← htail.1] at hres
        simp only [] at hres
        rw [h, hres]
        rfl
      | cons m ms =>
        simp only [List.cons_append, List.cons.injEq] at htail
        have := htail.2
        cases ms <;> simp at this
    · rw [ht] at htail
      cases mid with
      | nil =>
        simp only [List.nil_append, List.cons.injEq] at htail
        rw [← htail.1] at hres
        exact absurd (QueryResult.row.inj hres) hc
      | cons m ms =>
        simp only [List.cons_append, List.cons.injEq] at htail
        have := htail.2
        cases ms <;> simp at this
    · rw [ht] at htail
      cases mid with
      | nil =>
        simp only [List.nil_append, List.cons.injEq] at htail
        rw [← htail.1] at hres
        exact absurd (QueryResult.row.inj hres) hc
      | cons m ms =>
        simp only [List.cons_append, List.cons.injEq] at htail
        have hm := hmid m (List.mem_cons_self _ _)
        rw [← htail.1, hinv] at hm
        cases hm

/-- C30, at a concrete input: the counts 3 of `databases`, 0 of the repairable
corruptions, 2 of `invalid_objects` with the clause and 0 without it. -/
theorem invalid_objects_error_only_without_aost_witness :
    FirstUpgradeFromReleasePrecondition true [.row 3, .row 0, .row 2, .row 0] =
        { outcome := .returned none
          issued := [{ query := diagnoseQuery "databases" true, result := .row 3 },
            { query := diagnoseQuery "kv_repairable_catalog_corruptions" true, result := .row 0 },
            { query := diagnoseQuery "invalid_objects" true, result := .row 2 },
            { query := diagnoseQuery "invalid_objects" false, result := .row 0 }] } ∧
      ((FirstUpgradeFromReleasePrecondition true [.row 3, .row 0, .row 2, .row 0]).outcome =
          .waiting ∨
        ∃ r : QueryResult,
          [({ query := diagnoseQuery "invalid_objects" false, result := .row 0 } : Issued)] =
            [{ query := diagnoseQuery "invalid_objects" false, result := r }] ∧
          (FirstUpgradeFromReleasePrecondition true [.row 3, .row 0, .row 2, .row 0]).outcome =
            Outcome.ofLastCheck r ∧
          (r = .row 0 →
            (FirstUpgradeFromReleasePrecondition true [.row 3, .row 0, .row 2, .row 0]).outcome =
              .returned none)) :=
  ⟨by decide,
    ((invalid_objects_error_only_without_aost [.row 3, .row 0, .row 2, .row 0]).2.1
      [{ query := diagnoseQuery "databases" true, result := .row 3 },
       { query := diagnoseQuery "kv_repairable_catalog_corruptions" true, result := .row 0 }]
      [{ query := diagnoseQuery "invalid_objects" false, result := .row 0 }] 2
      (by decide) (by decide)).imp (fun h => h.2) (fun h => h)⟩

/-! ## The file sink -/

/-- What one `write` does to the files: the fragment becomes the last of the
open file.  Either the file that was open is closed and the fragment starts a
new file, and then the closed file has its flag `atKeyBoundary` set or its
keys would not have stayed monotonic with the fragment; or no file is closed
and the fragment is appended to the file that was open. -/
theorem fileSSTSink.write_spec (targetFileSize : Int) (s : fileSSTSink)
    (fragment : exportedSpan) :
    ∃ file : SinkFile, (s.write targetFileSize fragment).out = some file ∧
      file.atKeyBoundary = fragment.atKeyBoundary ∧
      ((∃ old : SinkFile, s.out = some old ∧
          (old.atKeyBoundary = true ∨ old.staysMonotonic fragment = false) ∧
          (s.write targetFileSize fragment).closed = s.closed ++ [old] ∧
          file.fragments = [fragment]) ∨
        ((s.write targetFileSize fragment).closed = s.closed ∧
          file.fragments =
            (match s.out with
              | none => []
              | some old => old.fragments) ++ [fragment])) := by
  cases hout : s.out with
  | none =>
    refine ⟨_, rfl, ?_, Or.inr ?_⟩
    · simp [fileSSTSink.write, hout]
    · simp [fileSSTSink.write, hout]
  | some old =>
    by_cases hmono : old.staysMonotonic fragment = true
    · by_cases hcut : (decide (old.size ≥ targetFileSize) && old.atKeyBoundary &&
          !old.span.Overlaps fragment.metadata.span) = true
      · refine ⟨_, rfl, ?_, Or.inl ⟨old, rfl, Or.inl ?_, ?_, ?_⟩⟩
        · simp [fileSSTSink.write, hout, hmono]
        · simp only [Bool.and_eq_true] at hcut
          exact hcut.1.2
        · simp [fileSSTSink.write, hout, hmono, hcut]
        · simp [fileSSTSink.write, hout, hmono, hcut]
      · refine ⟨_, rfl, ?_, Or.inr ⟨?_, ?_⟩⟩
        · simp [fileSSTSink.write, hout, hmono]
        · simp [fileSSTSink.write, hout, hmono, hcut]
        · simp [fileSSTSink.write, hout, hmono, hcut]
    · have hfalse : old.staysMonotonic fragment = false := by
        cases h : old.staysMonotonic fragment with
        | false => rfl
        | true => exact absurd h hmono
      refine ⟨_, rfl, ?_, Or.inl ⟨old, rfl, Or.inr hfalse, ?_, ?_⟩⟩
      · simp [fileSSTSink.write, hout, hfalse, fileSSTSink.flush]
      · simp [fileSSTSink.write, hout, hfalse, fileSSTSink.flush]
      · simp [fileSSTSink.write, hout, hfalse, fileSSTSink.flush]

/-- A `write` after a fragment that did not end at a key boundary, with a
fragment that keeps the keys of the open file monotonic, closes no file and
appends the fragment to the open file, whatever the target file size. -/
theorem fileSSTSink.write_appends (targetFileSize : Int) (s : fileSSTSink) (old : SinkFile)
    (fragment : exportedSpan) (hout : s.out = some old) (hflag : old.atKeyBoundary = false)
    (hmono : old.staysMonotonic fragment = true) :
    (s.write targetFileSize fragment).closed = s.closed ∧
      (s.write targetFileSize fragment).out.map SinkFile.fragments =
        some (old.fragments ++ [fragment]) := by
  obtain ⟨file, hfile, _, hcase⟩ := fileSSTSink.write_spec targetFileSize s fragment
  rcases hcase with ⟨old2, hold, hwhy, _, _⟩ | ⟨hcl, hfr⟩
  · rw [hout] at hold
    rw [← Option.some.inj hold] at hwhy
    rcases hwhy with h | h
    · rw [hflag] at h
      cases h
    · rw [hmono] at h
      cases h
  · refine ⟨hcl, ?_⟩
    rw [hfile, Option.map_some', hfr, hout]

/-- After any sequence of `write` calls on a new sink: the files hold the
fragments in the order written, the flag of the open file is that of its last
fragment, which is the fragment written last, and a sink that has closed a
file has a file open. -/
theorem fileSSTSink.write_invariant (targetFileSize : Int) :
    ∀ fragments : List exportedSpan,
      (fragments.foldl (fileSSTSink.write targetFileSize) {}).layout.flatten = fragments ∧
      (∀ file, (fragments.foldl (fileSSTSink.write targetFileSize) {}).out = some file →
        file.fragments.getLast? = fragments.getLast? ∧
          ∃ last, file.fragments.getLast? = some last ∧
            file.atKeyBoundary = last.atKeyBoundary) ∧
      ((fragments.foldl (fileSSTSink.write targetFileSize) {}).out = none →
        (fragments.foldl (fileSSTSink.write targetFileSize) {}).closed = []) := by
  intro fragments
  induction fragments using List.reverseRecOn with
  | nil =>
    refine ⟨rfl, ?_, ?_⟩
    · intro file h
      simp at h
    · intro _
      rfl
  | append_singleton fragments fragment ih =>
    obtain ⟨hflat, _, _⟩ := ih
    rw [List.foldl_append, List.foldl_cons, List.foldl_nil]
    generalize fragments.foldl (fileSSTSink.write targetFileSize) {} = s at *
    obtain ⟨file, hout, hflag, hcase⟩ := fileSSTSink.write_spec targetFileSize s fragment
    refine ⟨?_, ?_, ?_⟩
    · rcases hcase with ⟨old, hold, _, hcl, hfr⟩ | ⟨hcl, hfr⟩
      · rw [← hflat]
        simp [fileSSTSink.layout, hout, hcl, hfr, hold]
      · rw [← hflat]
        cases hs : s.out with
        | none =>
          rw [hs] at hfr
          simp [fileSSTSink.layout, hout, hcl, hfr, hs]
        | some old =>
          rw [hs] at hfr
          simp [fileSSTSink.layout, hout, hcl, hfr, hs]
    · intro f hf
      rw [hout] at hf
      have hff : file = f := Option.some.inj hf
      subst hff
      have hlast : file.fragments.getLast? = some fragment := by
        rcases hcase with ⟨_, _, _, _, hfr⟩ | ⟨_, hfr⟩
        · rw [hfr]
          rfl
        · rw [hfr]
          simp
      refine ⟨?_, fragment, hlast, hflag⟩
      rw [hlast]
      simp
    · intro h
      rw [hout] at h
      cases h

/-- C22, as stated, fails: the fragment `[m, z)` does not end at a key
boundary, and the fragment `[a, m)`, written next, does not start after it;
the sink flushes first, so the file of `[m, z)` is closed and a new one opened
between the two. -/
theorem sink_flushes_after_mid_key_fragment :
    Example.fragmentMZ.atKeyBoundary = false ∧
      ([Example.fragmentMZ, Example.fragmentAM].foldl (fileSSTSink.write 1) {}).layout =
        [[Example.fragmentMZ], [Example.fragmentAM]] ∧
      ([Example.fragmentMZ, Example.fragmentAM].foldl (fileSSTSink.write 1) {}).closed ≠
        ([Example.fragmentMZ].foldl (fileSSTSink.write 1) {}).closed := by
  decide

/-- C22, amended: the file sink never cuts an output file on size alone.  For
every target file size and every sequence of `write` calls on a new sink, the
files hold the fragments in the order written; a file is closed and a new one
opened between two consecutive fragments only if the earlier of the two has
`atKeyBoundary = true`, or the keys of the file would not stay monotonic with
the later one (its span overlaps the span of a fragment of the file, or its
start key does not sort after theirs), the sink flushing first; and after a
fragment with `atKeyBoundary = false` a next fragment that keeps the keys of
the file monotonic is appended to the same file, with no file closed,
whatever the accumulated size. -/
theorem sink_cuts_at_key_boundary_or_flushes (targetFileSize : Int)
    (fragments : List exportedSpan) (earlier next : exportedSpan) :
    ((fragments ++ [earlier, next]).foldl (fileSSTSink.write targetFileSize) {}).layout.flatten =
        fragments ++ [earlier, next] ∧
      ∃ file : SinkFile,
        ((fragments ++ [earlier]).foldl (fileSSTSink.write targetFileSize) {}).out = some file ∧
        file.fragments.getLast? = some earlier ∧
        (((fragments ++ [earlier, next]).foldl (fileSSTSink.write targetFileSize) {}).closed ≠
            ((fragments ++ [earlier]).foldl (fileSSTSink.write targetFileSize) {}).closed →
          (earlier.atKeyBoundary = true ∨ file.staysMonotonic next = false) ∧
            ((fragments ++ [earlier, next]).foldl (fileSSTSink.write targetFileSize) {}).closed =
              ((fragments ++ [earlier]).foldl (fileSSTSink.write targetFileSize) {}).closed ++
                [file] ∧
            (((fragments ++ [earlier, next]).foldl (fileSSTSink.write targetFileSize) {}).out.map
              SinkFile.fragments) = some [next]) ∧
        (earlier.atKeyBoundary = false → file.staysMonotonic next = true →
          ((fragments ++ [earlier, next]).foldl (fileSSTSink.write targetFileSize) {}).closed =
              ((fragments ++ [earlier]).foldl (fileSSTSink.write targetFileSize) {}).closed ∧
            (((fragments ++ [earlier, next]).foldl (fileSSTSink.write targetFileSize) {}).out.map
              SinkFile.fragments) = some (file.fragments ++ [next])) := by
  refine ⟨(fileSSTSink.write_invariant targetFileSize _).1, ?_⟩
  have h2 : fragments ++ [earlier, next] = (fragments ++ [earlier]) ++ [next] := by simp
  rw [h2, List.foldl_append _ _ (fragments ++ [earlier]) [next], List.foldl_cons, List.foldl_nil,
    List.foldl_append, List.foldl_cons, List.foldl_nil]
  generalize fragments.foldl (fileSSTSink.write targetFileSize) {} = s
  obtain ⟨file, hout, hflag, hcase1⟩ := fileSSTSink.write_spec targetFileSize s earlier
  have hlast : file.fragments.getLast? = some earlier := by
    rcases hcase1 with ⟨_, _, _, _, hfr⟩ | ⟨_, hfr⟩
    · rw [hfr]
      rfl
    · rw [hfr]
      simp
  obtain ⟨file2, hout2, _, hcase⟩ :=
    fileSSTSink.write_spec targetFileSize (s.write targetFileSize earlier) next
  refine ⟨file, hout, hlast, ?_, ?_⟩
  · intro hne
    rcases hcase with ⟨old, hold, hwhy, hcl, hfr⟩ | ⟨hcl, _⟩
    · rw [hout] at hold
      have hsame : file = old := Option.some.inj hold
      subst hsame
      refine ⟨?_, hcl, ?_⟩
      · rcases hwhy with h | h
        · left
          rw [← hflag]
          exact h
        · right
          exact h
      · rw [hout2, Option.map_some', hfr]
    · exact absurd hcl hne
  · intro hearlier hmono
    exact fileSSTSink.write_appends targetFileSize _ file next hout
      (by rw [hflag]; exact hearlier) hmono

/-- C22, amended, at a concrete input: a target file size of one byte; the
fragment `[a, m)` ends in the middle of a key and `[m, q)`, which starts after
it, is appended to its file, which is closed before `[q, z)`. -/
theorem sink_cuts_at_key_boundary_or_flushes_witness :
    ([Example.fragmentAM, Example.fragmentMQ, Example.fragmentQZ].foldl
        (fileSSTSink.write 1) {}).layout =
        [[Example.fragmentAM, Example.fragmentMQ], [Example.fragmentQZ]] ∧
      ∃ file : SinkFile,
        (([] ++ [Example.fragmentAM]).foldl (fileSSTSink.write 1) {}).out = some file ∧
        (([] ++ [Example.fragmentAM, Example.fragmentMQ]).foldl (fileSSTSink.write 1) {}).closed =
          (([] ++ [Example.fragmentAM]).foldl (fileSSTSink.write 1) {}).closed ∧
        ((([] ++ [Example.fragmentAM, Example.fragmentMQ]).foldl
            (fileSSTSink.write 1) {}).out.map SinkFile.fragments) =
          some (file.fragments ++ [Example.fragmentMQ]) := by
  refine ⟨by decide, ?_⟩
  obtain ⟨file, hout, _, _, happend⟩ :=
    (sink_cuts_at_key_boundary_or_flushes 1 [] Example.fragmentAM Example.fragmentMQ).2
  have hfile : file = { fragments := [Example.fragmentAM], size := 2, span := Example.spanAM,
                        atKeyBoundary := false } := by
    have h : (([] ++ [Example.fragmentAM]).foldl (fileSSTSink.write 1) {}).out =
        some { fragments := [Example.fragmentAM], size := 2, span := Example.spanAM,
               atKeyBoundary := false } := by decide
    rw [h] at hout
    exact (Option.some.inj hout).symm
  obtain ⟨h1, h2⟩ := happend (by decide) (by rw [hfile]; decide)
  exact ⟨file, hout, h1, h2⟩

/-! ## The heartbeat messages -/

/-- C27, at failing inputs: `RemoteOffset.Unmarshal` on a field 1 followed by
an unknown length-delimited field of declared length `2^63 - 11` reads `dAtA`
at a negative index; `PingResponse.Unmarshal` on a `Pong` of declared length
`2^63 - 1` slices `dAtA` with a negative upper bound; `skipHeartbeat` on a
group that holds such a field reads `dAtA` at a negative index, and on the
empty slice it runs into `panic("unreachable")`. -/
theorem unmarshal_out_of_range :
    RemoteOffset.Unmarshal {}
        [0x08, 0x00, 0x22, 0xF5, 0xFF, 0xFF, 0xFF, 0xFF, 0xFF, 0xFF, 0xFF, 0x7F] =
        .error (.indexOutOfRange (-9223372036854775807) 12) ∧
      PingResponse.Unmarshal (fun version _ => .ok version) {}
        [0x0a, 0xFF, 0xFF, 0xFF, 0xFF, 0xFF, 0xFF, 0xFF, 0xFF, 0x7F] =
        .error (.sliceOutOfRange 10 (-9223372036854775799) 10) ∧
      skipHeartbeat [0x0b, 0x0a, 0xF5, 0xFF, 0xFF, 0xFF, 0xFF, 0xFF, 0xFF, 0xFF, 0x7F] =
        .error (.indexOutOfRange (-9223372036854775808) 11) ∧
      skipHeartbeat [] = .error .unreachable := by
  decide


/-! ## The round trip of a `RemoteOffset` -/

/-- An `int64` converted to `uint64` and back is itself. -/
theorem toInt64_toUint64 (x : Int) (h : isInt64 x) : toInt64 (toUint64 x) = x := by
  unfold isInt64 at h
  unfold toInt64 toUint64
  have hnn : (0 : Int) ≤ x % 18446744073709551616 := Int.emod_nonneg _ (by decide)
  rw [Int.toNat_of_nonneg hnn]
  omega

/-- A `uint64` is below `2^64`. -/
theorem toUint64_lt (x : Int) : toUint64 x < 2 ^ (7 * 9 + 1) := by
  unfold toUint64
  have hnn : (0 : Int) ≤ x % 18446744073709551616 := Int.emod_nonneg _ (by decide)
  have hlt : x % 18446744073709551616 < 18446744073709551616 := Int.emod_lt_of_pos _ (by decide)
  have : ((x % 18446744073709551616).toNat : Int) < 18446744073709551616 := by
    rw [Int.toNat_of_nonneg hnn]
    exact hlt
  have h2 : (2 : Nat) ^ (7 * 9 + 1) = 18446744073709551616 := by norm_num
  rw [h2]
  exact_mod_cast this

/-- The low seven bits of a number, with the continuation bit set. -/
theorem continuation_byte (v : Nat) : (v &&& 0x7f ||| 0x80) % 256 = v % 128 + 128 := by
  have h1 : v &&& 0x7f = v % 128 := Nat.and_pow_two_sub_one_eq_mod v 7
  rw [h1]
  have h2 : ∀ r : Nat, r < 128 → (r ||| 0x80) % 256 = r + 128 := by decide
  exact h2 _ (Nat.mod_lt _ (by decide))

/-- The seven bits a byte with the continuation bit carries. -/
theorem continuation_bits (r : Nat) (h : r < 128) :
    (r + 128) &&& 0x7F = r ∧ ¬ (r + 128 < 0x80) := by
  have h2 : ∀ r : Nat, r < 128 → (r + 128) &&& 0x7F = r := by decide
  exact ⟨h2 r h, by omega⟩

/-- The seven bits a last byte carries. -/
theorem last_bits (r : Nat) (h : r < 128) : r &&& 0x7F = r := by
  have h2 : ∀ r : Nat, r < 128 → r &&& 0x7F = r := by decide
  exact h2 r h

/-- Bits set above the bits of a number add to it. -/
theorem or_shifted (value r shift : Nat) (h : value < 2 ^ shift) :
    value ||| r * 2 ^ shift = value + r * 2 ^ shift := by
  rw [Nat.lor_comm, Nat.mul_comm, ← Nat.mul_add_lt_is_or h]
  omega

/-- The byte at the index where a list starts within a longer one. -/
theorem byteAt_append (pre : List Nat) (b : Nat) (post : List Nat) :
    byteAt (pre ++ b :: post) pre.length = .ok b := by
  unfold byteAt
  have h : (0 : Int) ≤ pre.length ∧ (pre.length : Int) < ((pre ++ b :: post).length : Nat) := by
    constructor
    · omega
    · simp
  rw [if_pos h]
  have hget : (pre ++ b :: post)[pre.length]? = some b := by
    rw [List.getElem?_append_right (Nat.le_refl _)]
    simp
  simp [List.getD, hget]

/-- A write at the index where a list starts within a longer one. -/
theorem setByte_append (pre : List Nat) (x b : Nat) (post : List Nat) :
    setByte (pre ++ x :: post) pre.length b = .ok (pre ++ b :: post) := by
  unfold setByte
  have h : (0 : Int) ≤ pre.length ∧ (pre.length : Int) < ((pre ++ x :: post).length : Nat) := by
    constructor
    · omega
    · simp
  rw [if_pos h]
  simp

/-- The varint of a number below `1<<7` is the number as one byte. -/
theorem varintBytes_small (n v : Nat) (h : v < 128) : varintBytes (n + 1) v = [v] := by
  have h1 : ¬ v ≥ 1 <<< 7 := by
    have : (1 : Nat) <<< 7 = 128 := by decide
    omega
  have h2 : v % 256 = v := Nat.mod_eq_of_lt (by omega)
  simp only [varintBytes, h1, if_false, h2]

/-- The varint of a number from `1<<7` on: its low seven bits with the
continuation bit, then the varint of the rest. -/
theorem varintBytes_large (n v : Nat) (h : 128 ≤ v) :
    varintBytes (n + 1) v = (v % 128 + 128) :: varintBytes n (v / 128) := by
  have h1 : v ≥ 1 <<< 7 := by
    have : (1 : Nat) <<< 7 = 128 := by decide
    omega
  have h2 : v >>> 7 = v / 128 := Nat.shiftRight_eq_div_pow v 7
  simp only [varintBytes, h1, if_true, continuation_byte, h2]

/-- Reading a varint where `encodeVarintHeartbeat` wrote it gives the number
back, on top of the bits already read. -/
theorem readVarint_encoded :
    ∀ (n v shift value passes : Nat) (pre post : List Nat),
      v < 2 ^ (7 * n + 1) → value < 2 ^ shift → v * 2 ^ shift < 2 ^ 64 → shift < 64 →
      70 ≤ passes * 7 + shift →
      readVarint (pre ++ varintBytes (n + 1) v ++ post) passes shift pre.length value =
        .ok (value + v * 2 ^ shift, ((pre.length + (varintBytes (n + 1) v).length : Nat) : Int)) := by
  intro n
  induction n with
  | zero =>
    intro v shift value passes pre post hv hvalue hfit hshift hpasses
    have hsmall : v < 128 := by
      have : (2 : Nat) ^ (7 * 0 + 1) = 2 := by norm_num
      omega
    obtain ⟨p, rfl⟩ : ∃ p, passes = p + 1 := ⟨passes - 1, by omega⟩
    rw [varintBytes_small 0 v hsmall]
    have hlist : pre ++ [v] ++ post = pre ++ v :: post := by simp
    have hlen : ¬ ((pre.length : Int) ≥ ((pre ++ v :: post).length : Nat)) := by
      simp
    have hmod : (v * 2 ^ shift) % 18446744073709551616 = v * 2 ^ shift :=
      Nat.mod_eq_of_lt (by simpa using hfit)
    rw [hlist]
    simp only [readVarint, hlen, if_false, byteAt_append, last_bits v hsmall,
      Nat.shiftLeft_eq, hmod, or_shifted value v shift hvalue]
    have h1 : ¬ shift ≥ 64 := by omega
    have h2 : v < 0x80 := hsmall
    simp [h1, h2]
  | succ k ih =>
    intro v shift value passes pre post hv hvalue hfit hshift hpasses
    obtain ⟨p, rfl⟩ : ∃ p, passes = p + 1 := ⟨passes - 1, by omega⟩
    have h1 : ¬ shift ≥ 64 := by omega
    by_cases hsmall : v < 128
    · rw [varintBytes_small (k + 1) v hsmall]
      have hlist : pre ++ [v] ++ post = pre ++ v :: post := by simp
      have hlen : ¬ ((pre.length : Int) ≥ ((pre ++ v :: post).length : Nat)) := by
        simp
      have hmod : (v * 2 ^ shift) % 18446744073709551616 = v * 2 ^ shift :=
        Nat.mod_eq_of_lt (by simpa using hfit)
      rw [hlist]
      simp only [readVarint, hlen, if_false, byteAt_append, last_bits v hsmall,
        Nat.shiftLeft_eq, hmod, or_shifted value v shift hvalue]
      have h2 : v < 0x80 := hsmall
      simp [h1, h2]
    · have hlarge : 128 ≤ v := by omega
      rw [varintBytes_large (k + 1) v hlarge]
      have hr : v % 128 < 128 := Nat.mod_lt _ (by decide)
      obtain ⟨hbits, hcont⟩ := continuation_bits (v % 128) hr
      have hlist : pre ++ (v % 128 + 128) :: varintBytes (k + 1) (v / 128) ++ post =
          pre ++ (v % 128 + 128) :: (varintBytes (k + 1) (v / 128) ++ post) := by simp
      have hlen : ¬ ((pre.length : Int) ≥
          ((pre ++ (v % 128 + 128) :: (varintBytes (k + 1) (v / 128) ++ post)).length : Nat)) := by
        simp
        omega
      have hle : v % 128 * 2 ^ shift ≤ v * 2 ^ shift :=
        Nat.mul_le_mul_right _ (Nat.mod_le v 128)
      have hmod : (v % 128 * 2 ^ shift) % 18446744073709551616 = v % 128 * 2 ^ shift :=
        Nat.mod_eq_of_lt (by
          have : v * 2 ^ shift < 18446744073709551616 := by simpa using hfit
          omega)
      rw [hlist]
      simp only [readVarint, h1, hlen, if_false, byteAt_append, hbits, hcont,
        Nat.shiftLeft_eq, hmod, or_shifted value (v % 128) shift hvalue]
      have hpow : 2 ^ (shift + 7) = 2 ^ shift * 128 := by
        rw [pow_add]
        norm_num
      have hq : 1 ≤ v / 128 := Nat.div_pos hlarge (by decide)
      have hqle : v / 128 * 128 ≤ v := Nat.div_mul_le_self v 128
      have hqfit : v / 128 * 2 ^ (shift + 7) < 2 ^ 64 := by
        rw [hpow]
        calc v / 128 * (2 ^ shift * 128) = (v / 128 * 128) * 2 ^ shift := by ring
          _ ≤ v * 2 ^ shift := Nat.mul_le_mul_right _ hqle
          _ < 2 ^ 64 := hfit
      have hshift7 : shift + 7 < 64 := by
        have hone : 2 ^ (shift + 7) ≤ v / 128 * 2 ^ (shift + 7) := Nat.le_mul_of_pos_left _ hq
        have hlt : 2 ^ (shift + 7) < 2 ^ 64 := lt_of_le_of_lt hone hqfit
        exact (Nat.pow_lt_pow_iff_right (by decide)).mp hlt
      have hvq : v / 128 < 2 ^ (7 * k + 1) := by
        have h8 : (2 : Nat) ^ (7 * (k + 1) + 1) = 2 ^ (7 * k + 1) * 128 := by
          have : 7 * (k + 1) + 1 = (7 * k + 1) + 7 := by ring
          rw [this, pow_add]
          norm_num
        rw [h8] at hv
        exact Nat.div_lt_of_lt_mul (by omega)
      have hvalue7 : value + v % 128 * 2 ^ shift < 2 ^ (shift + 7) := by
        rw [hpow]
        have : v % 128 * 2 ^ shift ≤ 127 * 2 ^ shift := Nat.mul_le_mul_right _ (by omega)
        omega
      have hidx : ((pre.length : Int) + 1) = ((pre ++ [v % 128 + 128]).length : Nat) := by
        simp
      have hlist2 : pre ++ (v % 128 + 128) :: (varintBytes (k + 1) (v / 128) ++ post) =
          (pre ++ [v % 128 + 128]) ++ varintBytes (k + 1) (v / 128) ++ post := by simp
      rw [hidx, hlist2, ih (v / 128) (shift + 7) (value + v % 128 * 2 ^ shift) p
        (pre ++ [v % 128 + 128]) post hvq hvalue7 hqfit hshift7 (by omega)]
      congr 2
      · rw [hpow]
        have hdm : v = v / 128 * 128 + v % 128 := (Nat.div_add_mod' v 128).symm
        generalize v / 128 = q at *
        generalize v % 128 = r at *
        rw [hdm]
        ring
      · simp
        omega

/-- The bound on a number after a shift by seven bits. -/
theorem div_128_lt (k v : Nat) (hv : v < 2 ^ (7 * (k + 1) + 1)) : v / 128 < 2 ^ (7 * k + 1) := by
  have h8 : (2 : Nat) ^ (7 * (k + 1) + 1) = 2 ^ (7 * k + 1) * 128 := by
    have : 7 * (k + 1) + 1 = (7 * k + 1) + 7 := by ring
    rw [this, pow_add]
    norm_num
  rw [h8] at hv
  exact Nat.div_lt_of_lt_mul (by omega)

/-- A number below 2 is below `1<<7`. -/
theorem lt_128_of_lt_two (v : Nat) (hv : v < 2 ^ (7 * 0 + 1)) : v < 128 := by
  have : (2 : Nat) ^ (7 * 0 + 1) = 2 := by norm_num
  omega

/-- The function `encodeVarintHeartbeat` writes the bytes of the varint over
the bytes at the offset, when the buffer has room for them. -/
theorem encodeVarintFrom_spec :
    ∀ (n v : Nat) (pre mid post : List Nat), v < 2 ^ (7 * n + 1) →
      mid.length = (varintBytes (n + 1) v).length →
      encodeVarintFrom (n + 1) (pre ++ mid ++ post) pre.length v =
        .ok (pre ++ varintBytes (n + 1) v ++ post,
          ((pre.length + (varintBytes (n + 1) v).length : Nat) : Int)) := by
  intro n
  induction n with
  | zero =>
    intro v pre mid post hv hmid
    have hsmall := lt_128_of_lt_two v hv
    rw [varintBytes_small 0 v hsmall] at hmid ⊢
    obtain ⟨x, rfl⟩ : ∃ x, mid = [x] := by
      cases mid with
      | nil => simp at hmid
      | cons x xs =>
        cases xs with
        | nil => exact ⟨x, rfl⟩
        | cons y ys => simp at hmid
    have h1 : ¬ v ≥ 1 <<< 7 := by
      have : (1 : Nat) <<< 7 = 128 := by decide
      omega
    have h2 : v % 256 = v := Nat.mod_eq_of_lt (by omega)
    have hlist : pre ++ [x] ++ post = pre ++ x :: post := by simp
    rw [hlist]
    simp only [encodeVarintFrom, h1, if_false, h2, setByte_append]
    simp
  | succ k ih =>
    intro v pre mid post hv hmid
    by_cases hsmall : v < 128
    · rw [varintBytes_small (k + 1) v hsmall] at hmid ⊢
      obtain ⟨x, rfl⟩ : ∃ x, mid = [x] := by
        cases mid with
        | nil => simp at hmid
        | cons x xs =>
          cases xs with
          | nil => exact ⟨x, rfl⟩
          | cons y ys => simp at hmid
      have h1 : ¬ v ≥ 1 <<< 7 := by
        have : (1 : Nat) <<< 7 = 128 := by decide
        omega
      have h2 : v % 256 = v := Nat.mod_eq_of_lt (by omega)
      have hlist : pre ++ [x] ++ post = pre ++ x :: post := by simp
      rw [hlist]
      simp only [encodeVarintFrom, h1, if_false, h2, setByte_append]
      simp
    · have hlarge : 128 ≤ v := by omega
      rw [varintBytes_large (k + 1) v hlarge] at hmid ⊢
      obtain ⟨x, rest, rfl⟩ : ∃ x rest, mid = x :: rest := by
        cases mid with
        | nil => simp at hmid
        | cons x xs => exact ⟨x, xs, rfl⟩
      have hrest : rest.length = (varintBytes (k + 1) (v / 128)).length := by
        simpa using hmid
      have h1 : v ≥ 1 <<< 7 := by
        have : (1 : Nat) <<< 7 = 128 := by decide
        omega
      have h2 : v >>> 7 = v / 128 := Nat.shiftRight_eq_div_pow v 7
      have hlist : pre ++ x :: rest ++ post = pre ++ x :: (rest ++ post) := by simp
      have hlist2 : pre ++ (v % 128 + 128) :: (rest ++ post) =
          (pre ++ [v % 128 + 128]) ++ rest ++ post := by simp
      have hidx : ((pre.length : Int) + 1) = ((pre ++ [v % 128 + 128]).length : Nat) := by
        simp
      rw [hlist, encodeVarintFrom]
      simp only [h1, if_true, continuation_byte, setByte_append, h2]
      rw [hlist2, hidx, ih (v / 128) (pre ++ [v % 128 + 128]) rest post (div_128_lt k v hv) hrest]
      congr 2
      · simp
      · simp
        omega

/-- The function `sovHeartbeat` counts the bytes of the varint. -/
theorem sovFrom_spec :
    ∀ (n v : Nat) (count : Int), v < 2 ^ (7 * n + 1) →
      sovFrom (n + 1) v count = count + (varintBytes (n + 1) v).length := by
  intro n
  induction n with
  | zero =>
    intro v count hv
    have hsmall := lt_128_of_lt_two v hv
    have h2 : v >>> 7 = 0 := by
      rw [Nat.shiftRight_eq_div_pow]
      exact Nat.div_eq_of_lt (by simpa using hsmall)
    rw [varintBytes_small 0 v hsmall]
    simp [sovFrom, h2]
  | succ k ih =>
    intro v count hv
    by_cases hsmall : v < 128
    · have h2 : v >>> 7 = 0 := by
        rw [Nat.shiftRight_eq_div_pow]
        exact Nat.div_eq_of_lt (by simpa using hsmall)
      rw [varintBytes_small (k + 1) v hsmall]
      simp [sovFrom, h2]
    · have hlarge : 128 ≤ v := by omega
      have h2 : v >>> 7 = v / 128 := Nat.shiftRight_eq_div_pow v 7
      have hq : v / 128 ≠ 0 := by
        have := Nat.div_pos hlarge (by decide : 0 < 128)
        omega
      rw [varintBytes_large (k + 1) v hlarge, sovFrom]
      simp only [h2, hq, if_false]
      rw [ih (v / 128) (count + 1) (div_128_lt k v hv)]
      simp
      omega

/-- A varint has a byte at least. -/
theorem varintBytes_length_pos (n v : Nat) : 1 ≤ (varintBytes (n + 1) v).length := by
  unfold varintBytes
  split <;> simp

/-- A write at an index, given as the length of what lies before it. -/
theorem setByte_at (pre : List Nat) (x b : Nat) (post : List Nat) (i : Int)
    (hi : i = pre.length) : setByte (pre ++ x :: post) i b = .ok (pre ++ b :: post) := by
  rw [hi]
  exact setByte_append pre x b post

/-- The varint of a `uint64` written at an offset, given as the length of
what lies before it. -/
theorem encodeVarintHeartbeat_at (x : Int) (pre mid post : List Nat) (i : Int)
    (hi : i = pre.length) (hmid : mid.length = (varintBytes 10 (toUint64 x)).length) :
    encodeVarintHeartbeat (pre ++ mid ++ post) i (toUint64 x) =
      .ok (pre ++ varintBytes 10 (toUint64 x) ++ post,
        i + (varintBytes 10 (toUint64 x)).length) := by
  rw [hi]
  unfold encodeVarintHeartbeat
  rw [encodeVarintFrom_spec 9 (toUint64 x) pre mid post (toUint64_lt x) hmid]
  simp

/-- The size of a `RemoteOffset` is the number of its bytes. -/
theorem RemoteOffset.Size_eq (m : RemoteOffset) : m.Size = (m.bytes.length : Nat) := by
  unfold RemoteOffset.Size RemoteOffset.bytes sovHeartbeat
  rw [sovFrom_spec 9 _ 0 (toUint64_lt m.Offset), sovFrom_spec 9 _ 0 (toUint64_lt m.Uncertainty),
    sovFrom_spec 9 _ 0 (toUint64_lt m.MeasuredAt)]
  simp
  omega

/-- On a buffer with room for the three fields, `MarshalTo` writes the bytes
of the message over its start. -/
theorem RemoteOffset.MarshalTo_spec (m : RemoteOffset) (b0 b1 b2 : Nat)
    (m1 m2 m3 post : List Nat)
    (h1 : m1.length = (varintBytes 10 (toUint64 m.Offset)).length)
    (h2 : m2.length = (varintBytes 10 (toUint64 m.Uncertainty)).length)
    (h3 : m3.length = (varintBytes 10 (toUint64 m.MeasuredAt)).length) :
    m.MarshalTo (b0 :: (m1 ++ b1 :: (m2 ++ b2 :: (m3 ++ post)))) =
      .ok (m.bytes ++ post, (m.bytes.length : Nat)) := by
  have s0 : setByte (b0 :: (m1 ++ b1 :: (m2 ++ b2 :: (m3 ++ post)))) 0 0x8 =
      .ok ([0x8] ++ m1 ++ (b1 :: (m2 ++ b2 :: (m3 ++ post)))) :=
    setByte_at [] b0 0x8 _ 0 rfl
  have e1 := encodeVarintHeartbeat_at m.Offset [0x8] m1 (b1 :: (m2 ++ b2 :: (m3 ++ post)))
    (0 + 1) (by simp) h1
  have s1 : setByte ([0x8] ++ varintBytes 10 (toUint64 m.Offset) ++
      b1 :: (m2 ++ b2 :: (m3 ++ post)))
      (0 + 1 + ((varintBytes 10 (toUint64 m.Offset)).length : Int)) 0x10 =
      .ok (([0x8] ++ varintBytes 10 (toUint64 m.Offset) ++ [0x10]) ++ m2 ++
        (b2 :: (m3 ++ post))) := by
    have := setByte_at ([0x8] ++ varintBytes 10 (toUint64 m.Offset)) b1 0x10
      (m2 ++ b2 :: (m3 ++ post))
      (0 + 1 + ((varintBytes 10 (toUint64 m.Offset)).length : Int)) (by simp; omega)
    rw [this]
    simp
  have e2 := encodeVarintHeartbeat_at m.Uncertainty
    ([0x8] ++ varintBytes 10 (toUint64 m.Offset) ++ [0x10]) m2 (b2 :: (m3 ++ post))
    (0 + 1 + ((varintBytes 10 (toUint64 m.Offset)).length : Int) + 1) (by simp; omega) h2
  have s2 : setByte (([0x8] ++ varintBytes 10 (toUint64 m.Offset) ++ [0x10]) ++
      varintBytes 10 (toUint64 m.Uncertainty) ++ b2 :: (m3 ++ post))
      (0 + 1 + ((varintBytes 10 (toUint64 m.Offset)).length : Int) + 1 +
        ((varintBytes 10 (toUint64 m.Uncertainty)).length : Int)) 0x18 =
      .ok (([0x8] ++ varintBytes 10 (toUint64 m.Offset) ++ [0x10] ++
        varintBytes 10 (toUint64 m.Uncertainty) ++ [0x18]) ++ m3 ++ post) := by
    have := setByte_at ([0x8] ++ varintBytes 10 (toUint64 m.Offset) ++ [0x10] ++
      varintBytes 10 (toUint64 m.Uncertainty)) b2 0x18 (m3 ++ post)
      (0 + 1 + ((varintBytes 10 (toUint64 m.Offset)).length : Int) + 1 +
        ((varintBytes 10 (toUint64 m.Uncertainty)).length : Int)) (by simp; omega)
    rw [this]
    simp
  have e3 := encodeVarintHeartbeat_at m.MeasuredAt
    ([0x8] ++ varintBytes 10 (toUint64 m.Offset) ++ [0x10] ++
      varintBytes 10 (toUint64 m.Uncertainty) ++ [0x18]) m3 post
    (0 + 1 + ((varintBytes 10 (toUint64 m.Offset)).length : Int) + 1 +
      ((varintBytes 10 (toUint64 m.Uncertainty)).length : Int) + 1) (by simp; omega) h3
  unfold RemoteOffset.MarshalTo
  simp only [s0, e1, s1, e2, s2, e3]
  unfold RemoteOffset.bytes
  simp
  omega

/-- One pass of the loop of `Unmarshal` over the field Offset written by
`MarshalTo`: the tag 0x8 and the varint. -/
theorem RemoteOffset.unmarshalFrom_Offset (x : Int) (pre post : List Nat) (passes : Nat)
    (m : RemoteOffset) :
    RemoteOffset.unmarshalFrom (pre ++ [0x8] ++ varintBytes 10 (toUint64 x) ++ post)
        (passes + 1) pre.length m =
      RemoteOffset.unmarshalFrom (pre ++ [0x8] ++ varintBytes 10 (toUint64 x) ++ post) passes
        ((pre.length + 1 + (varintBytes 10 (toUint64 x)).length : Nat) : Int)
        { m with Offset := toInt64 (toUint64 x) } := by
  have htag : varintBytes 10 0x8 = [0x8] := by decide
  have hread1 := readVarint_encoded 9 0x8 0 0 10 pre (varintBytes 10 (toUint64 x) ++ post)
    (by norm_num) (by norm_num) (by norm_num) (by norm_num) (by norm_num)
  rw [htag] at hread1
  have hread2 := readVarint_encoded 9 (toUint64 x) 0 0 10 (pre ++ [0x8]) post
    (toUint64_lt x) (by norm_num) (by
      have := toUint64_lt x
      simpa using this) (by norm_num) (by norm_num)
  have hl1 : pre ++ [0x8] ++ (varintBytes 10 (toUint64 x) ++ post) =
      pre ++ [0x8] ++ varintBytes 10 (toUint64 x) ++ post := by simp
  rw [hl1] at hread1
  have hidx : ((pre.length + [0x8].length : Nat) : Int) = ((pre ++ [0x8]).length : Nat) := by
    simp
  rw [hidx] at hread1
  have hlt : (pre.length : Int) <
      ((pre ++ [0x8] ++ varintBytes 10 (toUint64 x) ++ post).length : Nat) := by
    simp
    omega
  have hnum : toInt32 ((0 + 0x8 * 2 ^ 0 : Nat) >>> 3 : Nat) = 1 := by decide
  have hwire : (0 + 0x8 * 2 ^ 0 : Nat) &&& 0x7 = 0 := by decide
  rw [RemoteOffset.unmarshalFrom]
  simp only [hlt, if_true, hread1, hnum, hwire, hread2]
  simp

/-- One pass of the loop of `Unmarshal` over the field Uncertainty written by
`MarshalTo`: the tag 0x10 and the varint. -/
theorem RemoteOffset.unmarshalFrom_Uncertainty (x : Int) (pre post : List Nat) (passes : Nat)
    (m : RemoteOffset) :
    RemoteOffset.unmarshalFrom (pre ++ [0x10] ++ varintBytes 10 (toUint64 x) ++ post)
        (passes + 1) pre.length m =
      RemoteOffset.unmarshalFrom (pre ++ [0x10] ++ varintBytes 10 (toUint64 x) ++ post) passes
        ((pre.length + 1 + (varintBytes 10 (toUint64 x)).length : Nat) : Int)
        { m with Uncertainty := toInt64 (toUint64 x) } := by
  have htag : varintBytes 10 0x10 = [0x10] := by decide
  have hread1 := readVarint_encoded 9 0x10 0 0 10 pre (varintBytes 10 (toUint64 x) ++ post)
    (by norm_num) (by norm_num) (by norm_num) (by norm_num) (by norm_num)
  rw [htag] at hread1
  have hread2 := readVarint_encoded 9 (toUint64 x) 0 0 10 (pre ++ [0x10]) post
    (toUint64_lt x) (by norm_num) (by
      have := toUint64_lt x
      simpa using this) (by norm_num) (by norm_num)
  have hl1 : pre ++ [0x10] ++ (varintBytes 10 (toUint64 x) ++ post) =
      pre ++ [0x10] ++ varintBytes 10 (toUint64 x) ++ post := by simp
  rw [hl1] at hread1
  have hidx : ((pre.length + [0x10].length : Nat) : Int) = ((pre ++ [0x10]).length : Nat) := by
    simp
  rw [hidx] at hread1
  have hlt : (pre.length : Int) <
      ((pre ++ [0x10] ++ varintBytes 10 (toUint64 x) ++ post).length : Nat) := by
    simp
    omega
  have hnum : toInt32 ((0 + 0x10 * 2 ^ 0 : Nat) >>> 3 : Nat) = 2 := by decide
  have hwire : (0 + 0x10 * 2 ^ 0 : Nat) &&& 0x7 = 0 := by decide
  rw [RemoteOffset.unmarshalFrom]
  simp only [hlt, if_true, hread1, hnum, hwire, hread2]
  simp

/-- One pass of the loop of `Unmarshal` over the field MeasuredAt written by
`MarshalTo`: the tag 0x18 and the varint. -/
theorem RemoteOffset.unmarshalFrom_MeasuredAt (x : Int) (pre post : List Nat) (passes : Nat)
    (m : RemoteOffset) :
    RemoteOffset.unmarshalFrom (pre ++ [0x18] ++ varintBytes 10 (toUint64 x) ++ post)
        (passes + 1) pre.length m =
      RemoteOffset.unmarshalFrom (pre ++ [0x18] ++ varintBytes 10 (toUint64 x) ++ post) passes
        ((pre.length + 1 + (varintBytes 10 (toUint64 x)).length : Nat) : Int)
        { m with MeasuredAt := toInt64 (toUint64 x) } := by
  have htag : varintBytes 10 0x18 = [0x18] := by decide
  have hread1 := readVarint_encoded 9 0x18 0 0 10 pre (varintBytes 10 (toUint64 x) ++ post)
    (by norm_num) (by norm_num) (by norm_num) (by norm_num) (by norm_num)
  rw [htag] at hread1
  have hread2 := readVarint_encoded 9 (toUint64 x) 0 0 10 (pre ++ [0x18]) post
    (toUint64_lt x) (by norm_num) (by
      have := toUint64_lt x
      simpa using this) (by norm_num) (by norm_num)
  have hl1 : pre ++ [0x18] ++ (varintBytes 10 (toUint64 x) ++ post) =
      pre ++ [0x18] ++ varintBytes 10 (toUint64 x) ++ post := by simp
  rw [hl1] at hread1
  have hidx : ((pre.length + [0x18].length : Nat) : Int) = ((pre ++ [0x18]).length : Nat) := by
    simp
  rw [hidx] at hread1
  have hlt : (pre.length : Int) <
      ((pre ++ [0x18] ++ varintBytes 10 (toUint64 x) ++ post).length : Nat) := by
    simp
    omega
  have hnum : toInt32 ((0 + 0x18 * 2 ^ 0 : Nat) >>> 3 : Nat) = 3 := by decide
  have hwire : (0 + 0x18 * 2 ^ 0 : Nat) &&& 0x7 = 0 := by decide
  rw [RemoteOffset.unmarshalFrom]
  simp only [hlt, if_true, hread1, hnum, hwire, hread2]
  simp

/-- A buffer of zeros as long as the bytes of three fields, field by field. -/
theorem replicate_fields (a b c : Nat) :
    List.replicate (1 + a + 1 + b + 1 + c) 0 =
      0 :: (List.replicate a 0 ++ 0 :: (List.replicate b 0 ++ 0 :: (List.replicate c 0 ++ []))) := by
  symm
  rw [List.eq_replicate_iff]
  constructor
  · simp
    omega
  · intro x hx
    simp at hx
    rcases hx with h | h | h | h | h | h
    · exact h
    · exact h.2
    · exact h
    · exact h.2
    · exact h
    · exact h.2

/-- The number of bytes of a marshalled `RemoteOffset`. -/
theorem RemoteOffset.bytes_length (m : RemoteOffset) :
    m.bytes.length = 1 + (varintBytes 10 (toUint64 m.Offset)).length + 1 +
      (varintBytes 10 (toUint64 m.Uncertainty)).length + 1 +
      (varintBytes 10 (toUint64 m.MeasuredAt)).length := by
  unfold RemoteOffset.bytes
  simp
  omega

/-- The method `Marshal` returns the bytes of the three fields. -/
theorem RemoteOffset.Marshal_eq (m : RemoteOffset) : m.Marshal = .ok m.bytes := by
  unfold RemoteOffset.Marshal
  simp only [RemoteOffset.Size_eq, Int.toNat_ofNat]
  rw [RemoteOffset.bytes_length, replicate_fields,
    RemoteOffset.MarshalTo_spec m 0 0 0 _ _ _ [] (by simp) (by simp) (by simp)]
  simp [sliceOf]

/-- The method `Unmarshal` on the bytes of a message whose fields are `int64`
values gives the message. -/
theorem RemoteOffset.Unmarshal_bytes (m : RemoteOffset) (h1 : isInt64 m.Offset)
    (h2 : isInt64 m.Uncertainty) (h3 : isInt64 m.MeasuredAt) :
    RemoteOffset.Unmarshal {} m.bytes = .ok m := by
  unfold RemoteOffset.Unmarshal
  have hlen : m.bytes.length + 1 = (m.bytes.length - 3) + 1 + 1 + 1 + 1 := by
    have := RemoteOffset.bytes_length m
    omega
  rw [hlen]
  have hb : m.bytes = [0x8] ++ varintBytes 10 (toUint64 m.Offset) ++ [0x10] ++
      varintBytes 10 (toUint64 m.Uncertainty) ++ [0x18] ++
      varintBytes 10 (toUint64 m.MeasuredAt) := rfl
  have f1 := RemoteOffset.unmarshalFrom_Offset m.Offset []
    ([0x10] ++ varintBytes 10 (toUint64 m.Uncertainty) ++ [0x18] ++
      varintBytes 10 (toUint64 m.MeasuredAt)) (m.bytes.length - 3 + 1 + 1 + 1) {}
  have f2 := RemoteOffset.unmarshalFrom_Uncertainty m.Uncertainty
    ([0x8] ++ varintBytes 10 (toUint64 m.Offset))
    ([0x18] ++ varintBytes 10 (toUint64 m.MeasuredAt)) (m.bytes.length - 3 + 1 + 1)
    { Offset := toInt64 (toUint64 m.Offset) }
  have f3 := RemoteOffset.unmarshalFrom_MeasuredAt m.MeasuredAt
    ([0x8] ++ varintBytes 10 (toUint64 m.Offset) ++ [0x10] ++
      varintBytes 10 (toUint64 m.Uncertainty)) [] (m.bytes.length - 3 + 1)
    { Offset := toInt64 (toUint64 m.Offset), Uncertainty := toInt64 (toUint64 m.Uncertainty) }
  have e1 : [] ++ [0x8] ++ varintBytes 10 (toUint64 m.Offset) ++
      ([0x10] ++ varintBytes 10 (toUint64 m.Uncertainty) ++ [0x18] ++
        varintBytes 10 (toUint64 m.MeasuredAt)) = m.bytes := by
    rw [hb]
    simp
  have e2 : [0x8] ++ varintBytes 10 (toUint64 m.Offset) ++ [0x10] ++
      varintBytes 10 (toUint64 m.Uncertainty) ++
      ([0x18] ++ varintBytes 10 (toUint64 m.MeasuredAt)) = m.bytes := by
    rw [hb]
    simp
  have e3 : [0x8] ++ varintBytes 10 (toUint64 m.Offset) ++ [0x10] ++
      varintBytes 10 (toUint64 m.Uncertainty) ++ [0x18] ++
      varintBytes 10 (toUint64 m.MeasuredAt) ++ [] = m.bytes := by
    rw [hb]
    simp
  rw [e1] at f1
  rw [e2] at f2
  rw [e3] at f3
  have i1 : ((([] : List Nat).length : Nat) : Int) = 0 := rfl
  rw [i1] at f1
  have i2 : (((([] : List Nat).length + 1 + (varintBytes 10 (toUint64 m.Offset)).length : Nat)) :
      Int) = ((([0x8] ++ varintBytes 10 (toUint64 m.Offset)).length : Nat) : Int) := by
    simp
    omega
  have i3 : (((([0x8] ++ varintBytes 10 (toUint64 m.Offset)).length + 1 +
      (varintBytes 10 (toUint64 m.Uncertainty)).length : Nat)) : Int) =
      ((([0x8] ++ varintBytes 10 (toUint64 m.Offset) ++ [0x10] ++
        varintBytes 10 (toUint64 m.Uncertainty)).length : Nat) : Int) := by
    simp
    omega
  have i4 : (((([0x8] ++ varintBytes 10 (toUint64 m.Offset) ++ [0x10] ++
      varintBytes 10 (toUint64 m.Uncertainty)).length + 1 +
      (varintBytes 10 (toUint64 m.MeasuredAt)).length : Nat)) : Int) =
      ((m.bytes.length : Nat) : Int) := by
    rw [hb]
    simp
    omega
  rw [f1, i2, f2, i3, f3, i4, RemoteOffset.unmarshalFrom]
  simp only [lt_self_iff_false, if_false, gt_iff_lt]
  rw [toInt64_toUint64 _ h1, toInt64_toUint64 _ h2, toInt64_toUint64 _ h3]

/-- C29: for every `RemoteOffset` of three `int64` values, negative ones
included, `Marshal` succeeds and produces exactly `Size()` bytes, and
`Unmarshal` of those bytes into a zero `RemoteOffset` succeeds and yields the
message. -/
theorem remote_offset_round_trip (m : RemoteOffset) (h1 : isInt64 m.Offset)
    (h2 : isInt64 m.Uncertainty) (h3 : isInt64 m.MeasuredAt) :
    ∃ dAtA : List Nat, m.Marshal = .ok dAtA ∧ (dAtA.length : Int) = m.Size ∧
      RemoteOffset.Unmarshal {} dAtA = .ok m :=
  ⟨m.bytes, RemoteOffset.Marshal_eq m, (RemoteOffset.Size_eq m).symm,
    RemoteOffset.Unmarshal_bytes m h1 h2 h3⟩

/-- C29, at a concrete input: the offset 5, the uncertainty 300 and the
measurement time -1, which takes the ten bytes of a varint. -/
theorem remote_offset_round_trip_witness :
    RemoteOffset.Marshal { Offset := 5, Uncertainty := 300, MeasuredAt := -1 } =
        .ok [0x08, 0x05, 0x10, 0xac, 0x02, 0x18, 0xFF, 0xFF, 0xFF, 0xFF, 0xFF, 0xFF, 0xFF,
          0xFF, 0xFF, 0x01] ∧
      ∃ dAtA : List Nat,
        RemoteOffset.Marshal { Offset := 5, Uncertainty := 300, MeasuredAt := -1 } = .ok dAtA ∧
        (dAtA.length : Int) =
          RemoteOffset.Size { Offset := 5, Uncertainty := 300, MeasuredAt := -1 } ∧
        RemoteOffset.Unmarshal {} dAtA =
          .ok { Offset := 5, Uncertainty := 300, MeasuredAt := -1 } :=
  ⟨by decide,
    remote_offset_round_trip { Offset := 5, Uncertainty := 300, MeasuredAt := -1 }
      ⟨by decide, by decide⟩ ⟨by decide, by decide⟩ ⟨by decide, by decide⟩⟩

end Backup
